import Mathlib

/-!
Verification of the graph-coloring register allocator of the `lightning`
repository (`src/ir/mopt_ralloc.cpp`) and its ABI descriptor
(`include/ir/arch.hpp`), as a shallow embedding in Lean 4.

Machine bitsets (`util::bitset`) whose elements are register ids are embedded
either as natural-number bitmasks (adjacency sets of interference-graph nodes,
the 64-bit `color_mask`) or as `Finset ℕ` (the data-flow sets `df_def`,
`df_ref`, `df_in_live`, `df_out_live`).  Node priorities are `float` in the
source and are only ever (a) seeded as `(use_count + 1) * 12.0f` and
(b) compared; every value of that form below `2 ^ 20` is exactly representable
in `float` and the comparison order coincides with the order of the natural
number `(use_count + 1) * 12`, which is how priorities are embedded here.
-/

namespace LightningRA

/-! ### Bit utilities

`util::bitset` popcount / `std::countr_zero` counterparts over ℕ bitmasks. -/

/-- Fuelled bit-counting loop (`n` halves each step, so fuel `n` is always
enough; kept structural so concrete instances reduce in the kernel). -/
def bitCountGo : ℕ → ℕ → ℕ
  | 0, _ => 0
  | fuel + 1, n => if n = 0 then 0 else n % 2 + bitCountGo fuel (n / 2)

/-- Number of set bits of a natural number (`util::bitset::popcount`). -/
def bitCount (n : ℕ) : ℕ := bitCountGo n n

theorem bitCountGo_congr : ∀ fuel fuel' n : ℕ, n ≤ fuel → n ≤ fuel' →
    bitCountGo fuel n = bitCountGo fuel' n := by
  intro fuel
  induction fuel with
  | zero =>
    intro fuel' n h1 _
    have hn : n = 0 := by omega
    subst hn
    cases fuel' <;> simp [bitCountGo]
  | succ fuel ih =>
    intro fuel' n h1 h2
    cases fuel' with
    | zero =>
      have hn : n = 0 := by omega
      subst hn
      simp [bitCountGo]
    | succ fuel' =>
      by_cases hn : n = 0
      · subst hn; simp [bitCountGo]
      · simp only [bitCountGo, hn, if_false]
        have hd : n / 2 < n := Nat.div_lt_self (Nat.pos_of_ne_zero hn) (by omega)
        rw [ih fuel' (n / 2) (by omega) (by omega)]

/-- The recursion `bit_count n = n % 2 + bit_count (n / 2)`. -/
theorem bitCount_eq (n : ℕ) :
    bitCount n = if n = 0 then 0 else n % 2 + bitCount (n / 2) := by
  by_cases hn : n = 0
  · subst hn; simp [bitCount, bitCountGo]
  · rw [if_neg hn]
    unfold bitCount
    cases n with
    | zero => exact absurd rfl hn
    | succ m =>
      simp only [bitCountGo, hn, if_false]
      have hd : (m + 1) / 2 < m + 1 := Nat.div_lt_self (by omega) (by omega)
      rw [bitCountGo_congr m ((m + 1) / 2) ((m + 1) / 2) (by omega) (le_refl _)]

/-- Set bit `k` of the mask `n`. -/
def setBit (n k : ℕ) : ℕ := n ||| 2 ^ k

/-- Clear bit `k` of the mask `n`. -/
def clearBit (n k : ℕ) : ℕ := (n >>> (k + 1)) <<< (k + 1) ||| n % 2 ^ k

theorem testBit_setBit (n k j : ℕ) :
    (setBit n k).testBit j = (n.testBit j || decide (k = j)) := by
  simp [setBit, Nat.testBit_lor, Nat.testBit_two_pow]

theorem testBit_clearBit (n k j : ℕ) :
    (clearBit n k).testBit j = (n.testBit j && !decide (k = j)) := by
  rw [clearBit, Nat.testBit_lor, Nat.testBit_shiftLeft, Nat.testBit_mod_two_pow]
  rcases Nat.lt_trichotomy j k with h | h | h
  · have h1 : ¬(k + 1 ≤ j) := by omega
    have h2 : k ≠ j := by omega
    simp [h1, h, h2]
  · subst h
    have h1 : ¬(j + 1 ≤ j) := by omega
    simp [h1]
  · have h1 : k + 1 ≤ j := by omega
    have h2 : ¬(j < k) := by omega
    have h3 : k ≠ j := by omega
    rw [Nat.testBit_shiftRight]
    have h4 : k + 1 + (j - (k + 1)) = j := by omega
    simp [h1, h2, h3, h4]

theorem setBit_clearBit_of_testBit {n k : ℕ} (h : n.testBit k = true) :
    setBit (clearBit n k) k = n := by
  apply Nat.eq_of_testBit_eq
  intro j
  rw [testBit_setBit, testBit_clearBit]
  by_cases hkj : k = j
  · subst hkj; simp [h]
  · simp [hkj]

theorem bitCount_eq_zero {n : ℕ} : bitCount n = 0 ↔ n = 0 := by
  induction n using Nat.strong_induction_on with
  | _ n ih =>
    constructor
    · intro h
      by_contra hn
      rw [bitCount_eq, if_neg hn] at h
      have hd : n / 2 < n := Nat.div_lt_self (Nat.pos_of_ne_zero hn) (by omega)
      have hm : n % 2 = 0 := by omega
      have h2 : bitCount (n / 2) = 0 := by omega
      have := (ih (n / 2) hd).mp h2
      omega
    · intro h; subst h; rw [bitCount_eq]; simp

theorem bitCount_ne_zero_iff {n : ℕ} : bitCount n ≠ 0 ↔ n ≠ 0 :=
  not_congr bitCount_eq_zero

/-- `std::countr_zero` over the low 64 bits, scanning upward from bit `k`. -/
def ctzFrom : ℕ → ℕ → ℕ → ℕ
  | 0, k, _ => k
  | fuel + 1, k, n => if n.testBit k then k else ctzFrom fuel (k + 1) n

/-- `std::countr_zero` of a 64-bit mask: index of the lowest set bit among
bits `0..63`, or `64` when none of them is set. -/
def ctz64 (n : ℕ) : ℕ := ctzFrom 64 0 n

theorem ctzFrom_spec (fuel k n : ℕ) :
    (∀ j, k ≤ j → j < ctzFrom fuel k n → n.testBit j = false) ∧
      k ≤ ctzFrom fuel k n ∧ ctzFrom fuel k n ≤ k + fuel ∧
      (ctzFrom fuel k n < k + fuel → n.testBit (ctzFrom fuel k n) = true) := by
  induction fuel generalizing k with
  | zero =>
    refine ⟨?_, ?_, ?_, ?_⟩ <;> simp only [ctzFrom]
    · omega
    · omega
    · omega
    · omega
  | succ fuel ih =>
    by_cases h : n.testBit k
    · refine ⟨?_, ?_, ?_, ?_⟩ <;> simp only [ctzFrom, h, if_true]
      · omega
      · omega
      · omega
      · intro _; trivial
    · have h' : n.testBit k = false := by simpa using h
      rcases ih (k + 1) with ⟨h1, h2, h3, h4⟩
      refine ⟨?_, ?_, ?_, ?_⟩ <;>
        simp only [ctzFrom, h', Bool.false_eq_true, if_false]
      · intro j hj hj2
        rcases Nat.eq_or_lt_of_le hj with rfl | hlt
        · exact h'
        · exact h1 j hlt hj2
      · omega
      · omega
      · intro hlt; exact h4 (by omega)

theorem ctz64_le (n : ℕ) : ctz64 n ≤ 64 := by
  have h := (ctzFrom_spec 64 0 n).2.2.1
  simpa [ctz64] using h

theorem ctz64_testBit_below (n : ℕ) {j : ℕ} (hj : j < ctz64 n) :
    n.testBit j = false := by
  have h := (ctzFrom_spec 64 0 n).1
  exact h j (Nat.zero_le _) (by simpa [ctz64] using hj)

theorem ctz64_testBit (n : ℕ) (h : ctz64 n < 64) :
    n.testBit (ctz64 n) = true := by
  have h2 := (ctzFrom_spec 64 0 n).2.2.2
  simp only [ctz64] at h ⊢
  exact h2 (by omega)

/-- `ctz64` computes the least set-bit index when one exists below 64. -/
theorem ctz64_eq_least {n b : ℕ} (hb : b < 64) (hset : n.testBit b = true)
    (hleast : ∀ j < b, n.testBit j = false) : ctz64 n = b := by
  rcases lt_trichotomy (ctz64 n) b with h | h | h
  · have := hleast _ h
    have h2 : ctz64 n < 64 := by omega
    rw [ctz64_testBit n h2] at this
    exact absurd this (by simp)
  · exact h
  · have := ctz64_testBit_below n h
    rw [hset] at this
    exact absurd this (by simp)

/-! ### Machine registers (`mreg`)

Modelled from the spec: the `mreg` type itself lives in a header that is not
part of the sources under verification; the spec (§3) describes it as a 32-bit
`uid` whose space is partitioned into disjoint bands — `0` is null/absent,
`[1, vreg_first)` are reserved pseudo registers (flags, `vreg_vm`, `vreg_tos`,
`vreg_nargs`), a pre-colored physical band encoding a native register by sign
(`FP < 0 < GP`, color `= |phys|`), and freely-allocatable virtuals above.  The
band layout chosen here: uid 0 null; uids 1..7 the reserved pseudo band
(uid 1 the flag register, uids 2/3/4 `vreg_vm`/`vreg_tos`/`vreg_nargs`,
`vreg_first = 8`); uids 8..71 the GP physical band (`phys = uid - 7`,
1..64); uids 72..135 the FP physical band (`phys = -(uid - 71)`, -1..-64);
uids ≥ 136 allocatable virtuals, GP at even offsets and FP at odd offsets. -/

/-- A machine register, identified by its `uid` (spec §3). -/
structure MReg where
  uid : ℕ
deriving DecidableEq

/-- First allocatable virtual-register number (`vreg_first`). -/
def vregFirst : ℕ := 8

/-- First uid of the allocatable virtual band in the modelled encoding. -/
def virtBase : ℕ := 136

/-- The null register `mreg{}` (uid 0); `operator bool` is false on it. -/
def MReg.isNull (r : MReg) : Bool := r.uid = 0

/-- `mreg::is_flag`. -/
def MReg.isFlag (r : MReg) : Bool := r.uid = 1

/-- `mreg::is_virt`: true on the reserved pseudo band and the allocatable
virtual band. -/
def MReg.isVirt (r : MReg) : Bool :=
  (1 ≤ r.uid && r.uid < vregFirst) || virtBase ≤ r.uid

/-- `mreg::virt`: the virtual number; reserved pseudo registers keep their
uid (`< vreg_first`), allocatable virtuals number from `vreg_first` up. -/
def MReg.virt (r : MReg) : ℕ :=
  if r.uid < vregFirst then r.uid else r.uid - virtBase + vregFirst

/-- `mreg::is_phys`. -/
def MReg.isPhys (r : MReg) : Bool := 8 ≤ r.uid && r.uid ≤ 135

/-- `mreg::phys`: the signed physical register index (FP negative). -/
def MReg.phys (r : MReg) : ℤ :=
  if 8 ≤ r.uid ∧ r.uid ≤ 71 then (r.uid : ℤ) - 7
  else if 72 ≤ r.uid ∧ r.uid ≤ 135 then -((r.uid : ℤ) - 71)
  else 0

/-- `mreg::is_fp`. -/
def MReg.isFp (r : MReg) : Bool :=
  (72 ≤ r.uid && r.uid ≤ 135) ||
    (virtBase ≤ r.uid && (r.uid - virtBase) % 2 = 1)

/-- `mreg::from_uid`. -/
def mregFromUid (n : ℕ) : MReg := ⟨n⟩

/-- The reserved argument pseudo registers `vreg_vm`, `vreg_tos`,
`vreg_nargs`. -/
def vregVm : MReg := ⟨2⟩

def vregTos : MReg := ⟨3⟩

def vregNargs : MReg := ⟨4⟩

/-- `arch::reg` used as a constructor: wrap a signed physical index as an
`mreg` (`const_cast<mreg&>(r) = arch::reg(x)` in `allocate_registers`). -/
def physReg (x : ℤ) : MReg :=
  if 0 < x then ⟨(x.toNat + 7)⟩ else if x < 0 then ⟨((-x).toNat + 71)⟩ else ⟨0⟩

/-- `is_pseudo` (`mopt_ralloc.cpp`): flag registers and reserved virtuals
below `vreg_first` do not take part in allocation. -/
def isPseudo (r : MReg) : Bool :=
  r.isFlag || (r.isVirt && 0 < r.virt && r.virt < vregFirst)

/-- `interferes_with` (`mopt_ralloc.cpp`): pseudo registers never interfere,
and interference is class-local (GP with GP, FP with FP). -/
def interferesWith (a b : MReg) : Bool :=
  if isPseudo a || isPseudo b then false
  else a.isFp == b.isFp

/-! ### ABI descriptor (`include/ir/arch.hpp`)

Native register names are taken from the tables in `arch.hpp`; their numeric
values come from an external disassembler header and are irrelevant here, so
they are embedded as an inductive type. -/

/-- Native register identities named by `arch.hpp` (`zy::reg` values). -/
inductive NativeReg
  | RAX | RCX | RDX | RBX | RSP | RBP | RSI | RDI
  | R8 | R9 | R10 | R11 | R12 | R13 | R14 | R15
  | XMM0 | XMM1 | XMM2 | XMM3 | XMM4 | XMM5 | XMM6 | XMM7
  | XMM8 | XMM9 | XMM10 | XMM11 | XMM12 | XMM13 | XMM14 | XMM15
  | NO_REG
deriving DecidableEq

/-- The compile-time ABI descriptor of `arch.hpp` (one preprocessor branch). -/
structure AbiDesc where
  gpNonvolatile : List NativeReg
  gpVolatile : List NativeReg
  gpArgument : List NativeReg
  fpNonvolatile : List NativeReg
  fpVolatile : List NativeReg
  fpArgument : List NativeReg
  invalid : NativeReg
  combinedArgCounter : Bool

/-- The `LI_ABI_SYSV64` branch of `arch.hpp`. -/
def sysv64 : AbiDesc where
  gpNonvolatile := [.RBP, .RBX, .R12, .R13, .R14, .R15]
  gpVolatile := [.RAX, .RDI, .RSI, .RDX, .RCX, .R8, .R9, .R10, .R11]
  gpArgument := [.RDI, .RSI, .RDX, .RCX, .R8, .R9]
  fpNonvolatile := []
  fpVolatile := [.XMM0, .XMM1, .XMM2, .XMM3, .XMM4, .XMM5, .XMM6, .XMM7,
    .XMM8, .XMM9, .XMM10, .XMM11, .XMM12, .XMM13, .XMM14, .XMM15]
  fpArgument := [.XMM0, .XMM1, .XMM2, .XMM3, .XMM4, .XMM5, .XMM6, .XMM7]
  invalid := .NO_REG
  combinedArgCounter := false

/-- The `LI_ABI_MS64` branch of `arch.hpp`. -/
def ms64 : AbiDesc where
  gpNonvolatile := [.RBP, .RSI, .RDI, .RBX, .R12, .R13, .R14, .R15]
  gpVolatile := [.RAX, .RCX, .RDX, .R8, .R9, .R10, .R11]
  gpArgument := [.RCX, .RDX, .R8, .R9]
  fpNonvolatile := [.XMM6, .XMM7, .XMM8, .XMM9, .XMM10, .XMM11, .XMM12,
    .XMM13, .XMM14, .XMM15]
  fpVolatile := [.XMM0, .XMM1, .XMM2, .XMM3, .XMM4, .XMM5]
  fpArgument := [.XMM0, .XMM1, .XMM2, .XMM3]
  invalid := .NO_REG
  combinedArgCounter := true

/-- `arch::map_argument_native`, verbatim from the source, including the
reversed bound check `std::size(gp_argument) < idx ? gp_argument[idx] :
invalid`.  An in-bounds read of the class's argument table is `some`; the
out-of-bounds read the source performs when `size < idx` is embedded as the
partial lookup `List.get?`, whose `none` marks the undefined access. -/
def mapArgumentNative (abi : AbiDesc) (gpArgIndex fpArgIndex : ℕ)
    (fp : Bool) : Option NativeReg :=
  if !fp then
    let idx := if abi.combinedArgCounter then gpArgIndex + fpArgIndex
      else gpArgIndex
    if abi.gpArgument.length < idx then abi.gpArgument.get? idx
    else some abi.invalid
  else
    let idx := if abi.combinedArgCounter then gpArgIndex + fpArgIndex
      else fpArgIndex
    if abi.fpArgument.length < idx then abi.fpArgument.get? idx
    else some abi.invalid

/-- `arch::num_gp_reg` for the SysV descriptor. -/
def numGpReg : ℕ := sysv64.gpVolatile.length + sysv64.gpNonvolatile.length

/-- `arch::num_fp_reg` for the SysV descriptor. -/
def numFpReg : ℕ := sysv64.fpVolatile.length + sysv64.fpNonvolatile.length

/-! ### MIR instructions (`minsn`)

Modelled from the spec (§3): an instruction is `(opcode, out, arg[0..3])`;
operands are registers, immediates or memory references `(base, disp)`, and
every instruction supports a uniform visitor over its operand registers
yielding `(reg, is_read)` with `is_read = true` for sources and `false` for
the definition `out`.  The visitor here yields source registers first (the
`arg` slots in order, a memory operand contributing its base register as a
read) and the definition `out` last, and skips null registers — matching the
spec's `ref`-before-`def` data-flow reading and its "zero = absent, ignored"
band.  Only the opcodes the allocator distinguishes are named; all others are
`other n`. -/

/-- MIR opcodes distinguished by the allocator (`vop`). -/
inductive VOp
  | movi | movf | loadi64 | storei64 | loadf64 | storef64 | other (n : ℕ)
deriving DecidableEq

/-- A memory reference `mmem { base, disp }`. -/
structure MMem where
  base : MReg
  disp : ℤ
deriving DecidableEq

/-- One `minsn` operand slot. -/
inductive MOperand
  | reg (r : MReg)
  | imm (v : ℤ)
  | mem (m : MMem)
  | noArg
deriving DecidableEq

/-- `mop::is_reg`. -/
def MOperand.isRegOp : MOperand → Bool
  | .reg _ => true
  | _ => false

/-- A MIR instruction `minsn { op, out, arg[0..3] }`. -/
structure MInsn where
  op : VOp
  out : MReg
  args : List MOperand
deriving DecidableEq

/-- `minsn::arg[0]`. -/
def MInsn.arg0 (i : MInsn) : MOperand := i.args.getD 0 .noArg

/-- The register of an operand slot, reading a memory operand's base. -/
def MOperand.touchedReg : MOperand → Option MReg
  | .reg r => some r
  | .mem m => some m.base
  | _ => none

/-- `minsn::for_each_reg` as the list of `(register, is_read)` visits:
source operands (in `arg` order) first, then the non-null definition `out`
as a write. -/
def MInsn.regVisits (i : MInsn) : List (MReg × Bool) :=
  (i.args.filterMap (fun a => a.touchedReg.map (fun r => (r, true)))).filter
      (fun p => !p.1.isNull) ++
    (if i.out.isNull then [] else [(i.out, false)])

/-- Whether `i` is one of the spill-traffic memory opcodes tested by the use
counter (`i.is(vop::loadi64) || i.is(vop::storei64) || i.is(vop::loadf64) ||
i.is(vop::storef64)`). -/
def MInsn.isSpillMemOp (i : MInsn) : Bool :=
  i.op = .loadi64 || i.op = .storei64 || i.op = .loadf64 || i.op = .storef64

/-! ### Basic blocks and procedures -/

/-- A machine basic block: instructions, successor links (indices into the
procedure's block list), hotness and the four data-flow bitsets. -/
structure MBlock where
  instructions : List MInsn
  successors : List ℕ
  hot : ℤ := 0
  dfDef : Finset ℕ := ∅
  dfRef : Finset ℕ := ∅
  dfInLive : Finset ℕ := ∅
  dfOutLive : Finset ℕ := ∅
deriving DecidableEq, Inhabited

/-- A machine procedure with the outputs the allocator populates. -/
structure MProc where
  basicBlocks : List MBlock
  nextGpCounter : ℕ := 0
  nextFpCounter : ℕ := 0
  usedStackLength : ℕ := 0
deriving DecidableEq

/-- `mprocedure::next_gp`: a fresh GP virtual register. -/
def MProc.nextGp (p : MProc) : MReg × MProc :=
  (⟨virtBase + 2 * p.nextGpCounter⟩, { p with nextGpCounter := p.nextGpCounter + 1 })

/-- `mprocedure::next_fp`: a fresh FP virtual register. -/
def MProc.nextFp (p : MProc) : MReg × MProc :=
  (⟨virtBase + 1 + 2 * p.nextFpCounter⟩, { p with nextFpCounter := p.nextFpCounter + 1 })

/-- All register visits of a procedure, in program order. -/
def MProc.allVisits (p : MProc) : List (MReg × Bool) :=
  p.basicBlocks.flatMap (fun bb => bb.instructions.flatMap MInsn.regVisits)

/-! ### Use counts and `max_reg_id` (`build_graph`, first loop)

The source grows `reg_use_counter` as a vector indexed by uid and tracks the
running maximum uid; the counter is embedded as a total function ℕ → ℕ.  Per
visited register the count grows by 1 when the visit is a read, and — for
`loadi64`/`storei64`/`loadf64`/`storef64` instructions — by a further 100 for
every visited register, read or written (the `+= 100` in the source is outside
the `is_read` test). -/

/-- The use-count contribution of one instruction to one uid. -/
def MInsn.useCountOf (i : MInsn) (uid : ℕ) : ℕ :=
  (i.regVisits.map (fun v =>
      (if v.1.uid = uid && v.2 then 1 else 0) +
        (if v.1.uid = uid && i.isSpillMemOp then 100 else 0))).sum

/-- `reg_use_counter[uid]` after the counting loop of `build_graph`. -/
def MProc.useCount (p : MProc) (uid : ℕ) : ℕ :=
  (p.basicBlocks.map (fun bb =>
      (bb.instructions.map (fun i => i.useCountOf uid)).sum)).sum

/-- `max_reg_id` after the counting loop (`++max_reg_id` included): one more
than the largest visited uid, at least 1. -/
def MProc.maxRegId (p : MProc) : ℕ :=
  (p.allVisits.map (fun v => v.1.uid)).foldr max 0 + 1

/-- `RA_PRIO_HOT_BIAS` (12.0f in the source; exact on every value produced). -/
def RA_PRIO_HOT_BIAS : ℕ := 12

/-! ### Liveness analysis (`build_graph`, data-flow part)

Per block, `def`/`ref` are computed by one forward pass over the register
visits; then `in-live(n) = (out-live(n) \ def(n)) ∪ ref(n)` is iterated —
Gauss–Seidel style, in block order, reading already-updated predecessors —
until a sweep changes no block, and finally `out-live` is derived once from
the successors' fixed `in-live` sets. -/

/-- One visit's effect on the `(df_def, df_ref)` pair: pseudo registers are
skipped; a read is added to `ref` unless already in `def`; a write is added
to `def`. -/
def dfStep (acc : Finset ℕ × Finset ℕ) (v : MReg × Bool) : Finset ℕ × Finset ℕ :=
  if isPseudo v.1 then acc
  else if v.2 then
    (acc.1, if v.1.uid ∈ acc.1 then acc.2 else insert v.1.uid acc.2)
  else (insert v.1.uid acc.1, acc.2)

/-- `(df_def, df_ref)` of one basic block. -/
def blockDefRef (bb : MBlock) : Finset ℕ × Finset ℕ :=
  (bb.instructions.flatMap MInsn.regVisits).foldl dfStep (∅, ∅)

/-- The static data of the data-flow iteration: per-block `def`, `ref` and
successor lists. -/
structure LiveCtx where
  defs : List (Finset ℕ)
  refs : List (Finset ℕ)
  succs : List (List ℕ)

/-- Union of the stored `in-live` sets of a successor list (`new_live`
accumulation / the `out-live` derivation loop). -/
def succUnion (ins : List (Finset ℕ)) (ss : List ℕ) : Finset ℕ :=
  ss.foldl (fun u s => u ∪ ins.getD s ∅) ∅

/-- The data-flow transfer `in(B) = (out(B) \ def(B)) ∪ ref(B)` for block
`i`, with `out(B)` read from the current `ins` state. -/
def FbIn (ctx : LiveCtx) (ins : List (Finset ℕ)) (i : ℕ) : Finset ℕ :=
  (succUnion ins (ctx.succs.getD i []) \ ctx.defs.getD i ∅) ∪ ctx.refs.getD i ∅

/-- One Gauss–Seidel sweep over the given block indices, threading the
`changed` flag. -/
def sweepFrom (ctx : LiveCtx) :
    List ℕ → List (Finset ℕ) × Bool → List (Finset ℕ) × Bool
  | [], acc => acc
  | i :: rest, (ins, ch) =>
    if FbIn ctx ins i = ins.getD i ∅ then sweepFrom ctx rest (ins, ch)
    else sweepFrom ctx rest (ins.set i (FbIn ctx ins i), true)

/-- The `do { ... } while (changed)` fixed-point loop, fuelled. -/
def liveIter (ctx : LiveCtx) (len : ℕ) : ℕ → List (Finset ℕ) → List (Finset ℕ)
  | 0, ins => ins
  | fuel + 1, ins =>
    let r := sweepFrom ctx (List.range len) (ins, false)
    if r.2 then liveIter ctx len fuel r.1 else r.1

/-- The static context of a procedure's liveness problem. -/
def MProc.liveCtx (p : MProc) : LiveCtx where
  defs := p.basicBlocks.map (fun b => (blockDefRef b).1)
  refs := p.basicBlocks.map (fun b => (blockDefRef b).2)
  succs := p.basicBlocks.map (fun b => b.successors)

/-- The fixed-point `in-live` state of a procedure (all four bitsets start
cleared; the fuel provided is shown sufficient in `liveIter_fix`). -/
def MProc.liveFix (p : MProc) : List (Finset ℕ) :=
  liveIter p.liveCtx p.basicBlocks.length
    (p.basicBlocks.length * p.maxRegId + 1)
    (List.replicate p.basicBlocks.length ∅)

/-- The liveness part of `build_graph`: clears and recomputes `df_def`,
`df_ref`, `df_in_live` and `df_out_live` of every basic block. -/
def computeLiveness (p : MProc) : MProc :=
  let ctx := p.liveCtx
  let fix := p.liveFix
  { p with
    basicBlocks := p.basicBlocks.mapIdx (fun i b =>
      { b with
        dfDef := ctx.defs.getD i ∅
        dfRef := ctx.refs.getD i ∅
        dfInLive := fix.getD i ∅
        dfOutLive := succUnion fix (ctx.succs.getD i []) }) }

/-! ### Convergence of the liveness iteration -/

/-- `getD` across `List.set`. -/
theorem getD_set_eq_ite (xs : List (Finset ℕ)) (i j : ℕ) (nl : Finset ℕ) :
    (xs.set i nl).getD j ∅ =
      if i = j ∧ i < xs.length then nl else xs.getD j ∅ := by
  rw [List.getD_eq_getElem?_getD, List.getD_eq_getElem?_getD, List.getElem?_set]
  by_cases hij : i = j
  · subst hij
    by_cases hlen : i < xs.length
    · simp [hlen]
    · simp only [hlen, and_false, if_false, if_true, true_and]
      rw [List.getElem?_eq_none (by omega)]
  · simp [hij]

theorem Forall2_getD {xs ys : List (Finset ℕ)}
    (h : List.Forall₂ (· ⊆ ·) xs ys) (i : ℕ) : xs.getD i ∅ ⊆ ys.getD i ∅ := by
  induction h generalizing i with
  | nil => simp
  | cons hab _ ih =>
    cases i with
    | zero => simpa using hab
    | succ i => simpa using ih i

theorem Forall2_refl_subset (xs : List (Finset ℕ)) :
    List.Forall₂ (· ⊆ ·) xs xs := by
  induction xs with
  | nil => exact List.Forall₂.nil
  | cons a l ih => exact List.Forall₂.cons (le_refl a) ih

theorem Forall2_subset_trans {xs ys zs : List (Finset ℕ)}
    (h1 : List.Forall₂ (· ⊆ ·) xs ys) (h2 : List.Forall₂ (· ⊆ ·) ys zs) :
    List.Forall₂ (· ⊆ ·) xs zs := by
  induction h1 generalizing zs with
  | nil => cases h2; exact List.Forall₂.nil
  | cons hab _ ih =>
    cases h2 with
    | cons hbc htail => exact List.Forall₂.cons (hab.trans hbc) (ih htail)

theorem Forall2_set {xs : List (Finset ℕ)} {i : ℕ} {nl : Finset ℕ}
    (h : xs.getD i ∅ ⊆ nl) : List.Forall₂ (· ⊆ ·) xs (xs.set i nl) := by
  induction xs generalizing i with
  | nil => exact List.Forall₂.nil
  | cons a l ih =>
    cases i with
    | zero =>
      simp only [List.set]
      exact List.Forall₂.cons (by simpa using h) (Forall2_refl_subset l)
    | succ i =>
      simp only [List.set]
      exact List.Forall₂.cons (le_refl a) (ih (by simpa using h))

/-- `succUnion` is monotone in the stored state. -/
theorem succUnion_mono {xs ys : List (Finset ℕ)}
    (h : List.Forall₂ (· ⊆ ·) xs ys) (ss : List ℕ) :
    succUnion xs ss ⊆ succUnion ys ss := by
  suffices hgen : ∀ (u v : Finset ℕ), u ⊆ v →
      ss.foldl (fun u s => u ∪ xs.getD s ∅) u ⊆
        ss.foldl (fun u s => u ∪ ys.getD s ∅) v by
    exact hgen ∅ ∅ (by simp)
  induction ss with
  | nil => intro u v huv; simpa using huv
  | cons s rest ih =>
    intro u v huv
    exact ih _ _ (Finset.union_subset_union huv (Forall2_getD h s))

theorem succUnion_subset {xs : List (Finset ℕ)} {U : Finset ℕ}
    (h : ∀ s, xs.getD s ∅ ⊆ U) (ss : List ℕ) : succUnion xs ss ⊆ U := by
  suffices hgen : ∀ (u : Finset ℕ), u ⊆ U →
      ss.foldl (fun u s => u ∪ xs.getD s ∅) u ⊆ U by
    exact hgen ∅ (by simp)
  induction ss with
  | nil => intro u hu; simpa using hu
  | cons s rest ih =>
    intro u hu
    exact ih _ (Finset.union_subset hu (h s))

theorem mem_succUnion {xs : List (Finset ℕ)} {ss : List ℕ} {a : ℕ} :
    a ∈ succUnion xs ss ↔ ∃ s ∈ ss, a ∈ xs.getD s ∅ := by
  suffices hgen : ∀ (u : Finset ℕ),
      a ∈ ss.foldl (fun u s => u ∪ xs.getD s ∅) u ↔
        a ∈ u ∨ ∃ s ∈ ss, a ∈ xs.getD s ∅ by
    have := hgen ∅
    simpa [succUnion] using this
  induction ss with
  | nil => intro u; simp
  | cons s rest ih =>
    intro u
    rw [List.foldl_cons, ih]
    simp only [Finset.mem_union, List.mem_cons]
    constructor
    · rintro (⟨h | h⟩ | ⟨t, ht, hm⟩)
      · exact Or.inl h
      · exact Or.inr ⟨s, Or.inl rfl, h⟩
      · exact Or.inr ⟨t, Or.inr ht, hm⟩
    · rintro (h | ⟨t, rfl | ht, hm⟩)
      · exact Or.inl (Or.inl h)
      · exact Or.inl (Or.inr hm)
      · exact Or.inr ⟨t, ht, hm⟩

/-- The transfer function is monotone. -/
theorem FbIn_mono (ctx : LiveCtx) {xs ys : List (Finset ℕ)}
    (h : List.Forall₂ (· ⊆ ·) xs ys) (i : ℕ) :
    FbIn ctx xs i ⊆ FbIn ctx ys i :=
  Finset.union_subset_union
    (Finset.sdiff_subset_sdiff (succUnion_mono h _) (le_refl _)) (le_refl _)

/-- Total cardinality of a state. -/
def msum (xs : List (Finset ℕ)) : ℕ := (xs.map Finset.card).sum

theorem msum_le {xs ys : List (Finset ℕ)}
    (h : List.Forall₂ (· ⊆ ·) xs ys) : msum xs ≤ msum ys := by
  induction h with
  | nil => simp [msum]
  | cons hab _ ih =>
    simp only [msum, List.map_cons, List.sum_cons] at *
    exact Nat.add_le_add (Finset.card_le_card hab) ih

theorem msum_lt {xs ys : List (Finset ℕ)}
    (h : List.Forall₂ (· ⊆ ·) xs ys) (hne : xs ≠ ys) : msum xs < msum ys := by
  induction h with
  | nil => exact absurd rfl hne
  | @cons a b l1 l2 hab htail ih =>
    simp only [msum, List.map_cons, List.sum_cons]
    by_cases hab2 : a = b
    · subst hab2
      have hlt : l1 ≠ l2 := fun hcontra => hne (by rw [hcontra])
      exact Nat.add_lt_add_left (ih hlt) _
    · have : a ⊂ b := ssubset_of_subset_of_ne hab hab2
      exact Nat.add_lt_add_of_lt_of_le (Finset.card_lt_card this) (msum_le htail)

/-- The states visited by the Gauss–Seidel iteration are expansive: each
block's stored `in-live` is below its recomputed transfer value. -/
def ExpState (ctx : LiveCtx) (ins : List (Finset ℕ)) : Prop :=
  ∀ i, ins.getD i ∅ ⊆ FbIn ctx ins i

/-- All stored sets live inside the id universe `range N`. -/
def BoundedState (N : ℕ) (ins : List (Finset ℕ)) : Prop :=
  ∀ i, ins.getD i ∅ ⊆ Finset.range N

theorem sweepFrom_flag_mono (ctx : LiveCtx) (l : List ℕ)
    (ins : List (Finset ℕ)) : (sweepFrom ctx l (ins, true)).2 = true := by
  induction l generalizing ins with
  | nil => rfl
  | cons i rest ih =>
    rw [sweepFrom]
    by_cases h : FbIn ctx ins i = ins.getD i ∅
    · simp only [h, if_true]; exact ih ins
    · simp only [h, if_false]; exact ih _

theorem msum_le_card_mul (N : ℕ) :
    ∀ ins : List (Finset ℕ), (∀ i, ins.getD i ∅ ⊆ Finset.range N) →
      msum ins ≤ ins.length * N
  | [], _ => by simp [msum]
  | a :: l, h => by
    have ha : a.card ≤ N := by
      have := Finset.card_le_card (by simpa using h 0)
      simpa using this
    have hl := msum_le_card_mul N l (fun i => by simpa using h (i + 1))
    simp only [msum, List.map_cons, List.sum_cons, List.length_cons] at *
    calc a.card + (l.map Finset.card).sum ≤ N + l.length * N :=
          Nat.add_le_add ha hl
      _ = (l.length + 1) * N := by ring

/-- Master invariant of one sweep: the state grows pointwise, stays expansive
and bounded, strict `msum` growth accompanies a freshly raised `changed`
flag, and a `false` flag certifies an untouched fixpoint on the sweep's
indices. -/
theorem sweepFrom_inv (ctx : LiveCtx) (N : ℕ)
    (hrefs : ∀ i, ctx.refs.getD i ∅ ⊆ Finset.range N) (l : List ℕ) :
    ∀ (ins : List (Finset ℕ)) (ch : Bool), ExpState ctx ins →
      BoundedState N ins → (∀ i ∈ l, i < ins.length) →
      List.Forall₂ (· ⊆ ·) ins (sweepFrom ctx l (ins, ch)).1 ∧
        ExpState ctx (sweepFrom ctx l (ins, ch)).1 ∧
        BoundedState N (sweepFrom ctx l (ins, ch)).1 ∧
        (sweepFrom ctx l (ins, ch)).1.length = ins.length ∧
        ((sweepFrom ctx l (ins, ch)).2 = ch ∨
          msum ins < msum (sweepFrom ctx l (ins, ch)).1) ∧
        ((sweepFrom ctx l (ins, ch)).2 = false →
          (sweepFrom ctx l (ins, ch)).1 = ins ∧
            ∀ i ∈ l, FbIn ctx ins i = ins.getD i ∅) := by
  induction l with
  | nil =>
    intro ins ch hexp hbdd _
    exact ⟨Forall2_refl_subset ins, hexp, hbdd, rfl, Or.inl rfl,
      fun _ => ⟨rfl, by simp⟩⟩
  | cons i rest ih =>
    intro ins ch hexp hbdd hmem
    by_cases hsame : FbIn ctx ins i = ins.getD i ∅
    · have hstep : sweepFrom ctx (i :: rest) (ins, ch) =
          sweepFrom ctx rest (ins, ch) := by
        rw [sweepFrom, if_pos hsame]
      rcases ih ins ch hexp hbdd (fun j hj => hmem j (List.mem_cons_of_mem _ hj))
        with ⟨h1, h2, h3, h4, h5, h6⟩
      rw [hstep]
      refine ⟨h1, h2, h3, h4, h5, fun hf => ?_⟩
      rcases h6 hf with ⟨heq, hfix⟩
      refine ⟨heq, fun j hj => ?_⟩
      rcases List.mem_cons.mp hj with rfl | hj2
      · exact hsame
      · exact hfix j hj2
    · have hstep : sweepFrom ctx (i :: rest) (ins, ch) =
          sweepFrom ctx rest (ins.set i (FbIn ctx ins i), true) := by
        rw [sweepFrom, if_neg hsame]
      set nl := FbIn ctx ins i with hnl
      have hilen : i < ins.length := hmem i (List.mem_cons_self i rest)
      have hsub : ins.getD i ∅ ⊆ nl := hexp i
      have hF2 : List.Forall₂ (· ⊆ ·) ins (ins.set i nl) := Forall2_set hsub
      have hexp2 : ExpState ctx (ins.set i nl) := by
        intro j
        have hm := FbIn_mono ctx hF2 j
        rw [getD_set_eq_ite]
        by_cases hj : i = j ∧ i < ins.length
        · rcases hj with ⟨rfl, _⟩
          simp only [and_self, if_pos, hilen, if_true, true_and]
          exact hnl ▸ hm
        · rw [if_neg hj]
          exact (hexp j).trans hm
      have hbdd2 : BoundedState N (ins.set i nl) := by
        intro j
        rw [getD_set_eq_ite]
        by_cases hj : i = j ∧ i < ins.length
        · rw [if_pos hj]
          rw [hnl]
          unfold FbIn
          refine Finset.union_subset ?_ (hrefs i)
          refine (Finset.sdiff_subset).trans ?_
          exact succUnion_subset (fun s => hbdd s) _
        · rw [if_neg hj]; exact hbdd j
      have hne : ins ≠ ins.set i nl := by
        intro hcontra
        apply hsame
        have : (ins.set i nl).getD i ∅ = nl := by
          rw [getD_set_eq_ite]; simp [hilen]
        rw [← hcontra] at this
        rw [hnl] at this ⊢
        exact this.symm
      have hlt : msum ins < msum (ins.set i nl) := msum_lt hF2 hne
      rcases ih (ins.set i nl) true hexp2 hbdd2
          (fun j hj => by
            rw [List.length_set]
            exact hmem j (List.mem_cons_of_mem _ hj))
        with ⟨h1, h2, h3, h4, _, _⟩
      rw [hstep]
      refine ⟨Forall2_subset_trans hF2 h1, h2, h3, ?_, ?_, ?_⟩
      · rw [h4, List.length_set]
      · exact Or.inr (lt_of_lt_of_le hlt (msum_le h1))
      · intro hf
        rw [sweepFrom_flag_mono ctx rest (ins.set i nl)] at hf
        exact absurd hf (by simp)

/-- With enough fuel the fixed-point loop reaches a state on which the
transfer function is the identity on every block index. -/
theorem liveIter_fix (ctx : LiveCtx) (N len : ℕ)
    (hrefs : ∀ i, ctx.refs.getD i ∅ ⊆ Finset.range N) :
    ∀ (fuel : ℕ) (ins : List (Finset ℕ)), ExpState ctx ins →
      BoundedState N ins → ins.length = len →
      len * N + 1 ≤ fuel + msum ins →
      (∀ i < len, FbIn ctx (liveIter ctx len fuel ins) i =
          (liveIter ctx len fuel ins).getD i ∅) ∧
        (liveIter ctx len fuel ins).length = len ∧
        BoundedState N (liveIter ctx len fuel ins) := by
  intro fuel
  induction fuel with
  | zero =>
    intro ins _ hbdd hlen hfuel
    have := msum_le_card_mul N ins hbdd
    rw [hlen] at this
    omega
  | succ fuel ih =>
    intro ins hexp hbdd hlen hfuel
    rcases sweepFrom_inv ctx N hrefs (List.range len) ins false hexp hbdd
        (fun j hj => by rw [hlen]; exact List.mem_range.mp hj)
      with ⟨h1, h2, h3, h4, h5, h6⟩
    by_cases hflag : (sweepFrom ctx (List.range len) (ins, false)).2
    · have hstep : liveIter ctx len (fuel + 1) ins =
          liveIter ctx len fuel (sweepFrom ctx (List.range len) (ins, false)).1 := by
        rw [liveIter]
        simp [hflag]
      rw [hstep]
      have hlt : msum ins < msum (sweepFrom ctx (List.range len) (ins, false)).1 := by
        rcases h5 with h5 | h5
        · rw [hflag] at h5; exact absurd h5.symm (by simp)
        · exact h5
      exact ih _ h2 h3 (by rw [h4, hlen]) (by omega)
    · have hflag2 : (sweepFrom ctx (List.range len) (ins, false)).2 = false := by
        simpa using hflag
      have hstep : liveIter ctx len (fuel + 1) ins =
          (sweepFrom ctx (List.range len) (ins, false)).1 := by
        rw [liveIter]
        simp [hflag2]
      rcases h6 hflag2 with ⟨heq, hfix⟩
      rw [hstep, heq]
      exact ⟨fun i hi => hfix i (List.mem_range.mpr hi), hlen, hbdd⟩

theorem le_foldr_max {a : ℕ} {l : List ℕ} (h : a ∈ l) :
    a ≤ l.foldr max 0 := by
  induction l with
  | nil => cases h
  | cons x rest ih =>
    rcases List.mem_cons.mp h with rfl | h2
    · exact Nat.le_max_left _ _
    · exact le_trans (ih h2) (Nat.le_max_right _ _)

/-- Every visited register's uid is below `max_reg_id`. -/
theorem visit_uid_lt_maxRegId {p : MProc} {v : MReg × Bool}
    (h : v ∈ p.allVisits) : v.1.uid < p.maxRegId := by
  have : v.1.uid ∈ p.allVisits.map (fun v => v.1.uid) :=
    List.mem_map.mpr ⟨v, h, rfl⟩
  have := le_foldr_max this
  unfold MProc.maxRegId
  omega

theorem mem_foldl_dfStep (vs : List (MReg × Bool)) :
    ∀ (acc : Finset ℕ × Finset ℕ) (a : ℕ),
      (a ∈ (vs.foldl dfStep acc).1 → a ∈ acc.1 ∨ ∃ v ∈ vs, v.1.uid = a) ∧
        (a ∈ (vs.foldl dfStep acc).2 → a ∈ acc.2 ∨ ∃ v ∈ vs, v.1.uid = a) := by
  induction vs with
  | nil => intro acc a; simp
  | cons v rest ih =>
    intro acc a
    rw [List.foldl_cons]
    have hd : ∀ b ∈ (dfStep acc v).1, b ∈ acc.1 ∨ v.1.uid = b := by
      intro b hb
      unfold dfStep at hb
      by_cases hp : isPseudo v.1 = true
      · rw [if_pos hp] at hb; exact Or.inl hb
      · rw [if_neg hp] at hb
        by_cases hr : v.2 = true
        · rw [if_pos hr] at hb; exact Or.inl hb
        · rw [if_neg hr] at hb
          simp only [Finset.mem_insert] at hb
          rcases hb with rfl | hb
          · exact Or.inr rfl
          · exact Or.inl hb
    have hr2 : ∀ b ∈ (dfStep acc v).2, b ∈ acc.2 ∨ v.1.uid = b := by
      intro b hb
      unfold dfStep at hb
      by_cases hp : isPseudo v.1 = true
      · rw [if_pos hp] at hb; exact Or.inl hb
      · rw [if_neg hp] at hb
        by_cases hr : v.2 = true
        · rw [if_pos hr] at hb
          by_cases hmem : v.1.uid ∈ acc.1
          · rw [if_pos hmem] at hb; exact Or.inl hb
          · rw [if_neg hmem] at hb
            simp only [Finset.mem_insert] at hb
            rcases hb with rfl | hb
            · exact Or.inr rfl
            · exact Or.inl hb
        · rw [if_neg hr] at hb; exact Or.inl hb
    constructor
    · intro hmem
      rcases (ih (dfStep acc v) a).1 hmem with h1 | ⟨w, hw, rfl⟩
      · rcases hd a h1 with h2 | h2
        · exact Or.inl h2
        · exact Or.inr ⟨v, List.mem_cons_self _ _, h2⟩
      · exact Or.inr ⟨w, List.mem_cons_of_mem _ hw, rfl⟩
    · intro hmem
      rcases (ih (dfStep acc v) a).2 hmem with h1 | ⟨w, hw, rfl⟩
      · rcases hr2 a h1 with h2 | h2
        · exact Or.inl h2
        · exact Or.inr ⟨v, List.mem_cons_self _ _, h2⟩
      · exact Or.inr ⟨w, List.mem_cons_of_mem _ hw, rfl⟩

/-- `df_def`/`df_ref` of a block of `p` only hold uids below `max_reg_id`. -/
theorem blockDefRef_subset {p : MProc} {bb : MBlock}
    (hbb : bb ∈ p.basicBlocks) :
    (blockDefRef bb).1 ⊆ Finset.range p.maxRegId ∧
      (blockDefRef bb).2 ⊆ Finset.range p.maxRegId := by
  have hvis : ∀ v ∈ bb.instructions.flatMap MInsn.regVisits, v ∈ p.allVisits := by
    intro v hv
    unfold MProc.allVisits
    exact List.mem_flatMap.mpr ⟨bb, hbb, hv⟩
  constructor
  · intro a ha
    rcases (mem_foldl_dfStep _ (∅, ∅) a).1 ha with h | ⟨v, hv, rfl⟩
    · cases h
    · exact Finset.mem_range.mpr (visit_uid_lt_maxRegId (hvis v hv))
  · intro a ha
    rcases (mem_foldl_dfStep _ (∅, ∅) a).2 ha with h | ⟨v, hv, rfl⟩
    · cases h
    · exact Finset.mem_range.mpr (visit_uid_lt_maxRegId (hvis v hv))

theorem liveCtx_refs_bounded (p : MProc) :
    ∀ i, p.liveCtx.refs.getD i ∅ ⊆ Finset.range p.maxRegId := by
  intro i
  unfold MProc.liveCtx
  by_cases hi : i < p.basicBlocks.length
  · rw [List.getD_eq_getElem?_getD, List.getElem?_map,
      List.getElem?_eq_getElem hi]
    simp only [Option.map_some', Option.getD_some]
    exact (blockDefRef_subset (List.getElem_mem hi)).2
  · rw [List.getD_eq_getElem?_getD, List.getElem?_eq_none
      (by rw [List.length_map]; omega)]
    simp

/-- The fixed-point state of a procedure: the transfer function fixes every
block index, and the state has one entry per block. -/
theorem liveFix_spec (p : MProc) :
    (∀ i < p.basicBlocks.length,
        FbIn p.liveCtx p.liveFix i = p.liveFix.getD i ∅) ∧
      p.liveFix.length = p.basicBlocks.length := by
  have h := liveIter_fix p.liveCtx p.maxRegId p.basicBlocks.length
    (liveCtx_refs_bounded p)
    (p.basicBlocks.length * p.maxRegId + 1)
    (List.replicate p.basicBlocks.length ∅)
    (by intro i; rw [List.getD_eq_getElem?_getD]; cases h : (List.replicate p.basicBlocks.length (∅ : Finset ℕ))[i]? with
        | none => simp
        | some s =>
          have := List.getElem?_replicate (n := p.basicBlocks.length) (a := (∅ : Finset ℕ)) (m := i)
          rw [h] at this
          by_cases hi : i < p.basicBlocks.length
          · rw [if_pos hi] at this
            cases this
            simp
          · rw [if_neg hi] at this; cases this)
    (by intro i; rw [List.getD_eq_getElem?_getD]; cases h : (List.replicate p.basicBlocks.length (∅ : Finset ℕ))[i]? with
        | none => simp
        | some s =>
          have := List.getElem?_replicate (n := p.basicBlocks.length) (a := (∅ : Finset ℕ)) (m := i)
          rw [h] at this
          by_cases hi : i < p.basicBlocks.length
          · rw [if_pos hi] at this
            cases this
            simp
          · rw [if_neg hi] at this; cases this)
    (by simp)
    (by
      have : msum (List.replicate p.basicBlocks.length (∅ : Finset ℕ)) = 0 := by
        unfold msum
        rw [List.map_replicate]
        simp
      omega)
  exact ⟨h.1, h.2.1⟩

theorem succUnion_congr {xs ys : List (Finset ℕ)}
    (h : ∀ s, xs.getD s ∅ = ys.getD s ∅) (ss : List ℕ) :
    succUnion xs ss = succUnion ys ss := by
  suffices hgen : ∀ u : Finset ℕ,
      ss.foldl (fun u s => u ∪ xs.getD s ∅) u =
        ss.foldl (fun u s => u ∪ ys.getD s ∅) u by
    exact hgen ∅
  induction ss with
  | nil => intro u; rfl
  | cons s rest ih => intro u; rw [List.foldl_cons, List.foldl_cons, h s]; exact ih _

theorem computeLiveness_length (p : MProc) :
    (computeLiveness p).basicBlocks.length = p.basicBlocks.length := by
  simp [computeLiveness]

theorem computeLiveness_getElem (p : MProc) (i : ℕ)
    (h : i < p.basicBlocks.length)
    (h2 : i < (computeLiveness p).basicBlocks.length) :
    (computeLiveness p).basicBlocks[i] =
      { p.basicBlocks[i] with
        dfDef := p.liveCtx.defs.getD i ∅
        dfRef := p.liveCtx.refs.getD i ∅
        dfInLive := p.liveFix.getD i ∅
        dfOutLive := succUnion p.liveFix (p.liveCtx.succs.getD i []) } := by
  simp only [computeLiveness]
  rw [List.getElem_mapIdx]

theorem computeLiveness_inLive_getD (p : MProc) (s : ℕ) :
    ((computeLiveness p).basicBlocks.map MBlock.dfInLive).getD s ∅ =
      p.liveFix.getD s ∅ := by
  by_cases hs : s < p.basicBlocks.length
  · have hs2 : s < (computeLiveness p).basicBlocks.length := by
      rw [computeLiveness_length]; exact hs
    have hs3 : s < ((computeLiveness p).basicBlocks.map MBlock.dfInLive).length := by
      rw [List.length_map]; exact hs2
    rw [List.getD_eq_getElem?_getD, List.getElem?_eq_getElem hs3,
      Option.getD_some, List.getElem_map, computeLiveness_getElem p s hs hs2]
  · rw [List.getD_eq_getElem?_getD, List.getElem?_eq_none
      (by rw [List.length_map, computeLiveness_length]; omega)]
    rw [List.getD_eq_getElem?_getD, List.getElem?_eq_none
      (by rw [(liveFix_spec p).2]; omega)]

theorem liveCtx_succs_getD (p : MProc) (i : ℕ) (h : i < p.basicBlocks.length) :
    p.liveCtx.succs.getD i [] = p.basicBlocks[i].successors := by
  unfold MProc.liveCtx
  rw [List.getD_eq_getElem?_getD, List.getElem?_map,
    List.getElem?_eq_getElem h]
  simp

theorem liveCtx_defs_getD (p : MProc) (i : ℕ) (h : i < p.basicBlocks.length) :
    p.liveCtx.defs.getD i ∅ = (blockDefRef p.basicBlocks[i]).1 := by
  unfold MProc.liveCtx
  rw [List.getD_eq_getElem?_getD, List.getElem?_map,
    List.getElem?_eq_getElem h]
  simp

theorem liveCtx_refs_getD (p : MProc) (i : ℕ) (h : i < p.basicBlocks.length) :
    p.liveCtx.refs.getD i ∅ = (blockDefRef p.basicBlocks[i]).2 := by
  unfold MProc.liveCtx
  rw [List.getD_eq_getElem?_getD, List.getElem?_map,
    List.getElem?_eq_getElem h]
  simp

/-- C5 — After `computeLiveness`, every block of the result satisfies the
backward data-flow equation `in(B) = (out(B) \ def(B)) ∪ ref(B)` with
`out(B)` the union of the successors' in-live sets (the iteration ran until
no block's `in` set changed), and its stored `df_out_live` equals that same
union of successor in-live sets, derived once after the fixed point. -/
theorem liveness_fixpoint_equations (p : MProc) (i : ℕ)
    (h : i < (computeLiveness p).basicBlocks.length) :
    ((computeLiveness p).basicBlocks.getD i default).dfInLive =
      (succUnion ((computeLiveness p).basicBlocks.map MBlock.dfInLive)
          ((computeLiveness p).basicBlocks.getD i default).successors \
        ((computeLiveness p).basicBlocks.getD i default).dfDef) ∪
        ((computeLiveness p).basicBlocks.getD i default).dfRef ∧
    ((computeLiveness p).basicBlocks.getD i default).dfOutLive =
      succUnion ((computeLiveness p).basicBlocks.map MBlock.dfInLive)
        ((computeLiveness p).basicBlocks.getD i default).successors := by
  have hp : i < p.basicBlocks.length := by
    rw [← computeLiveness_length]; exact h
  have hget : (computeLiveness p).basicBlocks.getD i default =
      { p.basicBlocks[i] with
        dfDef := p.liveCtx.defs.getD i ∅
        dfRef := p.liveCtx.refs.getD i ∅
        dfInLive := p.liveFix.getD i ∅
        dfOutLive := succUnion p.liveFix (p.liveCtx.succs.getD i []) } := by
    rw [List.getD_eq_getElem?_getD, List.getElem?_eq_getElem h, Option.getD_some]
    exact computeLiveness_getElem p i hp h
  have hsucc : succUnion ((computeLiveness p).basicBlocks.map MBlock.dfInLive)
      ((computeLiveness p).basicBlocks.getD i default).successors =
      succUnion p.liveFix (p.liveCtx.succs.getD i []) := by
    rw [succUnion_congr (computeLiveness_inLive_getD p), hget]
    rw [liveCtx_succs_getD p i hp]
  constructor
  · rw [hsucc, hget]
    have hfix := (liveFix_spec p).1 i hp
    rw [← hfix]
    unfold FbIn
    rfl
  · rw [hsucc, hget]

/-- The data-flow outputs of a second liveness run coincide with those of the
first: `computeLiveness` preserves the instruction streams and successor
links it reads, and overwrites all four `df_*` bitsets from scratch. -/
theorem computeLiveness_skeleton (p : MProc) :
    (computeLiveness p).basicBlocks.map
        (fun b => (b.instructions, b.successors)) =
      p.basicBlocks.map (fun b => (b.instructions, b.successors)) := by
  apply List.ext_getElem
  · rw [List.length_map, List.length_map, computeLiveness_length]
  · intro n h1 h2
    rw [List.getElem_map, List.getElem_map,
      computeLiveness_getElem p n (by simpa using h2)
        (by rw [computeLiveness_length]; simpa using h2)]

theorem computeLiveness_allVisits (p : MProc) :
    (computeLiveness p).allVisits = p.allVisits := by
  unfold MProc.allVisits
  have hmap : (computeLiveness p).basicBlocks.map
      (fun bb => bb.instructions.flatMap MInsn.regVisits) =
      p.basicBlocks.map (fun bb => bb.instructions.flatMap MInsn.regVisits) := by
    apply List.ext_getElem
    · rw [List.length_map, List.length_map, computeLiveness_length]
    · intro n h1 h2
      rw [List.getElem_map, List.getElem_map,
        computeLiveness_getElem p n (by simpa using h2)
          (by rw [computeLiveness_length]; simpa using h2)]
  calc (computeLiveness p).basicBlocks.flatMap
        (fun bb => bb.instructions.flatMap MInsn.regVisits)
      = ((computeLiveness p).basicBlocks.map
          (fun bb => bb.instructions.flatMap MInsn.regVisits)).flatten := rfl
    _ = (p.basicBlocks.map
          (fun bb => bb.instructions.flatMap MInsn.regVisits)).flatten := by
          rw [hmap]
    _ = p.basicBlocks.flatMap (fun bb => bb.instructions.flatMap MInsn.regVisits) :=
          rfl

theorem computeLiveness_maxRegId (p : MProc) :
    (computeLiveness p).maxRegId = p.maxRegId := by
  unfold MProc.maxRegId
  rw [computeLiveness_allVisits]

theorem computeLiveness_liveCtx (p : MProc) :
    (computeLiveness p).liveCtx = p.liveCtx := by
  unfold MProc.liveCtx
  have hdefs : (computeLiveness p).basicBlocks.map (fun b => (blockDefRef b).1) =
      p.basicBlocks.map (fun b => (blockDefRef b).1) := by
    apply List.ext_getElem
    · rw [List.length_map, List.length_map, computeLiveness_length]
    · intro n h1 h2
      rw [List.getElem_map, List.getElem_map,
        computeLiveness_getElem p n (by simpa using h2)
          (by rw [computeLiveness_length]; simpa using h2)]
      rfl
  have hrefs : (computeLiveness p).basicBlocks.map (fun b => (blockDefRef b).2) =
      p.basicBlocks.map (fun b => (blockDefRef b).2) := by
    apply List.ext_getElem
    · rw [List.length_map, List.length_map, computeLiveness_length]
    · intro n h1 h2
      rw [List.getElem_map, List.getElem_map,
        computeLiveness_getElem p n (by simpa using h2)
          (by rw [computeLiveness_length]; simpa using h2)]
      rfl
  have hsuccs : (computeLiveness p).basicBlocks.map (fun b => b.successors) =
      p.basicBlocks.map (fun b => b.successors) := by
    apply List.ext_getElem
    · rw [List.length_map, List.length_map, computeLiveness_length]
    · intro n h1 h2
      rw [List.getElem_map, List.getElem_map,
        computeLiveness_getElem p n (by simpa using h2)
          (by rw [computeLiveness_length]; simpa using h2)]
  rw [hdefs, hrefs, hsuccs]

theorem computeLiveness_liveFix (p : MProc) :
    (computeLiveness p).liveFix = p.liveFix := by
  unfold MProc.liveFix
  rw [computeLiveness_liveCtx, computeLiveness_length, computeLiveness_maxRegId]

/-- C10 — Running the liveness analysis a second time on the unchanged
procedure reproduces exactly the same `df_def`, `df_ref`, `df_in_live` and
`df_out_live` bitsets on every basic block: the analysis clears all prior
data-flow state and recomputes it deterministically from the instruction
streams and successor links, which it leaves untouched. -/
theorem liveness_rerun_identical (p : MProc) :
    (computeLiveness (computeLiveness p)).basicBlocks.map
        (fun b => (b.dfDef, b.dfRef, b.dfInLive, b.dfOutLive)) =
      (computeLiveness p).basicBlocks.map
        (fun b => (b.dfDef, b.dfRef, b.dfInLive, b.dfOutLive)) := by
  apply List.ext_getElem
  · rw [List.length_map, List.length_map, computeLiveness_length]
  · intro n h1 h2
    have hn : n < (computeLiveness p).basicBlocks.length := by
      simpa using h2
    have hnp : n < p.basicBlocks.length := by
      rw [← computeLiveness_length]; exact hn
    have hnq : n < (computeLiveness (computeLiveness p)).basicBlocks.length := by
      rw [computeLiveness_length]; exact hn
    rw [List.getElem_map, List.getElem_map,
      computeLiveness_getElem (computeLiveness p) n hn hnq,
      computeLiveness_getElem p n hnp hn,
      computeLiveness_liveCtx, computeLiveness_liveFix]

/-! ### Interference graph (`graph_node`, `build_graph`) -/

/-- One interference-graph node (`graph_node`): adjacency bitmask with a
self-bit, priority, a four-slot ring of coalescing-hint offsets, color
(0 = uncolored/spilled), class, and 1-based spill slot (0 = none). -/
structure GNode where
  vtx : ℕ := 0
  priority : ℕ := 0
  coalescingHints : List ℤ := [0, 0, 0, 0]
  hintId : ℕ := 0
  color : ℕ := 0
  isFp : Bool := false
  spillSlot : ℕ := 0
deriving DecidableEq

/-- The interference graph: `n = max_reg_id` nodes indexed by uid. -/
structure Graph where
  n : ℕ
  node : ℕ → GNode

/-- Overwrite node `i`. -/
def Graph.setNode (g : Graph) (i : ℕ) (nd : GNode) : Graph :=
  { g with node := fun j => if j = i then nd else g.node j }

/-- `graph_node::add_hint`: store the signed node offset in the four-slot
ring (`coalescing_hints[hint_id++ % 4]`). -/
def GNode.addHint (nd : GNode) (off : ℤ) : GNode :=
  { nd with
    coalescingHints := nd.coalescingHints.set (nd.hintId % 4) off
    hintId := nd.hintId + 1 }

/-- Mutual coalescing hints between the nodes of a register move
(`a.add_hint(&b); b.add_hint(&a)` with pointer differences as offsets). -/
def addMutualHints (g : Graph) (au bu : ℕ) : Graph :=
  let g1 := g.setNode au ((g.node au).addHint ((bu : ℤ) - (au : ℤ)))
  g1.setNode bu ((g1.node bu).addHint ((au : ℤ) - (bu : ℤ)))

/-- `add_vertex`: record the interference edge in both endpoints, unless
`interferes_with` rejects the pair. -/
def addVertex (g : Graph) (a b : MReg) : Graph :=
  if interferesWith a b then
    let g1 := g.setNode a.uid
      { g.node a.uid with vtx := setBit (g.node a.uid).vtx b.uid }
    g1.setNode b.uid
      { g1.node b.uid with vtx := setBit (g1.node b.uid).vtx a.uid }
  else g

/-- `add_set`: connect `d` with every register in the live set. -/
def addSet (g : Graph) (live : Finset ℕ) (d : MReg) : Graph :=
  (List.range g.n).foldl
    (fun g i => if i ∈ live then addVertex g d (mregFromUid i) else g) g

/-- The initial graph of `build_graph`: self-bit adjacency, priority
`(use_count + 1) * RA_PRIO_HOT_BIAS`, class from the uid, color `|phys|` on
the pre-colored band. -/
def initialGraph (p : MProc) : Graph where
  n := p.maxRegId
  node := fun i =>
    { vtx := 2 ^ i
      priority := (p.useCount i + 1) * RA_PRIO_HOT_BIAS
      coalescingHints := [0, 0, 0, 0]
      hintId := 0
      color := if (mregFromUid i).isPhys then (mregFromUid i).phys.natAbs else 0
      isFp := (mregFromUid i).isFp
      spillSlot := 0 }

/-- The reverse walk of `build_graph` over one instruction: record coalescing
hints of register moves, clear the defined register from the live set and
connect it to everything still live, then add all read registers to the live
set and connect each read to the full live set. -/
def walkInsn (acc : Graph × Finset ℕ) (i : MInsn) : Graph × Finset ℕ :=
  let g0 := acc.1
  let live0 := acc.2
  let g1 := if (i.op = VOp.movi ∨ i.op = VOp.movf) then
      match i.arg0 with
      | .reg r => addMutualHints g0 r.uid i.out.uid
      | _ => g0
    else g0
  let g2live : Graph × Finset ℕ :=
    if i.out.isNull then (g1, live0)
    else
      let live1 := live0.erase i.out.uid
      (addSet g1 live1 i.out, live1)
  let reads := i.regVisits.filter (fun v => v.2)
  let live2 := reads.foldl (fun l v => insert v.1.uid l) g2live.2
  let g3 := reads.foldl (fun g v => addSet g live2 v.1) g2live.1
  (g3, live2)

/-- The reverse walk over one block, seeded from its `df_out_live`. -/
def walkBlock (g : Graph) (bb : MBlock) : Graph :=
  (bb.instructions.reverse.foldl walkInsn (g, bb.dfOutLive)).1

/-- The edge-building part of `build_graph`, after liveness. -/
def buildGraphOnly (p : MProc) : Graph :=
  p.basicBlocks.foldl walkBlock (initialGraph p)

/-- `build_graph`: recompute liveness on the procedure and build the
interference graph (the `tmp` reuse parameter of the source only recycles
the allocation: the vector is cleared and default-resized, so the node state
is fresh either way). -/
def buildGraph (p : MProc) : MProc × Graph :=
  let q := computeLiveness p
  (q, buildGraphOnly q)

/-! ### Chaitin coloring core (`try_color`) -/

/-- Update of the spill-candidate register inside the scan: keep the first
strict minimum of priority. -/
def bumpOver (g : Graph) (i : ℕ) : Option ℕ → Option ℕ
  | none => some i
  | some o => if (g.node o).priority > (g.node i).priority then some i else some o

/-- The node-picking scan of `try_color`: first uncolored node of nonzero
`popcount` whose degree (`popcount - 1`) is within the class budget; if only
over-budget candidates exist, the first one of minimum priority; `none` when
no candidate remains. -/
def pickGo (g : Graph) (K M : ℕ) : List ℕ → Option ℕ → Option ℕ
  | [], overlimit => overlimit
  | i :: rest, overlimit =>
    if (g.node i).color ≠ 0 then pickGo g K M rest overlimit
    else if bitCount (g.node i).vtx = 0 then pickGo g K M rest overlimit
    else if bitCount (g.node i).vtx - 1 > (if (g.node i).isFp then M else K) then
      pickGo g K M rest (bumpOver g i overlimit)
    else some i

/-- The pick step of `try_color`. -/
def pick (g : Graph) (K M : ℕ) : Option ℕ :=
  pickGo g K M (List.range g.n) none

/-- Node removal (`tmp.swap(it->vtx)` plus clearing `it`'s bit from every
node in `tmp`). -/
def Graph.removeNode (g : Graph) (it : ℕ) : Graph :=
  let tmp := (g.node it).vtx
  { g with node := fun i =>
      if i = it then { g.node it with vtx := 0 }
      else if tmp.testBit i then
        { g.node i with vtx := clearBit (g.node i).vtx it }
      else g.node i }

/-- Edge restoration after the recursive call (re-adding `it`'s bit to its
neighbors and swapping `tmp` back into `it`). -/
def Graph.restoreNode (g : Graph) (tmp : ℕ) (it : ℕ) : Graph :=
  { g with node := fun i =>
      if i = it then { g.node i with vtx := tmp }
      else if tmp.testBit i then
        { g.node i with vtx := setBit (g.node i).vtx it }
      else g.node i }

/-- `color_mask` accumulation of the restore loop: all 64 colors, minus the
color of every distinct colored neighbor in `tmp`. -/
def computeMask (g : Graph) (tmp : ℕ) (it : ℕ) : ℕ :=
  (List.range g.n).foldl
    (fun m i =>
      if tmp.testBit i ∧ (g.node i).color ≠ 0 ∧ i ≠ it then
        clearBit m ((g.node i).color - 1)
      else m)
    (2 ^ 64 - 1)

/-- The coalescing-hint scan: first nonzero offset whose target node is
colored with a color still available in the mask.  The in-range guard on the
pointer arithmetic `it + hint_off` reflects that all recorded hints point at
graph nodes. -/
def findHintColor (g : Graph) (it : ℕ) (mask : ℕ) : List ℤ → Option ℕ
  | [] => none
  | off :: rest =>
    if off = 0 then findHintColor g it mask rest
    else
      let hIdx := (it : ℤ) + off
      if 0 ≤ hIdx ∧ hIdx < (g.n : ℤ) then
        let c := (g.node hIdx.toNat).color
        if c ≠ 0 ∧ mask.testBit (c - 1) then some c
        else findHintColor g it mask rest
      else findHintColor g it mask rest

/-- Whether the slot-search scan finds a conflicting interfering neighbor
holding slot `s` (`gr[i].spill_slot == it->spill_slot && it != &gr[i] &&
gr[i].vtx[it]`). -/
def slotConflict (g : Graph) (it s : ℕ) : Bool :=
  (List.range g.n).any (fun i =>
    decide ((g.node i).spillSlot = s ∧ i ≠ it ∧ (g.node i).vtx.testBit it = true))

/-- Largest spill slot stored in the graph (termination bound of the slot
search). -/
def maxSlot (g : Graph) : ℕ :=
  (List.range g.n).foldl (fun a i => max a (g.node i).spillSlot) 0

theorem le_foldl_max_gen (f : ℕ → ℕ) (l : List ℕ) (a : ℕ) :
    a ≤ l.foldl (fun b i => max b (f i)) a ∧
      ∀ x ∈ l, f x ≤ l.foldl (fun b i => max b (f i)) a := by
  induction l generalizing a with
  | nil => simp
  | cons i rest ih =>
    rw [List.foldl_cons]
    rcases ih (max a (f i)) with ⟨h1, h2⟩
    refine ⟨le_trans (Nat.le_max_left _ _) h1, ?_⟩
    intro x hx
    rcases List.mem_cons.mp hx with rfl | hx2
    · exact le_trans (Nat.le_max_right _ _) h1
    · exact h2 x hx2

theorem spillSlot_le_maxSlot {g : Graph} {i : ℕ} (h : i < g.n) :
    (g.node i).spillSlot ≤ maxSlot g :=
  (le_foldl_max_gen (fun i => (g.node i).spillSlot) (List.range g.n) 0).2 i
    (List.mem_range.mpr h)

/-- A conflicting candidate is some stored slot, hence bounded. -/
theorem slotConflict_le_maxSlot {g : Graph} {it s : ℕ}
    (h : slotConflict g it s = true) : s ≤ maxSlot g := by
  rcases List.any_eq_true.mp h with ⟨i, hi, hcond⟩
  rcases of_decide_eq_true hcond with ⟨hslot, _, _⟩
  exact hslot ▸ spillSlot_le_maxSlot (List.mem_range.mp hi)

/-- Fuelled slot-search loop (each bump lowers `max_slot + 1 - s`, so the
fuel below is always enough; kept structural so concrete instances reduce in
the kernel). -/
def findSlotGo (g : Graph) (it : ℕ) : ℕ → ℕ → ℕ
  | 0, s => s
  | fuel + 1, s => if slotConflict g it s then findSlotGo g it fuel (s + 1) else s

/-- The spill-slot search of the select step: starting from 1, bump the
candidate while some interfering neighbor holds it; the restart-the-scan
`do/while` of the source computes exactly this. -/
def findSlot (g : Graph) (it : ℕ) (s : ℕ) : ℕ :=
  findSlotGo g it (maxSlot g + 1 - s) s

/-- The recursion the source loop computes. -/
theorem findSlot_eq (g : Graph) (it s : ℕ) :
    findSlot g it s =
      if slotConflict g it s then findSlot g it (s + 1) else s := by
  by_cases h : slotConflict g it s = true
  · have hs : s ≤ maxSlot g := slotConflict_le_maxSlot h
    rw [if_pos h]
    unfold findSlot
    have he : maxSlot g + 1 - s = (maxSlot g + 1 - (s + 1)) + 1 := by omega
    rw [he]
    simp only [findSlotGo, h, if_true]
  · rw [if_neg h]
    unfold findSlot
    cases hf : maxSlot g + 1 - s with
    | zero => rfl
    | succ k =>
      simp only [findSlotGo]
      rw [if_neg h]

/-- The select step of `try_color`: lowest mask color, spilling (counter
increment, `color = 0`, fresh slot) when `countr_zero` exceeds the class
budget. -/
def selectStep (g : Graph) (it : ℕ) (mask : ℕ) (K M : ℕ)
    (counters : ℕ × ℕ) : (ℕ × ℕ) × Graph :=
  if ctz64 mask > (if (g.node it).isFp then M else K) then
    ((if (g.node it).isFp then (counters.1, counters.2 + 1)
        else (counters.1 + 1, counters.2)),
      (g.setNode it { g.node it with color := 0 }).setNode it
        { (g.setNode it { g.node it with color := 0 }).node it with
            spillSlot :=
              findSlot (g.setNode it { g.node it with color := 0 }) it 1 })
  else (counters, g.setNode it { g.node it with color := ctz64 mask + 1 })

/-- The post-recursion work of one `try_color` level on the picked node:
restore the edges, compute `color_mask`, try the coalescing hints, and
otherwise select or spill. -/
def tryColorStep (g : Graph) (K M it : ℕ)
    (recres : (ℕ × ℕ) × Graph) : (ℕ × ℕ) × Graph :=
  match findHintColor (recres.2.restoreNode (g.node it).vtx it) it
      (computeMask (recres.2.restoreNode (g.node it).vtx it) (g.node it).vtx it)
      (((recres.2.restoreNode (g.node it).vtx it).node it).coalescingHints) with
  | some c =>
    (recres.1,
      (recres.2.restoreNode (g.node it).vtx it).setNode it
        { (recres.2.restoreNode (g.node it).vtx it).node it with color := c })
  | none =>
    selectStep (recres.2.restoreNode (g.node it).vtx it) it
      (computeMask (recres.2.restoreNode (g.node it).vtx it) (g.node it).vtx it)
      K M recres.1

/-- `try_color`, fuelled on the recursion depth (one unit per removed node;
`tryColor_spec` shows `|active nodes|` suffices). -/
def tryColor (fuel : ℕ) (g : Graph) (K M : ℕ) : (ℕ × ℕ) × Graph :=
  match pick g K M with
  | none => ((0, 0), g)
  | some it =>
    match fuel with
    | 0 => ((0, 0), g)
    | fuel + 1 => tryColorStep g K M it (tryColor fuel (g.removeNode it) K M)

/-! ### Invariants of the coloring recursion -/

/-- Well-formedness of an interference graph: symmetric adjacency within
range, colors small enough for the 64-bit mask, adjacent colored nodes
distinctly colored, adjacent spilled nodes on distinct slots, and self-bits
on uncolored connected nodes. -/
structure GWf (g : Graph) : Prop where
  sym : ∀ i j, i < g.n → j < g.n →
    ((g.node i).vtx.testBit j = true ↔ (g.node j).vtx.testBit i = true)
  bits : ∀ i, i < g.n → ∀ j, (g.node i).vtx.testBit j = true → j < g.n
  colorLe : ∀ i, i < g.n → (g.node i).color ≤ 64
  coloredOK : ∀ i j, i < g.n → j < g.n → i ≠ j →
    (g.node i).vtx.testBit j = true → (g.node i).color ≠ 0 →
    (g.node j).color ≠ 0 → (g.node i).color ≠ (g.node j).color
  spillOK : ∀ i j, i < g.n → j < g.n → i ≠ j →
    (g.node i).vtx.testBit j = true → (g.node i).spillSlot ≠ 0 →
    (g.node j).spillSlot ≠ 0 →
    (g.node i).spillSlot ≠ (g.node j).spillSlot
  selfBit : ∀ i, i < g.n → (g.node i).color = 0 → (g.node i).vtx ≠ 0 →
    (g.node i).vtx.testBit i = true

/-- Nodes the picking scan can still choose: uncolored with nonempty
adjacency. -/
def activeCount (g : Graph) : ℕ :=
  ((Finset.range g.n).filter
    (fun i => (g.node i).color = 0 ∧ (g.node i).vtx ≠ 0)).card

/-- Equality of everything `try_color` never writes (`n`, adjacency after
restoration, priorities, hints, classes). -/
def SameSkeleton (g g2 : Graph) : Prop :=
  g2.n = g.n ∧ ∀ i,
    (g2.node i).vtx = (g.node i).vtx ∧
    (g2.node i).priority = (g.node i).priority ∧
    (g2.node i).coalescingHints = (g.node i).coalescingHints ∧
    (g2.node i).hintId = (g.node i).hintId ∧
    (g2.node i).isFp = (g.node i).isFp

theorem SameSkeleton.refl (g : Graph) : SameSkeleton g g :=
  ⟨rfl, fun _ => ⟨rfl, rfl, rfl, rfl, rfl⟩⟩

theorem SameSkeleton.trans {g1 g2 g3 : Graph}
    (h12 : SameSkeleton g1 g2) (h23 : SameSkeleton g2 g3) :
    SameSkeleton g1 g3 := by
  refine ⟨h23.1.trans h12.1, fun i => ?_⟩
  rcases h12.2 i with ⟨a1, a2, a3, a4, a5⟩
  rcases h23.2 i with ⟨b1, b2, b3, b4, b5⟩
  exact ⟨b1.trans a1, b2.trans a2, b3.trans a3, b4.trans a4, b5.trans a5⟩

theorem removeNode_n (g : Graph) (it : ℕ) : (g.removeNode it).n = g.n := rfl

theorem removeNode_node (g : Graph) (it i : ℕ) :
    (g.removeNode it).node i =
      if i = it then { g.node it with vtx := 0 }
      else if (g.node it).vtx.testBit i then
        { g.node i with vtx := clearBit (g.node i).vtx it }
      else g.node i := rfl

theorem restoreNode_n (g : Graph) (tmp it : ℕ) :
    (g.restoreNode tmp it).n = g.n := rfl

theorem restoreNode_node (g : Graph) (tmp it i : ℕ) :
    (g.restoreNode tmp it).node i =
      if i = it then { g.node i with vtx := tmp }
      else if tmp.testBit i then
        { g.node i with vtx := setBit (g.node i).vtx it }
      else g.node i := rfl

theorem setNode_n (g : Graph) (i : ℕ) (nd : GNode) : (g.setNode i nd).n = g.n :=
  rfl

theorem setNode_node (g : Graph) (i j : ℕ) (nd : GNode) :
    (g.setNode i nd).node j = if j = i then nd else g.node j := rfl

/-- Everything but `vtx` survives a removal. -/
theorem removeNode_fields (g : Graph) (it i : ℕ) :
    ((g.removeNode it).node i).priority = (g.node i).priority ∧
    ((g.removeNode it).node i).coalescingHints = (g.node i).coalescingHints ∧
    ((g.removeNode it).node i).hintId = (g.node i).hintId ∧
    ((g.removeNode it).node i).color = (g.node i).color ∧
    ((g.removeNode it).node i).isFp = (g.node i).isFp ∧
    ((g.removeNode it).node i).spillSlot = (g.node i).spillSlot := by
  rw [removeNode_node]
  by_cases h1 : i = it
  · subst h1; simp
  · rw [if_neg h1]
    by_cases h2 : (g.node it).vtx.testBit i <;> simp [h2]

/-- Everything but `vtx` survives a restoration. -/
theorem restoreNode_fields (g : Graph) (tmp it i : ℕ) :
    ((g.restoreNode tmp it).node i).priority = (g.node i).priority ∧
    ((g.restoreNode tmp it).node i).coalescingHints =
      (g.node i).coalescingHints ∧
    ((g.restoreNode tmp it).node i).hintId = (g.node i).hintId ∧
    ((g.restoreNode tmp it).node i).color = (g.node i).color ∧
    ((g.restoreNode tmp it).node i).isFp = (g.node i).isFp ∧
    ((g.restoreNode tmp it).node i).spillSlot = (g.node i).spillSlot := by
  rw [restoreNode_node]
  by_cases h1 : i = it
  · subst h1; simp
  · rw [if_neg h1]
    by_cases h2 : tmp.testBit i <;> simp [h2]

/-- The adjacency mask of the removed graph. -/
theorem removeNode_vtx (g : Graph) (it i : ℕ) :
    ((g.removeNode it).node i).vtx =
      if i = it then 0
      else if (g.node it).vtx.testBit i then clearBit (g.node i).vtx it
      else (g.node i).vtx := by
  rw [removeNode_node]
  by_cases h1 : i = it
  · subst h1; simp
  · rw [if_neg h1, if_neg h1]
    by_cases h2 : (g.node it).vtx.testBit i <;> simp [h2]

/-- The adjacency of the removed graph, bitwise. -/
theorem removeNode_vtx_testBit (g : Graph) (it i j : ℕ) :
    ((g.removeNode it).node i).vtx.testBit j =
      if i = it then false
      else if (g.node it).vtx.testBit i then
        ((g.node i).vtx.testBit j && !decide (it = j))
      else (g.node i).vtx.testBit j := by
  rw [removeNode_node]
  by_cases h1 : i = it
  · subst h1; simp
  · rw [if_neg h1, if_neg h1]
    by_cases h2 : (g.node it).vtx.testBit i
    · simp only [h2, if_true]
      exact testBit_clearBit _ _ _
    · simp only [h2]
      simp

theorem pickGo_sound (g : Graph) (K M : ℕ) :
    ∀ (l : List ℕ) (overlimit : Option ℕ),
      (∀ i ∈ l, i < g.n) →
      (∀ o, overlimit = some o →
        o < g.n ∧ (g.node o).color = 0 ∧ (g.node o).vtx ≠ 0) →
      ∀ it, pickGo g K M l overlimit = some it →
        it < g.n ∧ (g.node it).color = 0 ∧ (g.node it).vtx ≠ 0 := by
  intro l
  induction l with
  | nil =>
    intro overlimit _ hover it hres
    exact hover it hres
  | cons i rest ih =>
    intro overlimit hmem hover it hres
    rw [pickGo] at hres
    by_cases hc : (g.node i).color ≠ 0
    · rw [if_pos hc] at hres
      exact ih overlimit (fun j hj => hmem j (List.mem_cons_of_mem _ hj))
        hover it hres
    · rw [if_neg hc] at hres
      by_cases hz : bitCount (g.node i).vtx = 0
      · rw [if_pos hz] at hres
        exact ih overlimit (fun j hj => hmem j (List.mem_cons_of_mem _ hj))
          hover it hres
      · rw [if_neg hz] at hres
        by_cases hdeg : bitCount (g.node i).vtx - 1 >
            (if (g.node i).isFp then M else K)
        · rw [if_pos hdeg] at hres
          refine ih _ (fun j hj => hmem j (List.mem_cons_of_mem _ hj)) ?_ it hres
          intro o ho
          cases hov : overlimit with
          | none =>
            rw [hov, bumpOver] at ho
            cases ho
            exact ⟨hmem i (List.mem_cons_self _ _), by simpa using hc,
              bitCount_ne_zero_iff.mp hz⟩
          | some o2 =>
            rw [hov, bumpOver] at ho
            by_cases hcmp : (g.node o2).priority > (g.node i).priority
            · rw [if_pos hcmp] at ho
              cases ho
              exact ⟨hmem i (List.mem_cons_self _ _), by simpa using hc,
                bitCount_ne_zero_iff.mp hz⟩
            · rw [if_neg hcmp] at ho
              injection ho with ho2
              subst ho2
              exact hover o2 hov
        · rw [if_neg hdeg] at hres
          injection hres with h3
          subst h3
          exact ⟨hmem i (List.mem_cons_self _ _), by simpa using hc,
            bitCount_ne_zero_iff.mp hz⟩

theorem pick_sound {g : Graph} {K M it : ℕ} (h : pick g K M = some it) :
    it < g.n ∧ (g.node it).color = 0 ∧ (g.node it).vtx ≠ 0 :=
  pickGo_sound g K M (List.range g.n) none
    (fun i hi => List.mem_range.mp hi) (fun o ho => by cases ho) it h

theorem pickGo_none (g : Graph) (K M : ℕ) :
    ∀ (l : List ℕ) (overlimit : Option ℕ),
      pickGo g K M l overlimit = none →
      overlimit = none ∧
        ∀ i ∈ l, (g.node i).color ≠ 0 ∨ (g.node i).vtx = 0 := by
  intro l
  induction l with
  | nil => intro overlimit h; exact ⟨h, by simp⟩
  | cons i rest ih =>
    intro overlimit hres
    rw [pickGo] at hres
    by_cases hc : (g.node i).color ≠ 0
    · rw [if_pos hc] at hres
      rcases ih overlimit hres with ⟨h1, h2⟩
      refine ⟨h1, fun j hj => ?_⟩
      rcases List.mem_cons.mp hj with rfl | hj2
      · exact Or.inl hc
      · exact h2 j hj2
    · rw [if_neg hc] at hres
      by_cases hz : bitCount (g.node i).vtx = 0
      · rw [if_pos hz] at hres
        rcases ih overlimit hres with ⟨h1, h2⟩
        refine ⟨h1, fun j hj => ?_⟩
        rcases List.mem_cons.mp hj with rfl | hj2
        · exact Or.inr (bitCount_eq_zero.mp hz)
        · exact h2 j hj2
      · rw [if_neg hz] at hres
        by_cases hdeg : bitCount (g.node i).vtx - 1 >
            (if (g.node i).isFp then M else K)
        · rw [if_pos hdeg] at hres
          rcases ih _ hres with ⟨h1, _⟩
          exfalso
          cases hov : overlimit with
          | none => rw [hov, bumpOver] at h1; cases h1
          | some o2 =>
            rw [hov, bumpOver] at h1
            by_cases hcmp : (g.node o2).priority > (g.node i).priority <;>
              simp [hcmp] at h1
        · rw [if_neg hdeg] at hres
          cases hres

theorem pick_none {g : Graph} {K M : ℕ} (h : pick g K M = none) :
    ∀ i, i < g.n → (g.node i).color ≠ 0 ∨ (g.node i).vtx = 0 := by
  intro i hi
  exact (pickGo_none g K M (List.range g.n) none h).2 i (List.mem_range.mpr hi)

theorem clearBit_zero (k : ℕ) : clearBit 0 k = 0 := by
  apply Nat.eq_of_testBit_eq
  intro j
  rw [testBit_clearBit]
  simp

/-- Any removed-graph edge was an edge of the original graph. -/
theorem removeNode_edge_le {g : Graph} {it i j : ℕ}
    (h : ((g.removeNode it).node i).vtx.testBit j = true) :
    (g.node i).vtx.testBit j = true := by
  rw [removeNode_vtx_testBit] at h
  by_cases h1 : i = it
  · rw [if_pos h1] at h; cases h
  · rw [if_neg h1] at h
    by_cases h2 : (g.node it).vtx.testBit i
    · rw [if_pos h2] at h
      exact (Bool.and_eq_true_iff.mp h).1
    · rw [if_neg h2] at h; exact h

/-- After removal, the edges are exactly the original edges avoiding `it`. -/
theorem removeNode_edge_iff {g : Graph} (hsym : ∀ i j, i < g.n → j < g.n →
      ((g.node i).vtx.testBit j = true ↔ (g.node j).vtx.testBit i = true))
    (hbits : ∀ i, i < g.n → ∀ j, (g.node i).vtx.testBit j = true → j < g.n)
    {it : ℕ} (hit : it < g.n) {i j : ℕ} (hi : i < g.n) (hj : j < g.n) :
    ((g.removeNode it).node i).vtx.testBit j = true ↔
      (g.node i).vtx.testBit j = true ∧ i ≠ it ∧ j ≠ it := by
  rw [removeNode_vtx_testBit]
  by_cases h1 : i = it
  · subst h1; simp
  · rw [if_neg h1]
    by_cases h2 : (g.node it).vtx.testBit i
    · rw [if_pos h2]
      constructor
      · intro h
        rcases Bool.and_eq_true_iff.mp h with ⟨ha, hb⟩
        refine ⟨ha, h1, ?_⟩
        intro hcontra
        subst hcontra
        simp at hb
      · intro ⟨ha, _, hc⟩
        rw [ha]
        simp [Ne.symm hc]
    · rw [if_neg h2]
      constructor
      · intro h
        refine ⟨h, h1, ?_⟩
        intro hcontra
        apply h2
        have h3 : (g.node i).vtx.testBit it = true := hcontra ▸ h
        exact (hsym i it hi hit).mp h3
      · intro ⟨ha, _, _⟩
        exact ha

/-- Removing an active node strictly shrinks the active count. -/
theorem activeCount_removeNode_lt {g : Graph} {it : ℕ} (hit : it < g.n)
    (hc : (g.node it).color = 0) (hv : (g.node it).vtx ≠ 0) :
    activeCount (g.removeNode it) < activeCount g := by
  apply Finset.card_lt_card
  constructor
  · intro i hi
    simp only [Finset.mem_filter, Finset.mem_range, removeNode_n] at hi ⊢
    rcases hi with ⟨hin, hcol, hvtx⟩
    have hfields := removeNode_fields g it i
    refine ⟨hin, hfields.2.2.2.1 ▸ hcol, ?_⟩
    intro hcontra
    apply hvtx
    rw [removeNode_node]
    by_cases h1 : i = it
    · subst h1; simp
    · rw [if_neg h1]
      by_cases h2 : (g.node it).vtx.testBit i
      · simp only [h2, if_true]
        rw [hcontra]
        simp [clearBit_zero]
      · simp only [h2]
        simp [hcontra]
  · intro hcontra
    have hmem : it ∈ (Finset.range g.n).filter
        (fun i => (g.node i).color = 0 ∧ (g.node i).vtx ≠ 0) := by
      simp only [Finset.mem_filter, Finset.mem_range]
      exact ⟨hit, hc, hv⟩
    have := hcontra hmem
    simp only [Finset.mem_filter, Finset.mem_range, removeNode_n] at this
    rcases this with ⟨_, _, hvtx⟩
    apply hvtx
    rw [removeNode_node]
    simp

/-- Removal preserves graph well-formedness. -/
theorem GWf_removeNode {g : Graph} (hwf : GWf g) {it : ℕ} (hit : it < g.n) :
    GWf (g.removeNode it) := by
  have hfields := removeNode_fields g it
  constructor
  · intro i j hi hj
    rw [removeNode_edge_iff hwf.sym hwf.bits hit hi hj,
      removeNode_edge_iff hwf.sym hwf.bits hit hj hi]
    rw [hwf.sym i j hi hj]
    constructor
    · rintro ⟨h1, h2, h3⟩; exact ⟨h1, h3, h2⟩
    · rintro ⟨h1, h2, h3⟩; exact ⟨h1, h3, h2⟩
  · intro i hi j hbit
    exact hwf.bits i hi j (removeNode_edge_le hbit)
  · intro i hi
    rw [(hfields i).2.2.2.1]
    exact hwf.colorLe i hi
  · intro i j hi hj hne hbit
    rw [(hfields i).2.2.2.1, (hfields j).2.2.2.1]
    exact hwf.coloredOK i j hi hj hne (removeNode_edge_le hbit)
  · intro i j hi hj hne hbit
    rw [(hfields i).2.2.2.2.2, (hfields j).2.2.2.2.2]
    exact hwf.spillOK i j hi hj hne (removeNode_edge_le hbit)
  · intro i hi hcol hvtx
    have hine : i ≠ it := by
      intro hcontra
      apply hvtx
      rw [hcontra, removeNode_node]
      simp
    have hvg : (g.node i).vtx ≠ 0 := by
      intro hcontra
      apply hvtx
      rw [removeNode_node, if_neg hine]
      by_cases h2 : (g.node it).vtx.testBit i
      · simp only [h2, if_true]
        rw [hcontra, clearBit_zero]
      · simp only [h2]
        simpa using hcontra
    have hself := hwf.selfBit i hi ((hfields i).2.2.2.1 ▸ hcol) hvg
    rw [removeNode_vtx_testBit, if_neg hine]
    by_cases h2 : (g.node it).vtx.testBit i
    · rw [if_pos h2, hself]
      simp [Ne.symm hine]
    · rw [if_neg h2]
      exact hself

/-- Restoring after a recursion that preserved the removed graph's adjacency
recovers the original adjacency exactly. -/
theorem restore_remove_vtx {g g2 : Graph} (hwf : GWf g) {it : ℕ}
    (hit : it < g.n)
    (hvtx : ∀ i, (g2.node i).vtx = ((g.removeNode it).node i).vtx) :
    ∀ i, ((g2.restoreNode (g.node it).vtx it).node i).vtx = (g.node i).vtx := by
  intro i
  rw [restoreNode_node]
  by_cases h1 : i = it
  · subst h1; simp
  · rw [if_neg h1]
    by_cases h2 : (g.node it).vtx.testBit i
    · simp only [h2, if_true]
      rw [hvtx i, removeNode_node, if_neg h1]
      simp only [h2, if_true]
      have hin : i < g.n := hwf.bits it hit i h2
      have hback : (g.node i).vtx.testBit it = true :=
        (hwf.sym it i hit hin).mp h2
      exact setBit_clearBit_of_testBit hback
    · simp only [h2]
      simp only [if_false, Bool.false_eq_true]
      rw [hvtx i, removeNode_node, if_neg h1]
      simp [h2]

/-- Bitwise description of `color_mask`: all 64 low bits, except the bit
`color - 1` of every distinct colored neighbor in `tmp` within range. -/
theorem computeMask_testBit (g : Graph) (tmp it b : ℕ) :
    (computeMask g tmp it).testBit b =
      (decide (b < 64) &&
        !decide (∃ i, i < g.n ∧ tmp.testBit i = true ∧ (g.node i).color ≠ 0 ∧
          i ≠ it ∧ (g.node i).color - 1 = b)) := by
  suffices hgen : ∀ (l : List ℕ) (m : ℕ),
      (l.foldl (fun m i =>
        if tmp.testBit i ∧ (g.node i).color ≠ 0 ∧ i ≠ it then
          clearBit m ((g.node i).color - 1)
        else m) m).testBit b =
      (m.testBit b &&
        !decide (∃ i ∈ l, tmp.testBit i = true ∧ (g.node i).color ≠ 0 ∧
          i ≠ it ∧ (g.node i).color - 1 = b)) by
    unfold computeMask
    rw [hgen]
    rw [Nat.testBit_two_pow_sub_one]
    congr 2
    rw [decide_eq_decide]
    constructor
    · rintro ⟨i, hi, h2⟩; exact ⟨i, List.mem_range.mp hi, h2⟩
    · rintro ⟨i, hi, h2⟩; exact ⟨i, List.mem_range.mpr hi, h2⟩
  intro l
  induction l with
  | nil => intro m; simp
  | cons i rest ih =>
    intro m
    rw [List.foldl_cons]
    by_cases hcond : tmp.testBit i ∧ (g.node i).color ≠ 0 ∧ i ≠ it
    · rw [if_pos hcond, ih]
      rw [testBit_clearBit]
      have hsplit : (∃ j ∈ i :: rest, tmp.testBit j = true ∧
          (g.node j).color ≠ 0 ∧ j ≠ it ∧ (g.node j).color - 1 = b) ↔
          ((g.node i).color - 1 = b ∨
            ∃ j ∈ rest, tmp.testBit j = true ∧ (g.node j).color ≠ 0 ∧
              j ≠ it ∧ (g.node j).color - 1 = b) := by
        constructor
        · rintro ⟨j, hj, hrest⟩
          rcases List.mem_cons.mp hj with rfl | hj2
          · exact Or.inl hrest.2.2.2
          · exact Or.inr ⟨j, hj2, hrest⟩
        · rintro (hl | ⟨j, hj, hrest⟩)
          · exact ⟨i, List.mem_cons_self _ _, hcond.1, hcond.2.1, hcond.2.2, hl⟩
          · exact ⟨j, List.mem_cons_of_mem _ hj, hrest⟩
      have hD : decide (∃ j ∈ i :: rest, tmp.testBit j = true ∧
          (g.node j).color ≠ 0 ∧ j ≠ it ∧ (g.node j).color - 1 = b) =
          (decide ((g.node i).color - 1 = b) ||
            decide (∃ j ∈ rest, tmp.testBit j = true ∧ (g.node j).color ≠ 0 ∧
              j ≠ it ∧ (g.node j).color - 1 = b)) := by
        by_cases hp : (g.node i).color - 1 = b <;>
          by_cases hq : (∃ j ∈ rest, tmp.testBit j = true ∧
            (g.node j).color ≠ 0 ∧ j ≠ it ∧ (g.node j).color - 1 = b) <;>
          simp [hsplit, hp, hq, hcond.1, hcond.2.1, hcond.2.2]
      rw [hD, Bool.not_or]
      cases m.testBit b <;>
        cases hb : decide ((g.node i).color - 1 = b) <;>
          cases hr : decide (∃ j ∈ rest, tmp.testBit j = true ∧
            (g.node j).color ≠ 0 ∧ j ≠ it ∧ (g.node j).color - 1 = b) <;>
        simp
    · rw [if_neg hcond, ih]
      have hiff : (∃ j ∈ i :: rest, tmp.testBit j = true ∧
          (g.node j).color ≠ 0 ∧ j ≠ it ∧ (g.node j).color - 1 = b) ↔
          (∃ j ∈ rest, tmp.testBit j = true ∧ (g.node j).color ≠ 0 ∧
            j ≠ it ∧ (g.node j).color - 1 = b) := by
        constructor
        · rintro ⟨j, hj, hrest⟩
          rcases List.mem_cons.mp hj with rfl | hj2
          · exact absurd ⟨hrest.1, hrest.2.1, hrest.2.2.1⟩ hcond
          · exact ⟨j, hj2, hrest⟩
        · rintro ⟨j, hj, hrest⟩
          exact ⟨j, List.mem_cons_of_mem _ hj, hrest⟩
      rw [decide_eq_decide.mpr hiff]

/-- Soundness of the coalescing-hint scan: an adopted color is nonzero,
available in the mask, and borne by some node of the graph. -/
theorem findHintColor_sound (g : Graph) (it mask : ℕ) :
    ∀ (l : List ℤ) (c : ℕ), findHintColor g it mask l = some c →
      c ≠ 0 ∧ mask.testBit (c - 1) = true ∧
        ∃ h, h < g.n ∧ (g.node h).color = c := by
  intro l
  induction l with
  | nil => intro c hc; cases hc
  | cons off rest ih =>
    intro c hc
    rw [findHintColor] at hc
    by_cases h0 : off = 0
    · rw [if_pos h0] at hc; exact ih c hc
    · rw [if_neg h0] at hc
      by_cases hrange : 0 ≤ (it : ℤ) + off ∧ (it : ℤ) + off < (g.n : ℤ)
      · rw [if_pos hrange] at hc
        by_cases hcol : (g.node ((it : ℤ) + off).toNat).color ≠ 0 ∧
            mask.testBit ((g.node ((it : ℤ) + off).toNat).color - 1) = true
        · rw [if_pos hcol] at hc
          injection hc with hc2
          subst hc2
          refine ⟨hcol.1, hcol.2, ((it : ℤ) + off).toNat, ?_, rfl⟩
          omega
        · rw [if_neg hcol] at hc; exact ih c hc
      · rw [if_neg hrange] at hc; exact ih c hc

/-- The slot search finds the least candidate `≥ s` free of conflicts. -/
theorem findSlot_spec (g : Graph) (it : ℕ) :
    ∀ s, s ≤ findSlot g it s ∧ slotConflict g it (findSlot g it s) = false ∧
      ∀ t, s ≤ t → t < findSlot g it s → slotConflict g it t = true := by
  intro s
  rw [findSlot_eq]
  by_cases h : slotConflict g it s = true
  · rw [if_pos h]
    have ih := findSlot_spec g it (s + 1)
    refine ⟨by omega, ih.2.1, fun t ht1 ht2 => ?_⟩
    rcases Nat.eq_or_lt_of_le ht1 with rfl | hlt
    · exact h
    · exact ih.2.2 t hlt ht2
  · rw [if_neg h]
    exact ⟨le_refl s, by simpa using h, fun t ht1 ht2 => by omega⟩
termination_by s => maxSlot g + 1 - s
decreasing_by
  have := slotConflict_le_maxSlot h
  omega

/-- Invariant propagation through one level of `try_color`, given the picked
node and the recursion's outcome on the reduced graph. -/
theorem tryColorStep_spec (g : Graph) (K M it : ℕ) (recres : (ℕ × ℕ) × Graph)
    (hK : K ≤ 63) (hM : M ≤ 63) (hwf : GWf g)
    (hitn : it < g.n) (hitc : (g.node it).color = 0)
    (hitv : (g.node it).vtx ≠ 0)
    (hwf2 : GWf recres.2)
    (hskel2 : SameSkeleton (g.removeNode it) recres.2)
    (hcolor2 : ∀ i, ((g.removeNode it).node i).color ≠ 0 →
      (recres.2.node i).color = ((g.removeNode it).node i).color)
    (hslot2 : ∀ i, ((g.removeNode it).node i).vtx = 0 ∨
        ((g.removeNode it).node i).color ≠ 0 →
      (recres.2.node i).spillSlot = 0)
    (hsucc2 : recres.1 = (0, 0) →
      (∀ i, (recres.2.node i).spillSlot = 0) ∧
      (∀ i, i < g.n → ((g.removeNode it).node i).vtx ≠ 0 →
        (recres.2.node i).color ≠ 0)) :
    GWf (tryColorStep g K M it recres).2 ∧
    SameSkeleton g (tryColorStep g K M it recres).2 ∧
    (∀ i, (g.node i).color ≠ 0 →
      ((tryColorStep g K M it recres).2.node i).color = (g.node i).color) ∧
    (∀ i, (g.node i).vtx = 0 ∨ (g.node i).color ≠ 0 →
      ((tryColorStep g K M it recres).2.node i).spillSlot = 0) ∧
    ((tryColorStep g K M it recres).1 = (0, 0) →
      (∀ i, ((tryColorStep g K M it recres).2.node i).spillSlot = 0) ∧
      (∀ i, i < g.n → (g.node i).vtx ≠ 0 →
        ((tryColorStep g K M it recres).2.node i).color ≠ 0)) := by
  have hfld1 := fun i => removeNode_fields g it i
  have hn2 : recres.2.n = g.n := hskel2.1
  have hvtx2 : ∀ i, (recres.2.node i).vtx = ((g.removeNode it).node i).vtx :=
    fun i => (hskel2.2 i).1
  have hvtx3 : ∀ i,
      ((recres.2.restoreNode (g.node it).vtx it).node i).vtx = (g.node i).vtx :=
    restore_remove_vtx hwf hitn hvtx2
  set g3 := recres.2.restoreNode (g.node it).vtx it with hg3def
  have hn3 : g3.n = g.n := hn2
  have hf3 := fun i => restoreNode_fields recres.2 (g.node it).vtx it i
  have hcol3 : ∀ i, (g3.node i).color = (recres.2.node i).color :=
    fun i => (hf3 i).2.2.2.1
  have hslo3 : ∀ i, (g3.node i).spillSlot = (recres.2.node i).spillSlot :=
    fun i => (hf3 i).2.2.2.2.2
  have hfp3 : ∀ i, (g3.node i).isFp = (g.node i).isFp := fun i =>
    ((hf3 i).2.2.2.2.1).trans
      (((hskel2.2 i).2.2.2.2).trans ((hfld1 i).2.2.2.2.1))
  have hskel3 : SameSkeleton g g3 := by
    refine ⟨hn3, fun i => ⟨hvtx3 i, ?_, ?_, ?_, hfp3 i⟩⟩
    · exact ((hf3 i).1).trans (((hskel2.2 i).2.1).trans ((hfld1 i).1))
    · exact ((hf3 i).2.1).trans (((hskel2.2 i).2.2.1).trans ((hfld1 i).2.1))
    · exact ((hf3 i).2.2.1).trans (((hskel2.2 i).2.2.2.1).trans ((hfld1 i).2.2.1))
  have hcolg : ∀ i, (g.node i).color ≠ 0 →
      (g3.node i).color = (g.node i).color := by
    intro i hc
    rw [hcol3 i]
    have h1 : ((g.removeNode it).node i).color = (g.node i).color :=
      (hfld1 i).2.2.2.1
    rw [← h1]
    exact hcolor2 i (h1 ▸ hc)
  have hcolg_zero : ∀ i, (g3.node i).color = 0 → (g.node i).color = 0 := by
    intro i h
    by_contra hc
    rw [hcolg i hc] at h
    exact hc h
  have hg1it_vtx : ((g.removeNode it).node it).vtx = 0 := by
    rw [removeNode_vtx]
    simp
  have hslot3_it : (g3.node it).spillSlot = 0 := by
    rw [hslo3 it]
    exact hslot2 it (Or.inl hg1it_vtx)
  have hvtx1_zero : ∀ i, i ≠ it → (g.node i).vtx = 0 →
      ((g.removeNode it).node i).vtx = 0 := by
    intro i hine h
    rw [removeNode_vtx, if_neg hine]
    by_cases h2 : (g.node it).vtx.testBit i
    · rw [if_pos h2, h, clearBit_zero]
    · rw [if_neg h2]; exact h
  have hslot3_inactive : ∀ i, (g.node i).vtx = 0 ∨ (g.node i).color ≠ 0 →
      (g3.node i).spillSlot = 0 := by
    intro i h
    rw [hslo3 i]
    apply hslot2 i
    rcases h with h | h
    · have hine : i ≠ it := by rintro rfl; exact hitv h
      exact Or.inl (hvtx1_zero i hine h)
    · exact Or.inr (by rw [(hfld1 i).2.2.2.1]; exact h)
  have hvtx1_active : ∀ i, i < g.n → i ≠ it → (g.node i).color = 0 →
      (g.node i).vtx ≠ 0 → ((g.removeNode it).node i).vtx ≠ 0 := by
    intro i hi hine hc hv
    have hself := hwf.selfBit i hi hc hv
    intro hcontra
    have hbit : ((g.removeNode it).node i).vtx.testBit i = false := by
      rw [hcontra]; exact Nat.zero_testBit i
    rw [removeNode_vtx_testBit, if_neg hine] at hbit
    by_cases h2 : (g.node it).vtx.testBit i
    · rw [if_pos h2, hself] at hbit
      simp [Ne.symm hine] at hbit
    · rw [if_neg h2, hself] at hbit
      cases hbit
  have hsucc_colors : recres.1 = (0, 0) → ∀ i, i < g.n → i ≠ it →
      (g.node i).vtx ≠ 0 → (g3.node i).color ≠ 0 := by
    intro hz i hi hine hv
    by_cases hc : (g.node i).color = 0
    · rw [hcol3 i]
      exact (hsucc2 hz).2 i hi (hvtx1_active i hi hine hc hv)
    · rw [hcolg i hc]
      exact hc
  have hmask_ne : ∀ c, c ≠ 0 →
      (computeMask g3 (g.node it).vtx it).testBit (c - 1) = true →
      ∀ j, j < g.n → (g.node it).vtx.testBit j = true → j ≠ it →
        (g3.node j).color ≠ 0 → (g3.node j).color ≠ c := by
    intro c hc hbit j hj htj hjne hcol hceq
    rw [computeMask_testBit] at hbit
    rcases Bool.and_eq_true_iff.mp hbit with ⟨_, hno⟩
    rw [Bool.not_eq_true', decide_eq_false_iff_not] at hno
    exact hno ⟨j, by rw [hn3]; exact hj, htj, hcol, hjne, by rw [hceq]⟩
  have hedge_g2 : ∀ i j, i ≠ it → j ≠ it → i < g.n → j < g.n →
      (g.node i).vtx.testBit j = true →
      (recres.2.node i).vtx.testBit j = true := by
    intro i j hi2 hj2 hi hj hedge
    rw [hvtx2 i]
    exact (removeNode_edge_iff hwf.sym hwf.bits hitn hi hj).mpr ⟨hedge, hi2, hj2⟩
  -- Shared conclusion for the two color-assignment outcomes.
  have hfinish : ∀ c : ℕ, c ≠ 0 → c ≤ 64 →
      (computeMask g3 (g.node it).vtx it).testBit (c - 1) = true →
      GWf (g3.setNode it { g3.node it with color := c }) ∧
      SameSkeleton g (g3.setNode it { g3.node it with color := c }) ∧
      (∀ i, (g.node i).color ≠ 0 →
        ((g3.setNode it { g3.node it with color := c }).node i).color =
          (g.node i).color) ∧
      (∀ i, (g.node i).vtx = 0 ∨ (g.node i).color ≠ 0 →
        ((g3.setNode it { g3.node it with color := c }).node i).spillSlot = 0) ∧
      (recres.1 = (0, 0) →
        (∀ i, ((g3.setNode it { g3.node it with color := c }).node
            i).spillSlot = 0) ∧
        (∀ i, i < g.n → (g.node i).vtx ≠ 0 →
          ((g3.setNode it { g3.node it with color := c }).node i).color ≠ 0)) := by
    intro c hc0 hc64 hcbit
    set g4 := g3.setNode it { g3.node it with color := c } with hg4def
    have hnode4 : ∀ i, g4.node i =
        if i = it then { g3.node it with color := c } else g3.node i :=
      fun i => rfl
    have hn4 : g4.n = g.n := hn3
    have hvtx4 : ∀ i, (g4.node i).vtx = (g.node i).vtx := by
      intro i
      rw [hnode4 i]
      by_cases h1 : i = it
      · rw [if_pos h1, h1]
        exact hvtx3 it
      · rw [if_neg h1]
        exact hvtx3 i
    have hcol4 : ∀ i, i ≠ it → (g4.node i).color = (g3.node i).color := by
      intro i h
      rw [hnode4 i, if_neg h]
    have hcol4it : (g4.node it).color = c := by
      rw [hnode4 it, if_pos rfl]
    have hslot4 : ∀ i, (g4.node i).spillSlot = (g3.node i).spillSlot := by
      intro i
      rw [hnode4 i]
      by_cases h1 : i = it
      · rw [if_pos h1, h1]
      · rw [if_neg h1]
    have hprio4 : ∀ i, (g4.node i).priority = (g3.node i).priority := by
      intro i
      rw [hnode4 i]
      by_cases h1 : i = it
      · rw [if_pos h1, h1]
      · rw [if_neg h1]
    have hhint4 : ∀ i, (g4.node i).coalescingHints =
        (g3.node i).coalescingHints := by
      intro i
      rw [hnode4 i]
      by_cases h1 : i = it
      · rw [if_pos h1, h1]
      · rw [if_neg h1]
    have hhid4 : ∀ i, (g4.node i).hintId = (g3.node i).hintId := by
      intro i
      rw [hnode4 i]
      by_cases h1 : i = it
      · rw [if_pos h1, h1]
      · rw [if_neg h1]
    have hfp4 : ∀ i, (g4.node i).isFp = (g3.node i).isFp := by
      intro i
      rw [hnode4 i]
      by_cases h1 : i = it
      · rw [if_pos h1, h1]
      · rw [if_neg h1]
    refine ⟨⟨?_, ?_, ?_, ?_, ?_, ?_⟩, ?_, ?_, ?_, ?_⟩
    · -- symmetric
      intro i j hi hj
      rw [hvtx4 i, hvtx4 j]
      exact hwf.sym i j (hn4 ▸ hi) (hn4 ▸ hj)
    · -- bits in range
      intro i hi j hbit
      rw [hvtx4 i] at hbit
      have := hwf.bits i (hn4 ▸ hi) j hbit
      exact hn4 ▸ this
    · -- colors ≤ 64
      intro i hi
      by_cases h1 : i = it
      · rw [h1, hcol4it]; exact hc64
      · rw [hcol4 i h1, hcol3 i]
        exact hwf2.colorLe i (by rw [hn2]; exact hn4 ▸ hi)
    · -- adjacent colored nodes differ
      intro i j hi hj hne hedge hci hcj
      have hi' : i < g.n := hn4 ▸ hi
      have hj' : j < g.n := hn4 ▸ hj
      rw [hvtx4 i] at hedge
      by_cases h1 : i = it
      · have hjne : j ≠ it := by rw [h1] at hne; exact fun hc => hne hc.symm
        rw [h1, hcol4it, hcol4 j hjne]
        have htj : (g.node it).vtx.testBit j = true := by rw [← h1]; exact hedge
        have hcolj : (g3.node j).color ≠ 0 := by
          rw [← hcol4 j hjne]; exact hcj
        exact fun hcontra =>
          (hmask_ne c hc0 hcbit j hj' htj hjne hcolj) hcontra.symm
      · by_cases h2 : j = it
        · rw [hcol4 i h1, h2, hcol4it]
          have hti : (g.node it).vtx.testBit i = true := by
            have := (hwf.sym i it hi' hitn).mp (by rw [← h2]; exact hedge)
            exact this
          have hcoli : (g3.node i).color ≠ 0 := by
            rw [← hcol4 i h1]; exact hci
          exact hmask_ne c hc0 hcbit i hi' hti h1 hcoli
        · rw [hcol4 i h1, hcol4 j h2, hcol3 i, hcol3 j]
          refine hwf2.coloredOK i j (by rw [hn2]; exact hi')
            (by rw [hn2]; exact hj') hne
            (hedge_g2 i j h1 h2 hi' hj' hedge) ?_ ?_
          · rw [← hcol3 i, ← hcol4 i h1]; exact hci
          · rw [← hcol3 j, ← hcol4 j h2]; exact hcj
    · -- adjacent spilled nodes on distinct slots
      intro i j hi hj hne hedge hsi hsj
      have hi' : i < g.n := hn4 ▸ hi
      have hj' : j < g.n := hn4 ▸ hj
      rw [hvtx4 i] at hedge
      by_cases h1 : i = it
      · exfalso
        apply hsi
        rw [h1, hslot4 it, hslot3_it]
      · by_cases h2 : j = it
        · exfalso
          apply hsj
          rw [h2, hslot4 it, hslot3_it]
        · rw [hslot4 i, hslot4 j, hslo3 i, hslo3 j]
          refine hwf2.spillOK i j (by rw [hn2]; exact hi')
            (by rw [hn2]; exact hj') hne
            (hedge_g2 i j h1 h2 hi' hj' hedge) ?_ ?_
          · rw [← hslo3 i, ← hslot4 i]; exact hsi
          · rw [← hslo3 j, ← hslot4 j]; exact hsj
    · -- self bits
      intro i hi hcol hv
      have hi' : i < g.n := hn4 ▸ hi
      have h1 : i ≠ it := by
        intro hcontra
        rw [hcontra, hcol4it] at hcol
        exact hc0 hcol
      have hcg : (g.node i).color = 0 := by
        apply hcolg_zero
        rw [← hcol4 i h1]
        exact hcol
      rw [hvtx4 i] at hv ⊢
      exact hwf.selfBit i hi' hcg hv
    · -- skeleton
      exact ⟨hn4, fun i => ⟨hvtx4 i,
        (hprio4 i).trans (hskel3.2 i).2.1,
        (hhint4 i).trans (hskel3.2 i).2.2.1,
        (hhid4 i).trans (hskel3.2 i).2.2.2.1,
        (hfp4 i).trans (hskel3.2 i).2.2.2.2⟩⟩
    · -- colored nodes keep their colors
      intro i hc
      have h1 : i ≠ it := by
        intro hcontra
        rw [hcontra] at hc
        exact hc hitc
      rw [hcol4 i h1]
      exact hcolg i hc
    · -- disconnected or colored nodes stay unspilled
      intro i h
      rw [hslot4 i]
      exact hslot3_inactive i h
    · -- success propagation
      intro hz
      constructor
      · intro i
        rw [hslot4 i, hslo3 i]
        exact (hsucc2 hz).1 i
      · intro i hi hv
        by_cases h1 : i = it
        · rw [h1, hcol4it]
          exact hc0
        · rw [hcol4 i h1]
          exact hsucc_colors hz i hi h1 hv
  -- Branch on the coalescing hints.
  unfold tryColorStep
  rw [← hg3def]
  cases hhint : findHintColor g3 it (computeMask g3 (g.node it).vtx it)
      (g3.node it).coalescingHints with
  | some c =>
    obtain ⟨hc0, hcbit, h, hhn, hhcol⟩ :=
      findHintColor_sound g3 it (computeMask g3 (g.node it).vtx it)
        (g3.node it).coalescingHints c hhint
    have hc64 : c ≤ 64 := by
      rw [← hhcol, hcol3 h]
      exact hwf2.colorLe h hhn
    exact hfinish c hc0 hc64 hcbit
  | none =>
    rw [selectStep]
    by_cases hspill : ctz64 (computeMask g3 (g.node it).vtx it) >
        (if (g3.node it).isFp then M else K)
    · -- spill path
      rw [if_pos hspill]
      set gA := g3.setNode it { g3.node it with color := 0 } with hgAdef
      set s := findSlot gA it 1 with hsdef
      set g5 := gA.setNode it { gA.node it with spillSlot := s } with hg5def
      have hnode5 : ∀ i, g5.node i =
          if i = it then { g3.node it with color := 0, spillSlot := s }
          else g3.node i := by
        intro i
        by_cases h1 : i = it
        · rw [if_pos h1, h1, hg5def, setNode_node, if_pos rfl, hgAdef,
            setNode_node, if_pos rfl]
        · rw [if_neg h1, hg5def, setNode_node, if_neg h1, hgAdef,
            setNode_node, if_neg h1]
      have hn5 : g5.n = g.n := hn3
      have hvtx5 : ∀ i, (g5.node i).vtx = (g.node i).vtx := by
        intro i
        rw [hnode5 i]
        by_cases h1 : i = it
        · rw [if_pos h1, h1]
          exact hvtx3 it
        · rw [if_neg h1]
          exact hvtx3 i
      have hcol5 : ∀ i, i ≠ it → (g5.node i).color = (g3.node i).color := by
        intro i h
        rw [hnode5 i, if_neg h]
      have hcol5it : (g5.node it).color = 0 := by
        rw [hnode5 it, if_pos rfl]
      have hslot5 : ∀ i, i ≠ it → (g5.node i).spillSlot =
          (g3.node i).spillSlot := by
        intro i h
        rw [hnode5 i, if_neg h]
      have hslot5it : (g5.node it).spillSlot = s := by
        rw [hnode5 it, if_pos rfl]
      have hfs := findSlot_spec gA it 1
      have hs1 : 1 ≤ s := by rw [hsdef]; exact (findSlot_spec gA it 1).1
      have hs0 : s ≠ 0 := by omega
      have hgA_slot : ∀ j, j ≠ it → (gA.node j).spillSlot =
          (g3.node j).spillSlot := by
        intro j h
        rw [hgAdef, setNode_node, if_neg h]
      have hgA_vtx : ∀ j, j ≠ it → (gA.node j).vtx = (g3.node j).vtx := by
        intro j h
        rw [hgAdef, setNode_node, if_neg h]
      have hnoc : ∀ j, j < g.n → j ≠ it →
          (g3.node j).vtx.testBit it = true →
          (g3.node j).spillSlot ≠ s := by
        intro j hj hjne hbit hcontra
        have hcond : slotConflict gA it s = true := by
          apply List.any_eq_true.mpr
          refine ⟨j, List.mem_range.mpr (by rw [hgAdef, setNode_n, hn3]; exact hj), ?_⟩
          apply decide_eq_true
          exact ⟨by rw [hgA_slot j hjne]; exact hcontra, hjne,
            by rw [hgA_vtx j hjne]; exact hbit⟩
        rw [hfs.2.1] at hcond
        cases hcond
      have hcountne : (if (g3.node it).isFp then
          (recres.1.1, recres.1.2 + 1) else (recres.1.1 + 1, recres.1.2)) ≠
          ((0 : ℕ), (0 : ℕ)) := by
        by_cases hfp : (g3.node it).isFp
        · rw [if_pos hfp]
          intro hcontra
          have := congrArg Prod.snd hcontra
          simp at this
        · rw [if_neg hfp]
          intro hcontra
          have := congrArg Prod.fst hcontra
          simp at this
      refine ⟨⟨?_, ?_, ?_, ?_, ?_, ?_⟩, ?_, ?_, ?_, ?_⟩
      · intro i j hi hj
        rw [hvtx5 i, hvtx5 j]
        exact hwf.sym i j (hn5 ▸ hi) (hn5 ▸ hj)
      · intro i hi j hbit
        rw [hvtx5 i] at hbit
        have := hwf.bits i (hn5 ▸ hi) j hbit
        exact hn5 ▸ this
      · intro i hi
        by_cases h1 : i = it
        · rw [h1, hcol5it]
          omega
        · rw [hcol5 i h1, hcol3 i]
          exact hwf2.colorLe i (by rw [hn2]; exact hn5 ▸ hi)
      · intro i j hi hj hne hedge hci hcj
        have hi' : i < g.n := hn5 ▸ hi
        have hj' : j < g.n := hn5 ▸ hj
        rw [hvtx5 i] at hedge
        by_cases h1 : i = it
        · exfalso
          apply hci
          rw [h1, hcol5it]
        · by_cases h2 : j = it
          · exfalso
            apply hcj
            rw [h2, hcol5it]
          · rw [hcol5 i h1, hcol5 j h2, hcol3 i, hcol3 j]
            refine hwf2.coloredOK i j (by rw [hn2]; exact hi')
              (by rw [hn2]; exact hj') hne
              (hedge_g2 i j h1 h2 hi' hj' hedge) ?_ ?_
            · rw [← hcol3 i, ← hcol5 i h1]; exact hci
            · rw [← hcol3 j, ← hcol5 j h2]; exact hcj
      · intro i j hi hj hne hedge hsi hsj
        have hi' : i < g.n := hn5 ▸ hi
        have hj' : j < g.n := hn5 ▸ hj
        rw [hvtx5 i] at hedge
        by_cases h1 : i = it
        · rw [h1, hslot5it]
          rw [hslot5 j (by rw [h1] at hne; exact fun hc => hne hc.symm)]
          have hjne : j ≠ it := by rw [h1] at hne; exact fun hc => hne hc.symm
          have hbit : (g3.node j).vtx.testBit it = true := by
            rw [hvtx3 j]
            apply (hwf.sym it j hitn hj').mp
            rw [← h1]
            exact hedge
          exact fun hcontra => (hnoc j hj' hjne hbit) hcontra.symm
        · by_cases h2 : j = it
          · rw [hslot5 i h1, h2, hslot5it]
            have hbit : (g3.node i).vtx.testBit it = true := by
              rw [hvtx3 i]
              rw [← h2]
              exact hedge
            exact hnoc i hi' h1 hbit
          · rw [hslot5 i h1, hslot5 j h2, hslo3 i, hslo3 j]
            refine hwf2.spillOK i j (by rw [hn2]; exact hi')
              (by rw [hn2]; exact hj') hne
              (hedge_g2 i j h1 h2 hi' hj' hedge) ?_ ?_
            · rw [← hslo3 i, ← hslot5 i h1]; exact hsi
            · rw [← hslo3 j, ← hslot5 j h2]; exact hsj
      · intro i hi hcol hv
        have hi' : i < g.n := hn5 ▸ hi
        rw [hvtx5 i] at hv ⊢
        by_cases h1 : i = it
        · rw [h1]
          exact hwf.selfBit it hitn hitc hitv
        · have hcg : (g.node i).color = 0 := by
            apply hcolg_zero
            rw [← hcol5 i h1]
            exact hcol
          exact hwf.selfBit i hi' hcg hv
      · -- skeleton
        refine ⟨hn5, fun i => ⟨hvtx5 i, ?_, ?_, ?_, ?_⟩⟩
        · have : (g5.node i).priority = (g3.node i).priority := by
            rw [hnode5 i]
            by_cases h1 : i = it
            · rw [if_pos h1, h1]
            · rw [if_neg h1]
          exact this.trans (hskel3.2 i).2.1
        · have : (g5.node i).coalescingHints = (g3.node i).coalescingHints := by
            rw [hnode5 i]
            by_cases h1 : i = it
            · rw [if_pos h1, h1]
            · rw [if_neg h1]
          exact this.trans (hskel3.2 i).2.2.1
        · have : (g5.node i).hintId = (g3.node i).hintId := by
            rw [hnode5 i]
            by_cases h1 : i = it
            · rw [if_pos h1, h1]
            · rw [if_neg h1]
          exact this.trans (hskel3.2 i).2.2.2.1
        · have : (g5.node i).isFp = (g3.node i).isFp := by
            rw [hnode5 i]
            by_cases h1 : i = it
            · rw [if_pos h1, h1]
            · rw [if_neg h1]
          exact this.trans (hskel3.2 i).2.2.2.2
      · -- colored nodes keep their colors
        intro i hc
        have h1 : i ≠ it := by
          intro hcontra
          rw [hcontra] at hc
          exact hc hitc
        rw [hcol5 i h1]
        exact hcolg i hc
      · -- disconnected or colored nodes stay unspilled
        intro i h
        have h1 : i ≠ it := by
          rintro rfl
          rcases h with h | h
          · exact hitv h
          · exact h hitc
        rw [hslot5 i h1]
        exact hslot3_inactive i h
      · -- success: impossible, a spill was counted
        intro hz
        exact absurd hz hcountne
    · -- color within budget
      rw [if_neg hspill]
      have hlim : (if (g3.node it).isFp then M else K) ≤ 63 := by
        by_cases hfp : (g3.node it).isFp
        · rw [if_pos hfp]; exact hM
        · rw [if_neg hfp]; exact hK
      have hns : ctz64 (computeMask g3 (g.node it).vtx it) ≤ 63 := by omega
      have hbit : (computeMask g3 (g.node it).vtx it).testBit
          (ctz64 (computeMask g3 (g.node it).vtx it)) = true :=
        ctz64_testBit _ (by omega)
      have hres := hfinish (ctz64 (computeMask g3 (g.node it).vtx it) + 1)
        (by omega) (by omega) (by simpa using hbit)
      exact hres

theorem tryColor_pick_none {fuel : ℕ} {g : Graph} {K M : ℕ}
    (h : pick g K M = none) : tryColor fuel g K M = ((0, 0), g) := by
  rw [tryColor.eq_def, h]

theorem tryColor_zero_some {g : Graph} {K M it : ℕ}
    (h : pick g K M = some it) : tryColor 0 g K M = ((0, 0), g) := by
  rw [tryColor.eq_def, h]

theorem tryColor_succ_some {fuel : ℕ} {g : Graph} {K M it : ℕ}
    (h : pick g K M = some it) :
    tryColor (fuel + 1) g K M =
      tryColorStep g K M it (tryColor fuel (g.removeNode it) K M) := by
  rw [tryColor.eq_def, h]

/-- Correctness of `try_color` on a well-formed spill-free graph with small
budgets and sufficient fuel: the result graph stays well-formed (in
particular adjacent colored nodes get distinct colors and adjacent spilled
nodes distinct slots), everything `try_color` does not own is untouched,
pre-colored nodes keep their colors, and a `(0, 0)` return means no node was
spilled and every connected node ended up colored. -/
theorem tryColor_spec (fuel : ℕ) :
    ∀ (g : Graph) (K M : ℕ), K ≤ 63 → M ≤ 63 → GWf g →
      (∀ i, (g.node i).spillSlot = 0) → activeCount g ≤ fuel →
      GWf (tryColor fuel g K M).2 ∧
      SameSkeleton g (tryColor fuel g K M).2 ∧
      (∀ i, (g.node i).color ≠ 0 →
        ((tryColor fuel g K M).2.node i).color = (g.node i).color) ∧
      (∀ i, (g.node i).vtx = 0 ∨ (g.node i).color ≠ 0 →
        ((tryColor fuel g K M).2.node i).spillSlot = 0) ∧
      ((tryColor fuel g K M).1 = (0, 0) →
        (∀ i, ((tryColor fuel g K M).2.node i).spillSlot = 0) ∧
        (∀ i, i < g.n → (g.node i).vtx ≠ 0 →
          ((tryColor fuel g K M).2.node i).color ≠ 0)) := by
  induction fuel with
  | zero =>
    intro g K M hK hM hwf hslots hfuel
    cases hpick : pick g K M with
    | none =>
      rw [tryColor_pick_none hpick]
      refine ⟨hwf, SameSkeleton.refl g, fun i _ => rfl, fun i _ => hslots i,
        fun _ => ⟨hslots, fun i hi hv => ?_⟩⟩
      rcases pick_none hpick i hi with h | h
      · exact h
      · exact absurd h hv
    | some it =>
      obtain ⟨hitn, hitc, hitv⟩ := pick_sound hpick
      exfalso
      have hmem : it ∈ (Finset.range g.n).filter
          (fun i => (g.node i).color = 0 ∧ (g.node i).vtx ≠ 0) := by
        simp only [Finset.mem_filter, Finset.mem_range]
        exact ⟨hitn, hitc, hitv⟩
      have hpos : 0 < activeCount g := Finset.card_pos.mpr ⟨it, hmem⟩
      omega
  | succ fuel ih =>
    intro g K M hK hM hwf hslots hfuel
    cases hpick : pick g K M with
    | none =>
      rw [tryColor_pick_none hpick]
      refine ⟨hwf, SameSkeleton.refl g, fun i _ => rfl, fun i _ => hslots i,
        fun _ => ⟨hslots, fun i hi hv => ?_⟩⟩
      rcases pick_none hpick i hi with h | h
      · exact h
      · exact absurd h hv
    | some it =>
      obtain ⟨hitn, hitc, hitv⟩ := pick_sound hpick
      rw [tryColor_succ_some hpick]
      have hwf1 : GWf (g.removeNode it) := GWf_removeNode hwf hitn
      have hslots1 : ∀ i, ((g.removeNode it).node i).spillSlot = 0 := by
        intro i
        rw [(removeNode_fields g it i).2.2.2.2.2]
        exact hslots i
      have hact : activeCount (g.removeNode it) < activeCount g :=
        activeCount_removeNode_lt hitn hitc hitv
      obtain ⟨hwf2, hskel2, hcolor2, hslot2, hsucc2⟩ :=
        ih (g.removeNode it) K M hK hM hwf1 hslots1 (by omega)
      exact tryColorStep_spec g K M it (tryColor fuel (g.removeNode it) K M)
        hK hM hwf hitn hitc hitv hwf2 hskel2 hcolor2 hslot2 hsucc2

/-! ### Well-formedness of the built interference graph -/

/-- uid-level interference test. -/
def interferesWithU (i j : ℕ) : Bool := interferesWith (mregFromUid i) (mregFromUid j)

/-- The color a node starts with in `build_graph`. -/
def initColor (u : ℕ) : ℕ :=
  if (mregFromUid u).isPhys then (mregFromUid u).phys.natAbs else 0

/-- Invariant maintained while `build_graph` adds edges: symmetric in-range
edges that are self-loops or `interferes_with`-approved pairs, self-bits
everywhere, and untouched colors, priorities, classes and slots. -/
structure BuildInv (q : MProc) (g : Graph) : Prop where
  hn : g.n = q.maxRegId
  bits : ∀ i, i < g.n → ∀ j, (g.node i).vtx.testBit j = true →
    j < g.n ∧ (i = j ∨ interferesWithU i j = true)
  sym : ∀ i j, i < g.n → j < g.n →
    ((g.node i).vtx.testBit j = true ↔ (g.node j).vtx.testBit i = true)
  self : ∀ i, i < g.n → (g.node i).vtx.testBit i = true
  fields : ∀ i, (g.node i).color = initColor i ∧
    (g.node i).priority = (q.useCount i + 1) * RA_PRIO_HOT_BIAS ∧
    (g.node i).isFp = (mregFromUid i).isFp ∧
    (g.node i).spillSlot = 0

theorem initialGraph_n (q : MProc) : (initialGraph q).n = q.maxRegId := rfl

theorem initialGraph_node (q : MProc) (i : ℕ) :
    (initialGraph q).node i =
      { vtx := 2 ^ i
        priority := (q.useCount i + 1) * RA_PRIO_HOT_BIAS
        coalescingHints := [0, 0, 0, 0]
        hintId := 0
        color := if (mregFromUid i).isPhys then (mregFromUid i).phys.natAbs
          else 0
        isFp := (mregFromUid i).isFp
        spillSlot := 0 } := rfl

theorem BuildInv.initial (q : MProc) : BuildInv q (initialGraph q) := by
  constructor
  · rfl
  · intro i hi j hbit
    rw [initialGraph_node] at hbit
    simp only [Nat.testBit_two_pow] at hbit
    have hij : i = j := of_decide_eq_true hbit
    exact ⟨hij ▸ hi, Or.inl hij⟩
  · intro i j _ _
    rw [initialGraph_node, initialGraph_node]
    simp only [Nat.testBit_two_pow]
    simp [eq_comm]
  · intro i _
    rw [initialGraph_node]
    simp [Nat.testBit_two_pow]
  · intro i
    rw [initialGraph_node]
    exact ⟨rfl, rfl, rfl, rfl⟩

theorem addVertex_n (g : Graph) (a b : MReg) : (addVertex g a b).n = g.n := by
  unfold addVertex
  by_cases h : interferesWith a b <;> simp [h, setNode_n]

theorem BuildInv.addVertexInv {q : MProc} {g : Graph} (inv : BuildInv q g)
    {a b : MReg} (ha : a.uid < g.n) (hb : b.uid < g.n) :
    BuildInv q (addVertex g a b) := by
  unfold addVertex
  by_cases hint : interferesWith a b
  case neg => rw [if_neg hint]; exact inv
  case pos =>
  rw [if_pos hint]
  have hsymint : interferesWith b a = true := by
    unfold interferesWith at hint ⊢
    by_cases hps : (isPseudo a || isPseudo b) = true
    · rw [if_pos hps] at hint; cases hint
    · rw [if_neg hps] at hint
      have hps2 : ¬(isPseudo b || isPseudo a) = true := by
        intro hcontra
        apply hps
        rcases Bool.or_eq_true_iff.mp hcontra with h | h
        · exact Bool.or_eq_true_iff.mpr (Or.inr h)
        · exact Bool.or_eq_true_iff.mpr (Or.inl h)
      rw [if_neg hps2]
      rw [beq_iff_eq] at hint ⊢
      exact hint.symm
  set g1 := g.setNode a.uid
    { g.node a.uid with vtx := setBit (g.node a.uid).vtx b.uid } with hg1
  set g2 := g1.setNode b.uid
    { g1.node b.uid with vtx := setBit (g1.node b.uid).vtx a.uid } with hg2
  have hnode1 : ∀ i, g1.node i = if i = a.uid then
      { g.node a.uid with vtx := setBit (g.node a.uid).vtx b.uid }
      else g.node i := fun i => rfl
  have hnode2 : ∀ i, g2.node i = if i = b.uid then
      { g1.node b.uid with vtx := setBit (g1.node b.uid).vtx a.uid }
      else g1.node i := fun i => rfl
  have hvtx1 : ∀ i, (g1.node i).vtx =
      if i = a.uid then setBit (g.node a.uid).vtx b.uid
      else (g.node i).vtx := by
    intro i
    rw [hnode1 i]
    by_cases h : i = a.uid
    · rw [if_pos h, if_pos h]
    · rw [if_neg h, if_neg h]
  have hvtx2 : ∀ i, (g2.node i).vtx =
      if i = b.uid then setBit (g1.node b.uid).vtx a.uid
      else (g1.node i).vtx := by
    intro i
    rw [hnode2 i]
    by_cases h : i = b.uid
    · rw [if_pos h, if_pos h]
    · rw [if_neg h, if_neg h]
  have hbit2 : ∀ i j, (g2.node i).vtx.testBit j = true ↔
      ((g.node i).vtx.testBit j = true ∨
        (i = a.uid ∧ j = b.uid) ∨ (i = b.uid ∧ j = a.uid)) := by
    intro i j
    rw [hvtx2 i]
    by_cases h1 : i = b.uid
    · subst h1
      rw [if_pos rfl, testBit_setBit, hvtx1 b.uid]
      by_cases h2 : b.uid = a.uid
      · rw [if_pos h2, testBit_setBit, ← h2]
        simp only [Bool.or_eq_true, decide_eq_true_eq]
        constructor
        · rintro ((h | h) | h)
          · exact Or.inl h
          · exact Or.inr (Or.inr ⟨trivial, h.symm⟩)
          · exact Or.inr (Or.inr ⟨trivial, h.symm⟩)
        · rintro (h | ⟨_, h4⟩ | ⟨_, h4⟩)
          · exact Or.inl (Or.inl h)
          · exact Or.inl (Or.inr h4.symm)
          · exact Or.inl (Or.inr h4.symm)
      · rw [if_neg h2]
        simp only [Bool.or_eq_true, decide_eq_true_eq]
        constructor
        · rintro (h | h)
          · exact Or.inl h
          · exact Or.inr (Or.inr ⟨trivial, h.symm⟩)
        · rintro (h | ⟨h3, _⟩ | ⟨_, h4⟩)
          · exact Or.inl h
          · exact absurd h3 h2
          · exact Or.inr h4.symm
    · rw [if_neg h1, hvtx1 i]
      by_cases h3 : i = a.uid
      · subst h3
        rw [if_pos rfl, testBit_setBit]
        simp only [Bool.or_eq_true, decide_eq_true_eq]
        constructor
        · rintro (h | h)
          · exact Or.inl h
          · exact Or.inr (Or.inl ⟨trivial, h.symm⟩)
        · rintro (h | ⟨_, h4⟩ | ⟨h3, _⟩)
          · exact Or.inl h
          · exact Or.inr h4.symm
          · exact absurd h3 h1
      · rw [if_neg h3]
        constructor
        · intro h
          exact Or.inl h
        · rintro (h | ⟨h4, _⟩ | ⟨h4, _⟩)
          · exact h
          · exact absurd h4 h3
          · exact absurd h4 h1
  have hfields2 : ∀ i, (g2.node i).color = (g.node i).color ∧
      (g2.node i).priority = (g.node i).priority ∧
      (g2.node i).isFp = (g.node i).isFp ∧
      (g2.node i).spillSlot = (g.node i).spillSlot := by
    intro i
    rw [hnode2 i]
    by_cases h1 : i = b.uid
    · rw [if_pos h1, hnode1 b.uid]
      by_cases h2 : b.uid = a.uid
      · rw [if_pos h2]
        exact ⟨by rw [h1, h2], by rw [h1, h2], by rw [h1, h2], by rw [h1, h2]⟩
      · rw [if_neg h2]
        exact ⟨by rw [h1], by rw [h1], by rw [h1], by rw [h1]⟩
    · rw [if_neg h1, hnode1 i]
      by_cases h2 : i = a.uid
      · rw [if_pos h2]
        exact ⟨by rw [h2], by rw [h2], by rw [h2], by rw [h2]⟩
      · rw [if_neg h2]
        exact ⟨rfl, rfl, rfl, rfl⟩
  have hn2 : g2.n = g.n := rfl
  constructor
  · rw [hn2]; exact inv.hn
  · intro i hi j hbit
    rcases (hbit2 i j).mp hbit with h | ⟨hia, hjb⟩ | ⟨hib, hja⟩
    · exact inv.bits i hi j h
    · refine ⟨hjb ▸ hb, Or.inr ?_⟩
      unfold interferesWithU
      rw [hia, hjb]
      exact hint
    · refine ⟨hja ▸ ha, Or.inr ?_⟩
      unfold interferesWithU
      rw [hib, hja]
      exact hsymint
  · intro i j hi hj
    rw [hbit2 i j, hbit2 j i]
    rw [inv.sym i j hi hj]
    constructor
    · rintro (h | ⟨h1, h2⟩ | ⟨h1, h2⟩)
      · exact Or.inl h
      · exact Or.inr (Or.inr ⟨h2, h1⟩)
      · exact Or.inr (Or.inl ⟨h2, h1⟩)
    · rintro (h | ⟨h1, h2⟩ | ⟨h1, h2⟩)
      · exact Or.inl h
      · exact Or.inr (Or.inr ⟨h2, h1⟩)
      · exact Or.inr (Or.inl ⟨h2, h1⟩)
  · intro i hi
    exact (hbit2 i i).mpr (Or.inl (inv.self i hi))
  · intro i
    rcases hfields2 i with ⟨h1, h2, h3, h4⟩
    rcases inv.fields i with ⟨f1, f2, f3, f4⟩
    exact ⟨h1.trans f1, h2.trans f2, h3.trans f3, h4.trans f4⟩

theorem addMutualHints_vtx_fields (g : Graph) (au bu : ℕ) :
    (addMutualHints g au bu).n = g.n ∧
    ∀ i, ((addMutualHints g au bu).node i).vtx = (g.node i).vtx ∧
      ((addMutualHints g au bu).node i).color = (g.node i).color ∧
      ((addMutualHints g au bu).node i).priority = (g.node i).priority ∧
      ((addMutualHints g au bu).node i).isFp = (g.node i).isFp ∧
      ((addMutualHints g au bu).node i).spillSlot = (g.node i).spillSlot := by
  refine ⟨rfl, fun i => ?_⟩
  unfold addMutualHints
  set g1 := g.setNode au ((g.node au).addHint ((bu : ℤ) - (au : ℤ))) with hg1
  have hn1 : ∀ j, (g1.node j).vtx = (g.node j).vtx ∧
      (g1.node j).color = (g.node j).color ∧
      (g1.node j).priority = (g.node j).priority ∧
      (g1.node j).isFp = (g.node j).isFp ∧
      (g1.node j).spillSlot = (g.node j).spillSlot := by
    intro j
    rw [hg1]
    by_cases h : j = au
    · rw [setNode_node, if_pos h, h]
      unfold GNode.addHint
      exact ⟨rfl, rfl, rfl, rfl, rfl⟩
    · rw [setNode_node, if_neg h]
      exact ⟨rfl, rfl, rfl, rfl, rfl⟩
  by_cases h : i = bu
  · rw [setNode_node, if_pos h, h]
    unfold GNode.addHint
    rcases hn1 bu with ⟨v1, v2, v3, v4, v5⟩
    exact ⟨v1, v2, v3, v4, v5⟩
  · rw [setNode_node, if_neg h]
    exact hn1 i

theorem BuildInv.addMutualHintsInv {q : MProc} {g : Graph}
    (inv : BuildInv q g) (au bu : ℕ) : BuildInv q (addMutualHints g au bu) := by
  rcases addMutualHints_vtx_fields g au bu with ⟨hn, hf⟩
  constructor
  · rw [hn]; exact inv.hn
  · intro i hi j hbit
    rw [(hf i).1] at hbit
    rw [hn] at hi
    have := inv.bits i hi j hbit
    rw [hn]
    exact this
  · intro i j hi hj
    rw [(hf i).1, (hf j).1]
    rw [hn] at hi hj
    exact inv.sym i j hi hj
  · intro i hi
    rw [(hf i).1]
    rw [hn] at hi
    exact inv.self i hi
  · intro i
    rcases hf i with ⟨_, f2, f3, f4, f5⟩
    rcases inv.fields i with ⟨g1, g2, g3, g4⟩
    exact ⟨f2.trans g1, f3.trans g2, f4.trans g3, f5.trans g4⟩

theorem addSet_n (g : Graph) (live : Finset ℕ) (d : MReg) :
    (addSet g live d).n = g.n := by
  unfold addSet
  suffices hgen : ∀ (l : List ℕ) (g0 : Graph),
      (l.foldl (fun g i => if i ∈ live then addVertex g d (mregFromUid i)
        else g) g0).n = g0.n by
    exact hgen _ g
  intro l
  induction l with
  | nil => intro g0; rfl
  | cons x rest ih =>
    intro g0
    rw [List.foldl_cons]
    rw [ih]
    by_cases h : x ∈ live
    · rw [if_pos h, addVertex_n]
    · rw [if_neg h]

theorem BuildInv.addSetInv {q : MProc} {g : Graph} (inv : BuildInv q g)
    {live : Finset ℕ} {d : MReg} (hd : d.uid < g.n) :
    BuildInv q (addSet g live d) := by
  unfold addSet
  suffices hgen : ∀ (l : List ℕ) (g0 : Graph), BuildInv q g0 → g0.n = g.n →
      (∀ i ∈ l, i < g.n) →
      BuildInv q (l.foldl (fun g i => if i ∈ live then
        addVertex g d (mregFromUid i) else g) g0) by
    exact hgen (List.range g.n) g inv rfl (fun i hi => List.mem_range.mp hi)
  intro l
  induction l with
  | nil => intro g0 h0 _ _; exact h0
  | cons x rest ih =>
    intro g0 h0 hng0 hmem
    rw [List.foldl_cons]
    by_cases h : x ∈ live
    · rw [if_pos h]
      refine ih _ (h0.addVertexInv ?_ ?_) ?_
        (fun i hi => hmem i (List.mem_cons_of_mem _ hi))
      · rw [hng0]; exact hd
      · rw [hng0]; exact hmem x (List.mem_cons_self _ _)
      · rw [addVertex_n, hng0]
    · rw [if_neg h]
      exact ih _ h0 hng0 (fun i hi => hmem i (List.mem_cons_of_mem _ hi))

/-- All registers visited by an instruction of `p` have uid below
`max_reg_id`. -/
theorem insn_visit_lt {p : MProc} {bb : MBlock} {i : MInsn}
    (hbb : bb ∈ p.basicBlocks) (hi : i ∈ bb.instructions) :
    ∀ v ∈ i.regVisits, v.1.uid < p.maxRegId := by
  intro v hv
  apply visit_uid_lt_maxRegId
  unfold MProc.allVisits
  exact List.mem_flatMap.mpr ⟨bb, hbb,
    List.mem_flatMap.mpr ⟨i, hi, hv⟩⟩

theorem walkInsn_inv {q : MProc} {g : Graph} {live : Finset ℕ} {i : MInsn}
    (inv : BuildInv q g) (hn : g.n = q.maxRegId)
    (hvis : ∀ v ∈ i.regVisits, v.1.uid < q.maxRegId) :
    BuildInv q (walkInsn (g, live) i).1 ∧ (walkInsn (g, live) i).1.n = q.maxRegId := by
  unfold walkInsn
  set g1 := if (i.op = VOp.movi ∨ i.op = VOp.movf) then
      match i.arg0 with
      | .reg r => addMutualHints g r.uid i.out.uid
      | _ => g
    else g with hg1def
  have hinv1 : BuildInv q g1 ∧ g1.n = q.maxRegId := by
    rw [hg1def]
    by_cases h : (i.op = VOp.movi ∨ i.op = VOp.movf)
    · rw [if_pos h]
      cases harg : i.arg0 with
      | reg r =>
        refine ⟨inv.addMutualHintsInv _ _, ?_⟩
        rw [(addMutualHints_vtx_fields g r.uid i.out.uid).1]
        exact hn
      | imm v => exact ⟨inv, hn⟩
      | mem m => exact ⟨inv, hn⟩
      | noArg => exact ⟨inv, hn⟩
    · rw [if_neg h]
      exact ⟨inv, hn⟩
  have hout : ¬i.out.isNull = true → i.out.uid < q.maxRegId := by
    intro hnn
    apply hvis (i.out, false)
    unfold MInsn.regVisits
    apply List.mem_append.mpr
    right
    rw [if_neg hnn]
    exact List.mem_singleton.mpr rfl
  set g2live : Graph × Finset ℕ :=
    if i.out.isNull then (g1, live)
    else (addSet g1 (live.erase i.out.uid) i.out, live.erase i.out.uid)
    with hg2def
  have hinv2 : BuildInv q g2live.1 ∧ g2live.1.n = q.maxRegId := by
    rw [hg2def]
    by_cases h : i.out.isNull
    · rw [if_pos h]
      exact hinv1
    · rw [if_neg h]
      refine ⟨hinv1.1.addSetInv ?_, ?_⟩
      · rw [hinv1.2]
        exact hout h
      · rw [addSet_n]
        exact hinv1.2
  have hreads : ∀ v ∈ i.regVisits.filter (fun v => v.2), v.1.uid < q.maxRegId :=
    fun v hv => hvis v (List.mem_of_mem_filter hv)
  suffices hgen : ∀ (l : List (MReg × Bool)) (g0 : Graph) (lv : Finset ℕ),
      BuildInv q g0 → g0.n = q.maxRegId →
      (∀ v ∈ l, v.1.uid < q.maxRegId) →
      BuildInv q (l.foldl (fun g v => addSet g lv v.1) g0) ∧
        (l.foldl (fun g v => addSet g lv v.1) g0).n = q.maxRegId by
    exact hgen _ g2live.1 _ hinv2.1 hinv2.2 hreads
  intro l
  induction l with
  | nil => intro g0 lv h0 hn0 _; exact ⟨h0, hn0⟩
  | cons v rest ih =>
    intro g0 lv h0 hn0 hmem
    rw [List.foldl_cons]
    refine ih _ _ (h0.addSetInv ?_) ?_
      (fun w hw => hmem w (List.mem_cons_of_mem _ hw))
    · rw [hn0]
      exact hmem v (List.mem_cons_self _ _)
    · rw [addSet_n]
      exact hn0

theorem walkBlock_inv {q : MProc} {g : Graph} {bb : MBlock}
    (inv : BuildInv q g) (hn : g.n = q.maxRegId)
    (hbb : ∀ i ∈ bb.instructions, ∀ v ∈ i.regVisits, v.1.uid < q.maxRegId) :
    BuildInv q (walkBlock g bb) ∧ (walkBlock g bb).n = q.maxRegId := by
  unfold walkBlock
  have hmemrev : ∀ i ∈ bb.instructions.reverse, ∀ v ∈ i.regVisits,
      v.1.uid < q.maxRegId := by
    intro i hi
    exact hbb i (List.mem_reverse.mp hi)
  revert hmemrev
  generalize bb.instructions.reverse = l
  intro hmemrev
  suffices hgen : ∀ (l : List MInsn) (g0 : Graph) (lv : Finset ℕ),
      BuildInv q g0 → g0.n = q.maxRegId →
      (∀ i ∈ l, ∀ v ∈ i.regVisits, v.1.uid < q.maxRegId) →
      BuildInv q (l.foldl walkInsn (g0, lv)).1 ∧
        (l.foldl walkInsn (g0, lv)).1.n = q.maxRegId by
    exact hgen l g bb.dfOutLive inv hn hmemrev
  intro l2
  induction l2 with
  | nil => intro g0 lv h0 hn0 _; exact ⟨h0, hn0⟩
  | cons i rest ih =>
    intro g0 lv h0 hn0 hmem
    rw [List.foldl_cons]
    have hstep := @walkInsn_inv q g0 lv i h0 hn0
      (hmem i (List.mem_cons_self _ _))
    have hpair : walkInsn (g0, lv) i =
        ((walkInsn (g0, lv) i).1, (walkInsn (g0, lv) i).2) := rfl
    rw [hpair]
    exact ih _ _ hstep.1 hstep.2 (fun j hj => hmem j (List.mem_cons_of_mem _ hj))

/-- The built interference graph keeps the `build_graph` invariant. -/
theorem buildGraphOnly_inv (q : MProc) : BuildInv q (buildGraphOnly q) ∧
    (buildGraphOnly q).n = q.maxRegId := by
  unfold buildGraphOnly
  suffices hgen : ∀ (l : List MBlock) (g0 : Graph),
      BuildInv q g0 → g0.n = q.maxRegId →
      (∀ bb ∈ l, ∀ i ∈ bb.instructions, ∀ v ∈ i.regVisits,
        v.1.uid < q.maxRegId) →
      BuildInv q (l.foldl walkBlock g0) ∧ (l.foldl walkBlock g0).n = q.maxRegId by
    refine hgen _ _ (BuildInv.initial q) rfl ?_
    intro bb hbb i hi v hv
    exact insn_visit_lt hbb hi v hv
  intro l
  induction l with
  | nil => intro g0 h0 hn0 _; exact ⟨h0, hn0⟩
  | cons bb rest ih =>
    intro g0 h0 hn0 hmem
    rw [List.foldl_cons]
    have hstep := walkBlock_inv h0 hn0 (hmem bb (List.mem_cons_self _ _))
    exact ih _ hstep.1 hstep.2 (fun b hb => hmem b (List.mem_cons_of_mem _ hb))

theorem initColor_le (u : ℕ) : initColor u ≤ 64 := by
  unfold initColor mregFromUid MReg.isPhys MReg.phys
  simp only [Bool.and_eq_true, decide_eq_true_eq]
  split_ifs <;> omega

theorem initColor_ne_zero {u : ℕ} (h : initColor u ≠ 0) :
    8 ≤ u ∧ u ≤ 135 := by
  unfold initColor mregFromUid MReg.isPhys at h
  simp only [Bool.and_eq_true, decide_eq_true_eq] at h
  by_cases hc : 8 ≤ u ∧ u ≤ 135
  · exact hc
  · rw [if_neg hc] at h
    exact absurd rfl h

theorem initColor_band {u : ℕ} (h : 8 ≤ u ∧ u ≤ 135) :
    initColor u = if u ≤ 71 then u - 7 else u - 71 := by
  unfold initColor mregFromUid MReg.isPhys MReg.phys
  simp only [Bool.and_eq_true, decide_eq_true_eq]
  rw [if_pos h]
  by_cases h2 : u ≤ 71
  · rw [if_pos ⟨h.1, h2⟩, if_pos h2]
    omega
  · rw [if_neg (by omega), if_pos (by omega), if_neg h2]
    omega

theorem isFp_band {u : ℕ} (h : 8 ≤ u ∧ u ≤ 135) :
    (mregFromUid u).isFp = decide (72 ≤ u) := by
  unfold mregFromUid MReg.isFp virtBase
  by_cases h2 : 72 ≤ u
  · simp only [decide_eq_true_eq]
    simp [h2, h.2]
  · have : ¬(72 ≤ u ∧ u ≤ 135) := by omega
    simp only [decide_eq_true_eq]
    simp [h2]
    omega

/-- Distinct pre-colored interfering nodes carry distinct colors. -/
theorem initColoredOK {i j : ℕ} (hne : i ≠ j)
    (hint : interferesWithU i j = true) (hci : initColor i ≠ 0)
    (hcj : initColor j ≠ 0) : initColor i ≠ initColor j := by
  have hbi := initColor_ne_zero hci
  have hbj := initColor_ne_zero hcj
  have hfp : (mregFromUid i).isFp = (mregFromUid j).isFp := by
    unfold interferesWithU interferesWith at hint
    by_cases hps : (isPseudo (mregFromUid i) || isPseudo (mregFromUid j)) = true
    · rw [if_pos hps] at hint; cases hint
    · rw [if_neg hps] at hint
      exact beq_iff_eq.mp hint
  rw [isFp_band hbi, isFp_band hbj] at hfp
  rw [initColor_band hbi, initColor_band hbj]
  by_cases h72i : 72 ≤ i
  · have h72j : 72 ≤ j := by
      rw [decide_eq_true h72i] at hfp
      exact of_decide_eq_true hfp.symm
    rw [if_neg (by omega), if_neg (by omega)]
    omega
  · have h72j : ¬72 ≤ j := by
      intro hc
      rw [decide_eq_true hc] at hfp
      exact h72i (of_decide_eq_true hfp)
    rw [if_pos (by omega), if_pos (by omega)]
    omega

theorem testBit_ne_zero {n j : ℕ} (h : n.testBit j = true) : n ≠ 0 := by
  intro hc
  rw [hc, Nat.zero_testBit] at h
  cases h

/-- The graph `build_graph` hands to the coloring loop is well-formed, free
of spill slots, and fully connected by self-bits. -/
theorem buildGraphOnly_wf (q : MProc) :
    GWf (buildGraphOnly q) ∧
    (∀ i, ((buildGraphOnly q).node i).spillSlot = 0) ∧
    (∀ i, i < (buildGraphOnly q).n → ((buildGraphOnly q).node i).vtx ≠ 0) ∧
    (buildGraphOnly q).n = q.maxRegId := by
  obtain ⟨inv, hn⟩ := buildGraphOnly_inv q
  refine ⟨⟨inv.sym, ?_, ?_, ?_, ?_, ?_⟩, ?_, ?_, hn⟩
  · intro i hi j hbit
    exact (inv.bits i hi j hbit).1
  · intro i hi
    rw [(inv.fields i).1]
    exact initColor_le i
  · intro i j hi hj hne hbit hci hcj
    rw [(inv.fields i).1, (inv.fields j).1]
    rcases (inv.bits i hi j hbit).2 with h | h
    · exact absurd h hne
    · refine initColoredOK hne h ?_ ?_
      · rw [← (inv.fields i).1]; exact hci
      · rw [← (inv.fields j).1]; exact hcj
  · intro i j hi hj hne hbit hsi _
    exact absurd ((inv.fields i).2.2.2) hsi
  · intro i hi _ _
    exact inv.self i hi
  · intro i
    exact (inv.fields i).2.2.2
  · intro i hi
    exact testBit_ne_zero (inv.self i hi)

/-! ### Argument spilling (`spill_args`)

`mreg(arch::map_argument(i, 0, false))` composes `to_native` over
`map_argument_native`; with the reversed bound check of
`map_argument_native` (see `map_argument` theorems below) every in-range
index yields the `invalid` sentinel, and `from_native(arch::sp)` likewise
yields 0 because `RSP` is in no register table.  Both are embedded as the
null register (uid 0), the conventional numeric value of the sentinel. -/

/-- The source register of the argument moves `spill_args` prepends. -/
def argSrcReg : MReg := ⟨0⟩

/-- `arch::from_native(arch::sp)` (0: `RSP` is in no table). -/
def spBase : MReg := ⟨0⟩

/-- State of `spill_args`: the three replacement registers. -/
structure SAState where
  vm : Option MReg := none
  tos : Option MReg := none
  nargs : Option MReg := none
deriving DecidableEq

/-- One register visit of `spill_args`: replace a reserved argument pseudo
register with its (lazily allocated) fresh GP virtual. -/
def saReplace (acc : MProc × SAState) (r : MReg) : MReg × MProc × SAState :=
  if r = vregVm then
    match acc.2.vm with
    | some x => (x, acc.1, acc.2)
    | none =>
      let fr := acc.1.nextGp
      (fr.1, fr.2, { acc.2 with vm := some fr.1 })
  else if r = vregTos then
    match acc.2.tos with
    | some x => (x, acc.1, acc.2)
    | none =>
      let fr := acc.1.nextGp
      (fr.1, fr.2, { acc.2 with tos := some fr.1 })
  else if r = vregNargs then
    match acc.2.nargs with
    | some x => (x, acc.1, acc.2)
    | none =>
      let fr := acc.1.nextGp
      (fr.1, fr.2, { acc.2 with nargs := some fr.1 })
  else (r, acc.1, acc.2)

def saOperand (acc : List MOperand × MProc × SAState) (a : MOperand) :
    List MOperand × MProc × SAState :=
  match a with
  | .reg r =>
    let s := saReplace (acc.2.1, acc.2.2) r
    (acc.1 ++ [.reg s.1], s.2)
  | .mem m =>
    let s := saReplace (acc.2.1, acc.2.2) m.base
    (acc.1 ++ [.mem { m with base := s.1 }], s.2)
  | x => (acc.1 ++ [x], acc.2)

def saInsn (acc : List MInsn × MProc × SAState) (i : MInsn) :
    List MInsn × MProc × SAState :=
  let args := i.args.foldl saOperand ([], acc.2)
  let out := saReplace args.2 i.out
  (acc.1 ++ [{ i with args := args.1, out := out.1 }], out.2)

def saBlock (acc : List MBlock × MProc × SAState) (bb : MBlock) :
    List MBlock × MProc × SAState :=
  let r := bb.instructions.foldl saInsn ([], acc.2)
  (acc.1 ++ [{ bb with instructions := r.1 }], r.2)

/-- `spill_args`: substitute the reserved argument registers and prepend one
`movi` per used one at the entry block (each inserted at the front, so the
last-processed lands first). -/
def spillArgs (p : MProc) : MProc :=
  let r := p.basicBlocks.foldl saBlock ([], p, {})
  let inserts := [r.2.2.vm, r.2.2.tos, r.2.2.nargs]
  let blocks := inserts.foldl
    (fun (bs : List MBlock) (o : Option MReg) =>
      match o, bs with
      | some reg, b0 :: rest =>
        { b0 with instructions :=
            ⟨VOp.movi, reg, [MOperand.reg argSrcReg]⟩ :: b0.instructions } :: rest
      | _, bs => bs) r.1
  { r.2.1 with basicBlocks := blocks }

/-! ### Spill rewriting (`spill_and_swap` and the reload/store insertion) -/

/-- One bounded reload/spill entry. -/
structure SpillEntry where
  src : MReg := ⟨0⟩
  dst : MReg := ⟨0⟩
  slot : ℕ := 0
deriving DecidableEq

/-- Result of one `spill_and_swap` call. -/
structure SAS where
  list : List SpillEntry
  m : MReg
  numSlots : ℕ
  proc : MProc
  ghost : List ℕ
  placed : Bool
deriving DecidableEq

/-- The placement loop of `spill_and_swap`: fill the first empty entry
(recording the 0-based slot `slot + slot_offset - 1` and raising
`num_spill_slots`), or reuse an entry whose source already matches. -/
def sasGo (p : MProc) (m : MReg) (slotArg slotOffset numSlots : ℕ) :
    List SpillEntry → SAS
  | [] => ⟨[], m, numSlots, p, [], false⟩
  | e :: rest =>
    if e.src.isNull then
      let fr := if m.isFp then p.nextFp else p.nextGp
      ⟨{ src := m, dst := fr.1, slot := slotArg + slotOffset - 1 } :: rest,
        fr.1, max numSlots (slotArg + slotOffset - 1 + 1), fr.2,
        [slotArg + slotOffset - 1 + 1], true⟩
    else if e.src = m then ⟨e :: rest, e.dst, numSlots, p, [], true⟩
    else
      let r := sasGo p m slotArg slotOffset numSlots rest
      ⟨e :: r.list, r.m, r.numSlots, r.proc, r.ghost, r.placed⟩

/-- Result of `spill_and_swap` including whether control reached the
`assume_unreachable()` that follows the placement loop. -/
structure SASFull extends SAS where
  marker : Bool
deriving DecidableEq

/-- `spill_and_swap` as written in the source: the placement loop exits via
`break`, after which control falls through to `assume_unreachable()` — on
every path, placed or not, since `break` leaves only the `for` loop.  The
`marker` field records that the unreachable-assertion point was reached. -/
def spillAndSwap (p : MProc) (list : List SpillEntry) (m : MReg)
    (slotArg slotOffset numSlots : ℕ) : SASFull :=
  { sasGo p m slotArg slotOffset numSlots list with marker := true }

/-- Whether an operand register takes part in spill rewriting
(non-pseudo allocatable virtual, in graph range, with a spill slot). -/
def shouldSpill (g : Graph) (r : MReg) : Bool :=
  if isPseudo r || !r.isVirt then false
  else if g.n ≤ r.uid then false
  else if (g.node r.uid).spillSlot = 0 then false
  else true

/-- State threaded over one instruction's operands during spill rewriting. -/
structure InsnSpillState where
  proc : MProc
  numSlots : ℕ
  ghost : List ℕ
  reloads : List SpillEntry
  spills : List SpillEntry
  needCg : Bool
deriving DecidableEq

def initReloads : List SpillEntry := [{}, {}, {}, {}]

def initSpills : List SpillEntry := [{}]

def spillRewriteReg (g : Graph) (slotOffset : ℕ) (st : InsnSpillState)
    (isRead : Bool) (r : MReg) : MReg × InsnSpillState :=
  if shouldSpill g r then
    let res := spillAndSwap st.proc (if isRead then st.reloads else st.spills)
      r ((g.node r.uid).spillSlot) slotOffset st.numSlots
    (res.m,
      { proc := res.proc
        numSlots := res.numSlots
        ghost := st.ghost ++ res.ghost
        reloads := if isRead then res.list else st.reloads
        spills := if isRead then st.spills else res.list
        needCg := true })
  else (r, st)

def spillRewriteArg (g : Graph) (slotOffset : ℕ)
    (acc : List MOperand × InsnSpillState) (a : MOperand) :
    List MOperand × InsnSpillState :=
  match a with
  | .reg r =>
    let s := spillRewriteReg g slotOffset acc.2 true r
    (acc.1 ++ [.reg s.1], s.2)
  | .mem m =>
    let s := spillRewriteReg g slotOffset acc.2 true m.base
    (acc.1 ++ [.mem { m with base := s.1 }], s.2)
  | x => (acc.1 ++ [x], acc.2)

def spillEntryLoad (e : SpillEntry) : MInsn :=
  ⟨if e.src.isFp then VOp.loadf64 else VOp.loadi64, e.dst,
    [.mem ⟨spBase, (e.slot : ℤ) * 8⟩]⟩

def spillEntryStore (e : SpillEntry) : MInsn :=
  ⟨if e.src.isFp then VOp.storef64 else VOp.storei64, ⟨0⟩,
    [.mem ⟨spBase, (e.slot : ℤ) * 8⟩, .reg e.dst]⟩

/-- Spill rewriting of one instruction: substitute spilled reads and the
spilled definition, then surround with the reloads before and the stores
after (`it = insert(it, ...) + 1` / `insert(it + 1, ...) + 1`). -/
def spillRewriteInsn (g : Graph) (slotOffset : ℕ) (pns : MProc × ℕ × List ℕ)
    (i : MInsn) : List MInsn × MProc × ℕ × List ℕ :=
  let st0 : InsnSpillState :=
    ⟨pns.1, pns.2.1, pns.2.2, initReloads, initSpills, false⟩
  let args := i.args.foldl (spillRewriteArg g slotOffset) ([], st0)
  let outr := spillRewriteReg g slotOffset args.2 false i.out
  let st2 := outr.2
  if st2.needCg then
    ((st2.reloads.takeWhile (fun e => !e.src.isNull)).map spillEntryLoad ++
        [{ i with args := args.1, out := outr.1 }] ++
        (st2.spills.takeWhile (fun e => !e.src.isNull)).map spillEntryStore,
      st2.proc, st2.numSlots, st2.ghost)
  else ([i], pns)

/-- The spill-insertion pass over the whole procedure (`slot_offset` frozen
at the entry value of `num_spill_slots`). -/
def spillPass (p : MProc) (g : Graph) (ns0 : ℕ) : MProc × ℕ × List ℕ :=
  let res := p.basicBlocks.foldl
    (fun (acc : List MBlock × MProc × ℕ × List ℕ) (bb : MBlock) =>
      let r := bb.instructions.foldl
        (fun (a : List MInsn × MProc × ℕ × List ℕ) i =>
          let s := spillRewriteInsn g ns0 a.2 i
          (a.1 ++ s.1, s.2)) ([], acc.2)
      (acc.1 ++ [{ bb with instructions := r.1 }], r.2))
    ([], p, ns0, [])
  ({ res.2.1 with basicBlocks := res.1 }, res.2.2)

/-! ### Color substitution and self-move elimination -/

/-- Substitute one register by its allocated physical register; `none` when
the `LI_ASSERT(x != 0)` of the source would fire. -/
def substReg (g : Graph) (r : MReg) : Option MReg :=
  if !isPseudo r && r.isVirt then
    if (g.node r.uid).color = 0 then none
    else some (physReg (if r.isFp then -((g.node r.uid).color : ℤ)
      else ((g.node r.uid).color : ℤ)))
  else some r

def substOperand (g : Graph) : MOperand → Option MOperand
  | .reg r => (substReg g r).map .reg
  | .mem m => (substReg g m.base).map (fun b => .mem { m with base := b })
  | x => some x

def substInsn (g : Graph) (i : MInsn) : Option MInsn :=
  match i.args.mapM (substOperand g), substReg g i.out with
  | some args2, some out2 => some { i with args := args2, out := out2 }
  | _, _ => none

/-- The register-substitution pass of `allocate_registers` (the used-mask
bookkeeping carries no data the claims touch and is omitted). -/
def substituteColors (p : MProc) (g : Graph) : Option MProc :=
  (p.basicBlocks.mapM (fun (bb : MBlock) =>
      (bb.instructions.mapM (substInsn g)).map
        (fun l => { bb with instructions := l }))).map
    (fun bs => { p with basicBlocks := bs })

/-- A `mov_gp`/`mov_fp` whose register source equals its destination. -/
def isSelfMove (i : MInsn) : Bool :=
  if i.op = VOp.movf ∨ i.op = VOp.movi then
    match i.arg0 with
    | .reg r => i.out = r
    | _ => false
  else false

/-- The final `std::erase_if` pass deleting self-moves. -/
def eraseSelfMoves (p : MProc) : MProc :=
  { p with basicBlocks := p.basicBlocks.map (fun (bb : MBlock) =>
      { bb with
        instructions := bb.instructions.filter (fun i => !isSelfMove i) }) }

/-! ### The allocation loop (`allocate_registers`) -/

/-- `MAX_K = arch::num_gp_reg` (SysV: 15). -/
def MAXK : ℕ := numGpReg

/-- `MAX_M = arch::num_fp_reg` (SysV: 16). -/
def MAXM : ℕ := numFpReg

/-- Initial GP budget `min(MAX_K, max(|gp_volatile|, 2))` (SysV: 9). -/
def KInit : ℕ := min MAXK (max sysv64.gpVolatile.length 2)

/-- Initial FP budget `min(MAX_M, max(|fp_volatile|, 2))` (SysV: 16). -/
def MInit : ℕ := min MAXM (max sysv64.fpVolatile.length 2)

/-- The allocator's result: the rewritten procedure, the final interference
graph, the final `num_spill_slots`, and the 1-based slot indices of every
reload/spill entry ever materialized (in creation order). -/
structure AllocResult where
  proc : MProc
  graph : Graph
  numSlots : ℕ
  ghost : List ℕ

/-- The `for(step = 0;;step++)` loop with its `LI_ASSERT(step < 32)` cap
(`none` = the assertion fires, or an uncolored node survives success). -/
def allocLoop : ℕ → MProc → Graph → Graph → ℕ → ℕ → ℕ → List ℕ →
    Option AllocResult
  | 0, _, _, _, _, _, _, _ => none
  | fuel + 1, p, g, gcopy, K, M, ns, gh =>
    if (tryColor g.n g K M).1.1 = 0 ∧ (tryColor g.n g K M).1.2 = 0 then
      match substituteColors p (tryColor g.n g K M).2 with
      | none => none
      | some p2 =>
        some ⟨eraseSelfMoves
            { p2 with usedStackLength := (ns + 1) / 2 * 2 * 8 },
          (tryColor g.n g K M).2, ns, gh⟩
    else
      if ((tryColor g.n g K M).1.1 ≠ 0 ∧ K ≠ MAXK) ∨
          ((tryColor g.n g K M).1.2 ≠ 0 ∧ M ≠ MAXM) then
        allocLoop fuel p gcopy gcopy
          (if (tryColor g.n g K M).1.1 ≠ 0 ∧ K ≠ MAXK then K + 1 else K)
          (if (tryColor g.n g K M).1.2 ≠ 0 ∧ M ≠ MAXM then M + 1 else M) ns gh
      else
        allocLoop fuel
          (buildGraph (spillPass p (tryColor g.n g K M).2 ns).1).1
          (buildGraph (spillPass p (tryColor g.n g K M).2 ns).1).2
          (buildGraph (spillPass p (tryColor g.n g K M).2 ns).1).2
          K M (spillPass p (tryColor g.n g K M).2 ns).2.1
          (gh ++ (spillPass p (tryColor g.n g K M).2 ns).2.2)

/-- `allocate_registers`: spill the arguments, build the graph, and run the
coloring/widening/spilling loop. -/
def allocateRegisters (p : MProc) : Option AllocResult :=
  allocLoop 32 (buildGraph (spillArgs p)).1 (buildGraph (spillArgs p)).2
    (buildGraph (spillArgs p)).2 KInit MInit 0 []

/-! ### Bookkeeping facts of the allocation loop -/

theorem buildGraph_snd (p : MProc) :
    (buildGraph p).2 = buildGraphOnly (computeLiveness p) := rfl

theorem activeCount_le (g : Graph) : activeCount g ≤ g.n :=
  le_trans (Finset.card_filter_le _ _) (le_of_eq (Finset.card_range _))

theorem MAXK_le63 : MAXK ≤ 63 := by decide

theorem MAXM_le63 : MAXM ≤ 63 := by decide

/-- `num_spill_slots` tracks the maximum over the materialized 1-based slot
indices, starting from the incoming value (`spill_and_swap` level). -/
theorem sasGo_numSlots (p : MProc) (m : MReg) (sa so ns : ℕ) :
    ∀ l : List SpillEntry,
      (sasGo p m sa so ns l).numSlots =
        (sasGo p m sa so ns l).ghost.foldl max ns := by
  intro l
  induction l with
  | nil => rfl
  | cons e rest ih =>
    rw [sasGo]
    by_cases h1 : e.src.isNull = true
    · rw [if_pos h1]
      simp
    · rw [if_neg h1]
      by_cases h2 : e.src = m
      · rw [if_pos h2]
        rfl
      · rw [if_neg h2]
        simpa using ih

theorem spillRewriteReg_inv {b : ℕ} (g : Graph) (so : ℕ)
    (st : InsnSpillState) (ir : Bool) (r : MReg)
    (h : st.numSlots = st.ghost.foldl max b) :
    (spillRewriteReg g so st ir r).2.numSlots =
      (spillRewriteReg g so st ir r).2.ghost.foldl max b := by
  rw [spillRewriteReg]
  by_cases hs : shouldSpill g r = true
  · rw [if_pos hs]
    show (spillAndSwap st.proc (if ir then st.reloads else st.spills) r
        ((g.node r.uid).spillSlot) so st.numSlots).numSlots =
      (st.ghost ++ (spillAndSwap st.proc (if ir then st.reloads else st.spills)
        r ((g.node r.uid).spillSlot) so st.numSlots).ghost).foldl max b
    rw [List.foldl_append, ← h]
    exact sasGo_numSlots st.proc r ((g.node r.uid).spillSlot) so st.numSlots
      (if ir then st.reloads else st.spills)
  · rw [if_neg hs]
    exact h

theorem spillRewriteArg_inv {b : ℕ} (g : Graph) (so : ℕ)
    (acc : List MOperand × InsnSpillState) (a : MOperand)
    (h : acc.2.numSlots = acc.2.ghost.foldl max b) :
    (spillRewriteArg g so acc a).2.numSlots =
      (spillRewriteArg g so acc a).2.ghost.foldl max b := by
  cases a with
  | reg r => exact spillRewriteReg_inv g so acc.2 true r h
  | mem m => exact spillRewriteReg_inv g so acc.2 true m.base h
  | imm v => exact h
  | noArg => exact h

theorem foldl_arg_inv {b : ℕ} (g : Graph) (so : ℕ) (args : List MOperand) :
    ∀ acc : List MOperand × InsnSpillState,
      acc.2.numSlots = acc.2.ghost.foldl max b →
      (args.foldl (spillRewriteArg g so) acc).2.numSlots =
        (args.foldl (spillRewriteArg g so) acc).2.ghost.foldl max b := by
  induction args with
  | nil => intro acc h; exact h
  | cons a rest ih =>
    intro acc h
    exact ih (spillRewriteArg g so acc a) (spillRewriteArg_inv g so acc a h)

theorem spillRewriteInsn_inv {b : ℕ} (g : Graph) (so : ℕ)
    (pns : MProc × ℕ × List ℕ) (i : MInsn)
    (h : pns.2.1 = pns.2.2.foldl max b) :
    (spillRewriteInsn g so pns i).2.2.1 =
      (spillRewriteInsn g so pns i).2.2.2.foldl max b := by
  rw [spillRewriteInsn]
  have h0 : (⟨pns.1, pns.2.1, pns.2.2, initReloads, initSpills, false⟩ :
      InsnSpillState).numSlots =
      (⟨pns.1, pns.2.1, pns.2.2, initReloads, initSpills, false⟩ :
        InsnSpillState).ghost.foldl max b := h
  have h1 := foldl_arg_inv g so i.args
    ([], ⟨pns.1, pns.2.1, pns.2.2, initReloads, initSpills, false⟩) h0
  have h2 := spillRewriteReg_inv g so
    (i.args.foldl (spillRewriteArg g so)
      ([], ⟨pns.1, pns.2.1, pns.2.2, initReloads, initSpills, false⟩)).2
    false i.out h1
  by_cases hcg : ((spillRewriteReg g so
      (i.args.foldl (spillRewriteArg g so)
        ([], ⟨pns.1, pns.2.1, pns.2.2, initReloads, initSpills, false⟩)).2
      false i.out).2).needCg = true
  · rw [if_pos hcg]
    exact h2
  · rw [if_neg hcg]
    exact h

theorem foldl_insn_inv {b : ℕ} (g : Graph) (so : ℕ) (insns : List MInsn) :
    ∀ a : List MInsn × MProc × ℕ × List ℕ,
      a.2.2.1 = a.2.2.2.foldl max b →
      ((insns.foldl (fun (a : List MInsn × MProc × ℕ × List ℕ) i =>
          ((a.1 ++ (spillRewriteInsn g so a.2 i).1,
            (spillRewriteInsn g so a.2 i).2))) a)).2.2.1 =
        ((insns.foldl (fun (a : List MInsn × MProc × ℕ × List ℕ) i =>
          ((a.1 ++ (spillRewriteInsn g so a.2 i).1,
            (spillRewriteInsn g so a.2 i).2))) a)).2.2.2.foldl max b := by
  induction insns with
  | nil => intro a h; exact h
  | cons i rest ih =>
    intro a h
    exact ih _ (spillRewriteInsn_inv g so a.2 i h)

theorem spillPass_numSlots (p : MProc) (g : Graph) (ns0 : ℕ) :
    (spillPass p g ns0).2.1 = (spillPass p g ns0).2.2.foldl max ns0 := by
  rw [spillPass]
  simp only []
  have main : ∀ (bs : List MBlock) (acc : List MBlock × MProc × ℕ × List ℕ),
      acc.2.2.1 = acc.2.2.2.foldl max ns0 →
      (bs.foldl (fun (acc : List MBlock × MProc × ℕ × List ℕ) (bb : MBlock) =>
        (acc.1 ++ [{ bb with instructions :=
            (bb.instructions.foldl
              (fun (a : List MInsn × MProc × ℕ × List ℕ) i =>
                (a.1 ++ (spillRewriteInsn g ns0 a.2 i).1,
                  (spillRewriteInsn g ns0 a.2 i).2)) ([], acc.2)).1 }],
          (bb.instructions.foldl
            (fun (a : List MInsn × MProc × ℕ × List ℕ) i =>
              (a.1 ++ (spillRewriteInsn g ns0 a.2 i).1,
                (spillRewriteInsn g ns0 a.2 i).2)) ([], acc.2)).2)) acc).2.2.1 =
      (bs.foldl (fun (acc : List MBlock × MProc × ℕ × List ℕ) (bb : MBlock) =>
        (acc.1 ++ [{ bb with instructions :=
            (bb.instructions.foldl
              (fun (a : List MInsn × MProc × ℕ × List ℕ) i =>
                (a.1 ++ (spillRewriteInsn g ns0 a.2 i).1,
                  (spillRewriteInsn g ns0 a.2 i).2)) ([], acc.2)).1 }],
          (bb.instructions.foldl
            (fun (a : List MInsn × MProc × ℕ × List ℕ) i =>
              (a.1 ++ (spillRewriteInsn g ns0 a.2 i).1,
                (spillRewriteInsn g ns0 a.2 i).2)) ([], acc.2)).2)) acc).2.2.2.foldl
        max ns0 := by
    intro bs
    induction bs with
    | nil => intro acc h; exact h
    | cons bb rest ih =>
      intro acc h
      refine ih _ ?_
      exact foldl_insn_inv g ns0 bb.instructions ([], acc.2) h
  exact main p.basicBlocks ([], p, ns0, []) rfl

theorem eraseSelfMoves_usedStack (q : MProc) :
    (eraseSelfMoves q).usedStackLength = q.usedStackLength := rfl

theorem eraseSelfMoves_clean (q : MProc) :
    (eraseSelfMoves q).basicBlocks.all
      (fun bb => bb.instructions.all (fun i => !isSelfMove i)) = true := by
  rw [List.all_eq_true]
  intro bb hbb
  rw [eraseSelfMoves] at hbb
  simp only [List.mem_map] at hbb
  obtain ⟨b0, _, hb0⟩ := hbb
  subst hb0
  rw [List.all_eq_true]
  intro i hi
  simp only [List.mem_filter] at hi
  exact hi.2

theorem substituteColors_usedStack {p : MProc} {g : Graph} {p2 : MProc}
    (h : substituteColors p g = some p2) :
    p2.usedStackLength = p.usedStackLength := by
  rw [substituteColors] at h
  rcases Option.map_eq_some'.mp h with ⟨bs, _, hp2⟩
  subst hp2
  rfl

/-- The loop invariant of `allocate_registers`: under a well-formed spill-free
graph (and graph copy), bounded budgets and `num_spill_slots` equal to the
largest materialized 1-based slot, a successful exit delivers a well-formed
fully colored spill-free graph, the slot accounting, the stack-length formula
and a self-move-free stream. -/
theorem allocLoop_spec (fuel : ℕ) :
    ∀ (p : MProc) (g gcopy : Graph) (K M ns : ℕ) (gh : List ℕ)
      (res : AllocResult),
      K ≤ MAXK → M ≤ MAXM → GWf g → (∀ i, (g.node i).spillSlot = 0) →
      GWf gcopy → (∀ i, (gcopy.node i).spillSlot = 0) →
      ns = gh.foldl max 0 →
      allocLoop fuel p g gcopy K M ns gh = some res →
      (GWf res.graph ∧
        (∀ i, i < res.graph.n → (res.graph.node i).vtx ≠ 0 →
          (res.graph.node i).color ≠ 0) ∧
        (∀ i, (res.graph.node i).spillSlot = 0)) ∧
      res.numSlots = res.ghost.foldl max 0 ∧
      res.proc.usedStackLength = (res.numSlots + 1) / 2 * 2 * 8 ∧
      res.proc.basicBlocks.all
        (fun bb => bb.instructions.all (fun i => !isSelfMove i)) = true := by
  induction fuel with
  | zero =>
    intro p g gcopy K M ns gh res _ _ _ _ _ _ _ h
    simp only [allocLoop] at h
    cases h
  | succ fuel ih =>
    intro p g gcopy K M ns gh res hK hM hwf hsl hwfc hslc hns h
    simp only [allocLoop] at h
    by_cases hc : (tryColor g.n g K M).1.1 = 0 ∧ (tryColor g.n g K M).1.2 = 0
    · rw [if_pos hc] at h
      cases hsub : substituteColors p (tryColor g.n g K M).2 with
      | none => rw [hsub] at h; cases h
      | some p2 =>
        rw [hsub] at h
        injection h with h
        subst h
        obtain ⟨hwf2, hskel, _, _, hsucc⟩ :=
          tryColor_spec g.n g K M (le_trans hK MAXK_le63)
            (le_trans hM MAXM_le63) hwf hsl (activeCount_le g)
        have htc : (tryColor g.n g K M).1 = (0, 0) := by
          rw [Prod.ext_iff]; exact ⟨hc.1, hc.2⟩
        obtain ⟨hslots0, hcolored⟩ := hsucc htc
        refine ⟨⟨hwf2, ?_, hslots0⟩, hns, ?_, eraseSelfMoves_clean _⟩
        · intro i hi hv
          have hin : i < g.n := by rw [← hskel.1]; exact hi
          have hveq := (hskel.2 i).1
          exact hcolored i hin (hveq ▸ hv)
        · show (eraseSelfMoves
              { p2 with usedStackLength := (ns + 1) / 2 * 2 * 8 }).usedStackLength =
            (ns + 1) / 2 * 2 * 8
          rw [eraseSelfMoves_usedStack]
    · rw [if_neg hc] at h
      by_cases hw : ((tryColor g.n g K M).1.1 ≠ 0 ∧ K ≠ MAXK) ∨
          ((tryColor g.n g K M).1.2 ≠ 0 ∧ M ≠ MAXM)
      · rw [if_pos hw] at h
        refine ih p gcopy gcopy _ _ ns gh res ?_ ?_ hwfc hslc hwfc hslc hns h
        · by_cases hik : (tryColor g.n g K M).1.1 ≠ 0 ∧ K ≠ MAXK
          · rw [if_pos hik]
            rcases Nat.lt_or_ge K MAXK with hlt | hge
            · omega
            · exact absurd (le_antisymm hK hge) hik.2
          · rw [if_neg hik]; exact hK
        · by_cases him : (tryColor g.n g K M).1.2 ≠ 0 ∧ M ≠ MAXM
          · rw [if_pos him]
            rcases Nat.lt_or_ge M MAXM with hlt | hge
            · omega
            · exact absurd (le_antisymm hM hge) him.2
          · rw [if_neg him]; exact hM
      · rw [if_neg hw] at h
        have hb := buildGraphOnly_wf
          (computeLiveness (spillPass p (tryColor g.n g K M).2 ns).1)
        refine ih _ _ _ K M _ _ res hK hM ?_ ?_ ?_ ?_ ?_ h
        · rw [buildGraph_snd]; exact hb.1
        · rw [buildGraph_snd]; exact hb.2.1
        · rw [buildGraph_snd]; exact hb.1
        · rw [buildGraph_snd]; exact hb.2.1
        · rw [spillPass_numSlots, hns, ← List.foldl_append]

/-- C1: after the register-allocation pipeline succeeds, every edge `(i, j)`
of the final interference graph joins two nodes that are either both spilled
on distinct slots or both colored with distinct colors (in fact the run ends
only when nothing is spilled, so both endpoints are always colored
distinctly). -/
theorem valid_coloring_after_success (p : MProc) (res : AllocResult)
    (h : allocateRegisters p = some res) :
    ∀ i j, i < res.graph.n → j < res.graph.n → i ≠ j →
      (res.graph.node i).vtx.testBit j = true →
      ((res.graph.node i).spillSlot ≠ 0 ∧ (res.graph.node j).spillSlot ≠ 0 ∧
        (res.graph.node i).spillSlot ≠ (res.graph.node j).spillSlot) ∨
      ((res.graph.node i).color ≠ 0 ∧ (res.graph.node j).color ≠ 0 ∧
        (res.graph.node i).color ≠ (res.graph.node j).color) := by
  rw [allocateRegisters] at h
  have hb := buildGraphOnly_wf (computeLiveness (spillArgs p))
  obtain ⟨⟨hwf, hcol, _⟩, _, _, _⟩ :=
    allocLoop_spec 32 (buildGraph (spillArgs p)).1 (buildGraph (spillArgs p)).2
      (buildGraph (spillArgs p)).2 KInit MInit 0 [] res (by decide) (by decide)
      (buildGraph_snd (spillArgs p) ▸ hb.1)
      (buildGraph_snd (spillArgs p) ▸ hb.2.1)
      (buildGraph_snd (spillArgs p) ▸ hb.1)
      (buildGraph_snd (spillArgs p) ▸ hb.2.1) rfl h
  intro i j hi hj hne hbit
  right
  have hci := hcol i hi (testBit_ne_zero hbit)
  have hvj : (res.graph.node j).vtx.testBit i = true :=
    (hwf.sym i j hi hj).mp hbit
  have hcj := hcol j hj (testBit_ne_zero hvj)
  exact ⟨hci, hcj, hwf.coloredOK i j hi hj hne hbit hci hcj⟩

/-- C7: after allocation, `used_stack_length` equals
`((max_spill_slot + 1) & ~1) * 8` with `max_spill_slot` the largest 1-based
spill-slot index the spill rewriter ever materialized (collected in the
`ghost` field; 0 when nothing spilled), and one spilled slot yields 16. -/
theorem used_stack_length_formula (p : MProc) (res : AllocResult)
    (h : allocateRegisters p = some res) :
    res.proc.usedStackLength = (res.ghost.foldl max 0 + 1) / 2 * 2 * 8 ∧
    (res.ghost.foldl max 0 = 1 → res.proc.usedStackLength = 16) := by
  rw [allocateRegisters] at h
  have hb := buildGraphOnly_wf (computeLiveness (spillArgs p))
  obtain ⟨_, hns, hstack, _⟩ :=
    allocLoop_spec 32 (buildGraph (spillArgs p)).1 (buildGraph (spillArgs p)).2
      (buildGraph (spillArgs p)).2 KInit MInit 0 [] res (by decide) (by decide)
      (buildGraph_snd (spillArgs p) ▸ hb.1)
      (buildGraph_snd (spillArgs p) ▸ hb.2.1)
      (buildGraph_snd (spillArgs p) ▸ hb.1)
      (buildGraph_snd (spillArgs p) ▸ hb.2.1) rfl h
  rw [hstack, hns]
  refine ⟨rfl, fun h1 => ?_⟩
  rw [h1]

/-- C8: after the final pass, the instruction stream holds no `mov_gp`/
`mov_fp` whose register source equals its destination. -/
theorem no_self_moves_after (p : MProc) (res : AllocResult)
    (h : allocateRegisters p = some res) :
    res.proc.basicBlocks.all
      (fun bb => bb.instructions.all (fun i => !isSelfMove i)) = true := by
  rw [allocateRegisters] at h
  have hb := buildGraphOnly_wf (computeLiveness (spillArgs p))
  exact (allocLoop_spec 32 (buildGraph (spillArgs p)).1
    (buildGraph (spillArgs p)).2 (buildGraph (spillArgs p)).2 KInit MInit 0 []
    res (by decide) (by decide)
    (buildGraph_snd (spillArgs p) ▸ hb.1)
    (buildGraph_snd (spillArgs p) ▸ hb.2.1)
    (buildGraph_snd (spillArgs p) ▸ hb.1)
    (buildGraph_snd (spillArgs p) ▸ hb.2.1) rfl h).2.2.2

/-! ### The select step in isolation (claim C2) -/

theorem setNode_preserve_slots (g : Graph) (it : ℕ) (i : ℕ) :
    ((g.setNode it { g.node it with color := 0 }).node i).spillSlot =
      (g.node i).spillSlot ∧
    ((g.setNode it { g.node it with color := 0 }).node i).vtx =
      (g.node i).vtx := by
  rw [setNode_node]
  by_cases h : i = it
  · subst h; simp
  · rw [if_neg h]; exact ⟨rfl, rfl⟩

theorem any_congr_here {α : Type} (l : List α) (f g : α → Bool)
    (h : ∀ a ∈ l, f a = g a) : l.any f = l.any g := by
  induction l with
  | nil => rfl
  | cons a rest ih =>
    rw [List.any_cons, List.any_cons, h a (List.mem_cons_self a rest),
      ih (fun b hb => h b (List.mem_cons_of_mem a hb))]

theorem foldl_congr_here {α β : Type} (l : List α) (f g : β → α → β) :
    ∀ b, (∀ acc a, a ∈ l → f acc a = g acc a) → l.foldl f b = l.foldl g b := by
  induction l with
  | nil => intro b _; rfl
  | cons a rest ih =>
    intro b h
    rw [List.foldl_cons, List.foldl_cons, h b a (List.mem_cons_self a rest)]
    exact ih _ (fun acc x hx => h acc x (List.mem_cons_of_mem a hx))

theorem slotConflict_setNode_color (g : Graph) (it s : ℕ) :
    slotConflict (g.setNode it { g.node it with color := 0 }) it s =
      slotConflict g it s := by
  unfold slotConflict
  have hn : (g.setNode it { g.node it with color := 0 }).n = g.n := rfl
  rw [hn]
  apply any_congr_here
  intro i _
  rw [(setNode_preserve_slots g it i).1, (setNode_preserve_slots g it i).2]

theorem maxSlot_setNode_color (g : Graph) (it : ℕ) :
    maxSlot (g.setNode it { g.node it with color := 0 }) = maxSlot g := by
  unfold maxSlot
  have hn : (g.setNode it { g.node it with color := 0 }).n = g.n := rfl
  rw [hn]
  apply foldl_congr_here
  intro a i _
  rw [(setNode_preserve_slots g it i).1]

theorem findSlotGo_setNode_color (g : Graph) (it : ℕ) :
    ∀ fuel s, findSlotGo (g.setNode it { g.node it with color := 0 }) it fuel s =
      findSlotGo g it fuel s := by
  intro fuel
  induction fuel with
  | zero => intro s; rfl
  | succ fuel ih =>
    intro s
    show (if slotConflict (g.setNode it { g.node it with color := 0 }) it s
        then findSlotGo (g.setNode it { g.node it with color := 0 }) it fuel (s + 1)
        else s) =
      (if slotConflict g it s then findSlotGo g it fuel (s + 1) else s)
    rw [slotConflict_setNode_color, ih]

theorem findSlot_setNode_color (g : Graph) (it s : ℕ) :
    findSlot (g.setNode it { g.node it with color := 0 }) it s =
      findSlot g it s := by
  unfold findSlot
  rw [maxSlot_setNode_color, findSlotGo_setNode_color]

/-- C2 (amended) — the select step of `try_color`: writing `lim` for `K` (GP)
or `M` (FP), when the mask's lowest set bit `countr_zero(mask)` is at most
`lim` the node receives color `countr_zero(mask) + 1` — the lowest legal
color, drawn from the range `[1, lim + 1]`, one wider than the claimed
`[1, lim]` — and no spill counter moves; only when even color `lim + 1` is
blocked (`countr_zero(mask) > lim`) is the node spilled: the class's counter
is incremented, its color becomes 0, and its spill slot is the least positive
integer not held by any interfering neighbor. -/
theorem select_step_spec (g : Graph) (it mask K M : ℕ) (cnt : ℕ × ℕ) :
    (ctz64 mask ≤ (if (g.node it).isFp then M else K) →
      (selectStep g it mask K M cnt).1 = cnt ∧
      ((selectStep g it mask K M cnt).2.node it).color = ctz64 mask + 1 ∧
      1 ≤ ((selectStep g it mask K M cnt).2.node it).color ∧
      ((selectStep g it mask K M cnt).2.node it).color ≤
        (if (g.node it).isFp then M else K) + 1 ∧
      (∀ j, j < ctz64 mask → mask.testBit j = false) ∧
      ((selectStep g it mask K M cnt).2.node it).spillSlot =
        (g.node it).spillSlot) ∧
    ((if (g.node it).isFp then M else K) < ctz64 mask →
      (selectStep g it mask K M cnt).1 =
        (if (g.node it).isFp then (cnt.1, cnt.2 + 1) else (cnt.1 + 1, cnt.2)) ∧
      ((selectStep g it mask K M cnt).2.node it).color = 0 ∧
      1 ≤ ((selectStep g it mask K M cnt).2.node it).spillSlot ∧
      slotConflict g it ((selectStep g it mask K M cnt).2.node it).spillSlot =
        false ∧
      (∀ t, 1 ≤ t → t < ((selectStep g it mask K M cnt).2.node it).spillSlot →
        slotConflict g it t = true)) := by
  constructor
  · intro hle
    have hcond : ¬(ctz64 mask > (if (g.node it).isFp then M else K)) := by omega
    have hsel : selectStep g it mask K M cnt =
        (cnt, g.setNode it { g.node it with color := ctz64 mask + 1 }) := by
      rw [selectStep, if_neg hcond]
    have hnode : (selectStep g it mask K M cnt).2.node it =
        { g.node it with color := ctz64 mask + 1 } := by
      rw [hsel, setNode_node, if_pos rfl]
    rw [hnode, hsel]
    exact ⟨rfl, rfl, Nat.succ_le_succ (Nat.zero_le _), Nat.succ_le_succ hle,
      fun j hj => ctz64_testBit_below mask hj, rfl⟩
  · intro hgt
    have hcond : ctz64 mask > (if (g.node it).isFp then M else K) := hgt
    have hinner : (g.setNode it { g.node it with color := 0 }).node it =
        { g.node it with color := 0 } := by
      rw [setNode_node, if_pos rfl]
    have hsel : selectStep g it mask K M cnt =
        ((if (g.node it).isFp then (cnt.1, cnt.2 + 1) else (cnt.1 + 1, cnt.2)),
          (g.setNode it { g.node it with color := 0 }).setNode it
            { (g.setNode it { g.node it with color := 0 }).node it with
                spillSlot :=
                  findSlot (g.setNode it { g.node it with color := 0 }) it 1 }) := by
      rw [selectStep, if_pos hcond]
    have hnode : (selectStep g it mask K M cnt).2.node it =
        { { g.node it with color := 0 } with
            spillSlot := findSlot g it 1 } := by
      rw [hsel]
      show ((g.setNode it { g.node it with color := 0 }).setNode it
          { (g.setNode it { g.node it with color := 0 }).node it with
              spillSlot :=
                findSlot (g.setNode it { g.node it with color := 0 }) it 1 }).node
            it = _
      rw [setNode_node, if_pos rfl, hinner, findSlot_setNode_color]
    rw [hnode, hsel]
    obtain ⟨h1, h2, h3⟩ := findSlot_spec g it 1
    exact ⟨rfl, rfl, h1, h2, fun t ht1 ht2 => h3 t ht1 ht2⟩

/-! ### Concrete demonstration inputs -/

/-- Two interfering uncolored GP nodes (a 2-clique with self-bits). -/
def demoC2G : Graph where
  n := 2
  node := fun i =>
    if i = 0 then ⟨3, 24, [0, 0, 0, 0], 0, 0, false, 0⟩
    else if i = 1 then ⟨3, 24, [0, 0, 0, 0], 0, 0, false, 0⟩
    else ⟨0, 0, [0, 0, 0, 0], 0, 0, false, 0⟩

/-- C2 (counterexample) — coloring the 2-clique with `K = 1`: under the
claim's range `[1, K]` one of the two adjacent GP nodes would have to be
spilled, but the run returns spill counters `(0, 0)`, assigns color `2 = K + 1`
to node 0, and leaves both spill slots at 0. -/
theorem select_color_range_counterexample :
    (tryColor 2 demoC2G 1 16).1 = (0, 0) ∧
    ((tryColor 2 demoC2G 1 16).2.node 0).color = 2 ∧
    ((tryColor 2 demoC2G 1 16).2.node 1).color = 1 ∧
    ((tryColor 2 demoC2G 1 16).2.node 0).spillSlot = 0 ∧
    ((tryColor 2 demoC2G 1 16).2.node 1).spillSlot = 0 ∧
    (demoC2G.node 0).isFp = false ∧
    ((tryColor 2 demoC2G 1 16).2.node 0).vtx.testBit 1 = true := by decide

/-- A procedure with two simultaneously live GP virtual registers
(uids 136 and 138). -/
def demoC1 : MProc where
  basicBlocks := [
    { instructions := [
        ⟨VOp.other 0, ⟨136⟩, []⟩,
        ⟨VOp.other 0, ⟨138⟩, []⟩,
        ⟨VOp.other 0, ⟨0⟩, [.reg ⟨136⟩, .reg ⟨138⟩]⟩],
      successors := [] }]

set_option maxRecDepth 100000 in
def demoC1Res : AllocResult := (allocateRegisters demoC1).get (by decide)

/-- A two-block procedure: block 0 defines uid 136 and falls through to
block 1, which reads it. -/
def demoC5 : MProc where
  basicBlocks := [
    { instructions := [⟨VOp.other 0, ⟨136⟩, []⟩], successors := [1] },
    { instructions := [⟨VOp.other 0, ⟨0⟩, [.reg ⟨136⟩]⟩], successors := [] }]

/-- An FP virtual register (uid 137) live across 17 precolored FP physical
registers: its degree 17 exceeds `M = MAX_M = 16` on every budget, so the
allocator must spill it (exactly one 1-based slot, index 1). -/
def demoC7 : MProc where
  basicBlocks := [
    { instructions := [
        ⟨VOp.other 0, ⟨137⟩, []⟩,
        ⟨VOp.other 0, ⟨72⟩, []⟩,
        ⟨VOp.other 0, ⟨73⟩, []⟩,
        ⟨VOp.other 0, ⟨74⟩, []⟩,
        ⟨VOp.other 0, ⟨75⟩, []⟩,
        ⟨VOp.other 0, ⟨76⟩, []⟩,
        ⟨VOp.other 0, ⟨77⟩, []⟩,
        ⟨VOp.other 0, ⟨78⟩, []⟩,
        ⟨VOp.other 0, ⟨79⟩, []⟩,
        ⟨VOp.other 0, ⟨80⟩, []⟩,
        ⟨VOp.other 0, ⟨81⟩, []⟩,
        ⟨VOp.other 0, ⟨82⟩, []⟩,
        ⟨VOp.other 0, ⟨83⟩, []⟩,
        ⟨VOp.other 0, ⟨84⟩, []⟩,
        ⟨VOp.other 0, ⟨85⟩, []⟩,
        ⟨VOp.other 0, ⟨86⟩, []⟩,
        ⟨VOp.other 0, ⟨87⟩, []⟩,
        ⟨VOp.other 0, ⟨88⟩, []⟩,
        ⟨VOp.other 0, ⟨0⟩, [.reg ⟨72⟩, .reg ⟨73⟩, .reg ⟨74⟩, .reg ⟨75⟩]⟩,
        ⟨VOp.other 0, ⟨0⟩, [.reg ⟨76⟩, .reg ⟨77⟩, .reg ⟨78⟩, .reg ⟨79⟩]⟩,
        ⟨VOp.other 0, ⟨0⟩, [.reg ⟨80⟩, .reg ⟨81⟩, .reg ⟨82⟩, .reg ⟨83⟩]⟩,
        ⟨VOp.other 0, ⟨0⟩, [.reg ⟨84⟩, .reg ⟨85⟩, .reg ⟨86⟩, .reg ⟨87⟩]⟩,
        ⟨VOp.other 0, ⟨0⟩, [.reg ⟨88⟩]⟩,
        ⟨VOp.other 0, ⟨0⟩, [.reg ⟨137⟩]⟩],
      successors := [] }]
  nextFpCounter := 1

set_option maxRecDepth 100000 in
set_option maxHeartbeats 12000000 in
def demoC7Res : AllocResult := (allocateRegisters demoC7).get (by decide)

/-- A copy chain `136 → 138` whose coalescing hint makes both ends share a
color, so substitution turns the `movi` into a self-move. -/
def demoC8 : MProc where
  basicBlocks := [
    { instructions := [
        ⟨VOp.other 0, ⟨136⟩, []⟩,
        ⟨VOp.movi, ⟨138⟩, [.reg ⟨136⟩]⟩,
        ⟨VOp.other 0, ⟨0⟩, [.reg ⟨138⟩]⟩],
      successors := [] }]

set_option maxRecDepth 100000 in
def demoC8Res : AllocResult := (allocateRegisters demoC8).get (by decide)

/-- A single `loadi64` whose only register operand is its destination
(uid 136); the base of the memory operand is the null register. -/
def demoC6 : MProc where
  basicBlocks := [
    { instructions := [⟨VOp.loadi64, ⟨136⟩, [.mem ⟨⟨0⟩, 0⟩]⟩],
      successors := [] }]

/-! ### Claim C4 — `map_argument` -/

/-- C4 — the bound check of `map_argument_native` is reversed
(`std::size(gp_argument) < idx ? gp_argument[idx] : invalid`): for every
in-range index — here `(gp_idx, fp_idx, fp) = (0, 0, false)`, which the ABI
maps to `RDI` — it returns the `invalid` sentinel `NO_REG` instead of the
argument register, and for an out-of-range index (7 > 6) it performs the
out-of-bounds table read, embedded as the `none` of `List.get?`.  The FP
side has the same reversal. -/
theorem map_argument_reversed_bound_check :
    mapArgumentNative sysv64 0 0 false = some NativeReg.NO_REG ∧
    sysv64.gpArgument.get? 0 = some NativeReg.RDI ∧
    NativeReg.RDI ≠ NativeReg.NO_REG ∧
    mapArgumentNative sysv64 7 0 false = none ∧
    mapArgumentNative sysv64 0 0 true = some NativeReg.NO_REG ∧
    sysv64.fpArgument.get? 0 = some NativeReg.XMM0 ∧
    NativeReg.XMM0 ≠ NativeReg.NO_REG := by decide

/-! ### Claim C9 — `spill_and_swap`'s unreachable assertion -/

/-- C9 — the claim says the unreachable-assertion after `spill_and_swap`'s
placement loop is reached only when the bounded entry list is exhausted
without placing the operand.  In the source, the placement loop is only ever
left through `break` or by running out of entries, and either way control
falls through to `assume_unreachable()`: the `marker` field, which records
that that program point executes, is `true` on every call — including a
successful placement into a fresh 4-entry reload list, as the concrete
conjuncts show. -/
theorem spill_and_swap_always_reaches_marker :
    (∀ (p : MProc) (l : List SpillEntry) (m : MReg) (sa so ns : ℕ),
      (spillAndSwap p l m sa so ns).marker = true) ∧
    (spillAndSwap ⟨[], 0, 0, 0⟩ initReloads ⟨137⟩ 1 0 0).placed = true ∧
    (spillAndSwap ⟨[], 0, 0, 0⟩ initReloads ⟨137⟩ 1 0 0).marker = true :=
  ⟨fun _ _ _ _ _ _ => rfl, by decide, rfl⟩

/-! ### Claim C6 — use counts -/

/-- Modelled from the claim's words (not from the source): the use count
grows by 1 for each ordinary read, by an additional 100 for a read occurring
in a load/store-to-memory instruction, and never for writes. -/
def useCountSpecC6 (p : MProc) (uid : ℕ) : ℕ :=
  (p.basicBlocks.map (fun bb =>
    (bb.instructions.map (fun i =>
      (i.regVisits.map (fun v =>
        if v.1.uid = uid && v.2 then
          (if i.isSpillMemOp then 101 else 1)
        else 0)).sum)).sum)).sum

/-- C6 (counterexample) — a `loadi64` writing uid 136 and reading nothing:
the source's `+= 100` sits outside the `is_read` test, so the write alone
drives the use count to 100 (and the priority seed to `(100 + 1) * 12`),
while the claim's reads-only counting yields 0. -/
theorem use_count_write_counterexample :
    demoC6.useCount 136 = 100 ∧
    useCountSpecC6 demoC6 136 = 0 ∧
    ((buildGraphOnly (computeLiveness demoC6)).node 136).priority =
      (100 + 1) * RA_PRIO_HOT_BIAS := by decide

theorem useCountOf_aux (uid : ℕ) (s : Bool) :
    ∀ l : List (MReg × Bool),
      (l.map (fun v => (if v.1.uid = uid && v.2 then 1 else 0) +
          (if v.1.uid = uid && s then 100 else 0))).sum =
        (l.filter (fun v => v.1.uid = uid && v.2)).length +
          (if s then 100 * (l.filter (fun v => v.1.uid = uid)).length
            else 0) := by
  intro l
  induction l with
  | nil => cases s <;> simp
  | cons v rest ih =>
    rw [List.map_cons, List.sum_cons, List.filter_cons, List.filter_cons, ih]
    by_cases h1 : v.1.uid = uid
    · by_cases h2 : v.2 = true
      · cases s <;> simp [h1, h2] <;> omega
      · have h2' : v.2 = false := by simpa using h2
        cases s <;> simp [h1, h2'] <;> omega
    · cases s <;> simp [h1] <;> omega

theorem useCountOf_eq (i : MInsn) (uid : ℕ) :
    i.useCountOf uid =
      (i.regVisits.filter (fun v => v.1.uid = uid && v.2)).length +
        (if i.isSpillMemOp then
          100 * (i.regVisits.filter (fun v => v.1.uid = uid)).length
        else 0) := by
  unfold MInsn.useCountOf
  exact useCountOf_aux uid i.isSpillMemOp i.regVisits

/-- C6 (amended) — for every register id the use count is 1 per read visit
plus, for `loadi64`/`storei64`/`loadf64`/`storef64` instructions, 100 per
visited operand — read or written, the `+= 100` being outside the `is_read`
test — and the interference-graph node is seeded with priority
`(use_count + 1) × RA_PRIO_HOT_BIAS`. -/
theorem use_count_amended (p : MProc) (uid : ℕ) :
    p.useCount uid =
      (p.basicBlocks.map (fun bb =>
        (bb.instructions.map (fun i =>
          (i.regVisits.filter (fun v => v.1.uid = uid && v.2)).length +
            (if i.isSpillMemOp then
              100 * (i.regVisits.filter (fun v => v.1.uid = uid)).length
            else 0))).sum)).sum ∧
    ((buildGraphOnly p).node uid).priority =
      (p.useCount uid + 1) * RA_PRIO_HOT_BIAS := by
  constructor
  · unfold MProc.useCount
    congr 1
    apply List.map_congr_left
    intro bb _
    congr 1
    apply List.map_congr_left
    intro i _
    exact useCountOf_eq i uid
  · exact ((buildGraphOnly_inv p).1.fields uid).2.1

/-! ### Claim C3 — the picking scan -/

/-- Modelled from the claim's words (not from the source): scan for an
uncolored node of nonzero degree, preferring any of degree strictly below the
class budget; otherwise the minimum-priority over-degree node; otherwise
nothing. -/
def pickSpecC3 (g : Graph) (K M : ℕ) : Option ℕ :=
  match (List.range g.n).find? (fun i =>
      decide ((g.node i).color = 0 ∧ (g.node i).vtx ≠ 0 ∧
        bitCount (g.node i).vtx - 1 ≠ 0 ∧
        bitCount (g.node i).vtx - 1 < (if (g.node i).isFp then M else K))) with
  | some i => some i
  | none =>
    ((List.range g.n).filter (fun i =>
        decide ((g.node i).color = 0 ∧ (g.node i).vtx ≠ 0 ∧
          bitCount (g.node i).vtx - 1 ≠ 0 ∧
          ¬(bitCount (g.node i).vtx - 1 <
            (if (g.node i).isFp then M else K))))).foldl
      (fun acc i => match acc with
        | none => some i
        | some o =>
          if (g.node i).priority < (g.node o).priority then some i else some o)
      none

/-- A 2-clique of uncolored GP nodes with degree exactly 1 each, node 1 of
strictly smaller priority. -/
def demoC3G : Graph where
  n := 2
  node := fun i =>
    if i = 0 then ⟨3, 120, [0, 0, 0, 0], 0, 0, false, 0⟩
    else if i = 1 then ⟨3, 12, [0, 0, 0, 0], 0, 0, false, 0⟩
    else ⟨0, 0, [0, 0, 0, 0], 0, 0, false, 0⟩

/-- C3 (counterexample) — with `K = 1` both nodes have degree exactly
`K = 1`: the source's scan treats degree `≤ K` as simplifiable and returns
node 0 at once, while under the claim's strict `< K` no node is simplifiable
and the minimum-priority node 1 would be the over-degree spill pick. -/
theorem pick_degree_boundary_counterexample :
    pick demoC3G 1 16 = some 0 ∧
    pickSpecC3 demoC3G 1 16 = some 1 ∧
    bitCount (demoC3G.node 0).vtx - 1 = 1 ∧
    bitCount (demoC3G.node 1).vtx - 1 = 1 ∧
    (demoC3G.node 1).priority < (demoC3G.node 0).priority := by decide

theorem pickGo_skip_all (g : Graph) (K M : ℕ) :
    ∀ (l : List ℕ) (over : Option ℕ),
      (∀ i ∈ l, (g.node i).color ≠ 0 ∨ (g.node i).vtx = 0) →
      pickGo g K M l over = over := by
  intro l
  induction l with
  | nil => intro over _; rfl
  | cons i rest ih =>
    intro over h
    rw [pickGo]
    rcases h i (List.mem_cons_self i rest) with hc | hv
    · rw [if_pos hc]
      exact ih over (fun j hj => h j (List.mem_cons_of_mem _ hj))
    · by_cases hc : (g.node i).color ≠ 0
      · rw [if_pos hc]
        exact ih over (fun j hj => h j (List.mem_cons_of_mem _ hj))
      · rw [if_neg hc, if_pos (bitCount_eq_zero.mpr hv)]
        exact ih over (fun j hj => h j (List.mem_cons_of_mem _ hj))

/-- The over-limit accumulation step the scan performs on an active node. -/
def overStep (g : Graph) (ov : Option ℕ) (i : ℕ) : Option ℕ :=
  if (g.node i).color = 0 ∧ (g.node i).vtx ≠ 0 then bumpOver g i ov else ov

theorem pickGo_no_simp (g : Graph) (K M : ℕ) :
    ∀ (l1 : List ℕ) (l2 : List ℕ) (over : Option ℕ),
      (∀ i ∈ l1, ¬((g.node i).color = 0 ∧ (g.node i).vtx ≠ 0 ∧
        bitCount (g.node i).vtx - 1 ≤ (if (g.node i).isFp then M else K))) →
      pickGo g K M (l1 ++ l2) over =
        pickGo g K M l2 (l1.foldl (overStep g) over) := by
  intro l1
  induction l1 with
  | nil => intro l2 over _; rfl
  | cons i rest ih =>
    intro l2 over h
    rw [List.cons_append, pickGo, List.foldl_cons]
    have hrest := fun j hj => h j (List.mem_cons_of_mem i hj)
    by_cases hc : (g.node i).color ≠ 0
    · rw [if_pos hc]
      have hstep : overStep g over i = over := by
        unfold overStep
        rw [if_neg]
        rintro ⟨h1, _⟩
        exact hc h1
      rw [hstep]
      exact ih l2 over hrest
    · have hceq : (g.node i).color = 0 := not_not.mp hc
      rw [if_neg hc]
      by_cases hz : bitCount (g.node i).vtx = 0
      · rw [if_pos hz]
        have hstep : overStep g over i = over := by
          unfold overStep
          rw [if_neg]
          rintro ⟨_, h2⟩
          exact h2 (bitCount_eq_zero.mp hz)
        rw [hstep]
        exact ih l2 over hrest
      · rw [if_neg hz]
        have hv : (g.node i).vtx ≠ 0 := bitCount_ne_zero_iff.mp hz
        by_cases hdeg : bitCount (g.node i).vtx - 1 >
            (if (g.node i).isFp then M else K)
        · rw [if_pos hdeg]
          have hstep : overStep g over i = bumpOver g i over := by
            unfold overStep
            rw [if_pos ⟨hceq, hv⟩]
          rw [hstep]
          exact ih l2 (bumpOver g i over) hrest
        · exfalso
          exact h i (List.mem_cons_self i rest) ⟨hceq, hv, by omega⟩

theorem pickGo_simp_head (g : Graph) (K M it : ℕ) (l : List ℕ)
    (over : Option ℕ) (h1 : (g.node it).color = 0) (h2 : (g.node it).vtx ≠ 0)
    (h3 : bitCount (g.node it).vtx - 1 ≤ (if (g.node it).isFp then M else K)) :
    pickGo g K M (it :: l) over = some it := by
  rw [pickGo]
  rw [if_neg (fun hn => hn h1)]
  rw [if_neg (fun hb => h2 (bitCount_eq_zero.mp hb))]
  rw [if_neg (by omega)]

theorem overFold_range' (g : Graph) :
    ∀ (len s : ℕ) (over : Option ℕ),
      ((over = none →
          ∀ j, j < s → ¬((g.node j).color = 0 ∧ (g.node j).vtx ≠ 0)) ∧
        (∀ o, over = some o → o < s ∧ (g.node o).color = 0 ∧
          (g.node o).vtx ≠ 0 ∧
          (∀ j, j < s → (g.node j).color = 0 ∧ (g.node j).vtx ≠ 0 →
            (g.node o).priority ≤ (g.node j).priority) ∧
          (∀ j, j < o → (g.node j).color = 0 ∧ (g.node j).vtx ≠ 0 →
            (g.node o).priority < (g.node j).priority))) →
      (((List.range' s len).foldl (overStep g) over = none →
          ∀ j, j < s + len → ¬((g.node j).color = 0 ∧ (g.node j).vtx ≠ 0)) ∧
        (∀ o, (List.range' s len).foldl (overStep g) over = some o →
          o < s + len ∧ (g.node o).color = 0 ∧ (g.node o).vtx ≠ 0 ∧
          (∀ j, j < s + len → (g.node j).color = 0 ∧ (g.node j).vtx ≠ 0 →
            (g.node o).priority ≤ (g.node j).priority) ∧
          (∀ j, j < o → (g.node j).color = 0 ∧ (g.node j).vtx ≠ 0 →
            (g.node o).priority < (g.node j).priority))) := by
  intro len
  induction len with
  | zero =>
    intro s over h
    simpa using h
  | succ len ih =>
    intro s over h
    rw [List.range'_succ, List.foldl_cons]
    have hnext :
        ((overStep g over s = none →
            ∀ j, j < s + 1 → ¬((g.node j).color = 0 ∧ (g.node j).vtx ≠ 0)) ∧
          (∀ o, overStep g over s = some o → o < s + 1 ∧
            (g.node o).color = 0 ∧ (g.node o).vtx ≠ 0 ∧
            (∀ j, j < s + 1 → (g.node j).color = 0 ∧ (g.node j).vtx ≠ 0 →
              (g.node o).priority ≤ (g.node j).priority) ∧
            (∀ j, j < o → (g.node j).color = 0 ∧ (g.node j).vtx ≠ 0 →
              (g.node o).priority < (g.node j).priority))) := by
      by_cases hA : (g.node s).color = 0 ∧ (g.node s).vtx ≠ 0
      · have hstep : overStep g over s = bumpOver g s over := by
          unfold overStep
          rw [if_pos hA]
        rw [hstep]
        cases hov : over with
        | none =>
          rw [bumpOver]
          refine ⟨(fun hcontra => by cases hcontra), fun o ho => ?_⟩
          injection ho with ho
          subst ho
          refine ⟨by omega, hA.1, hA.2, fun j hj hAj => ?_, fun j hj hAj => ?_⟩
          · rcases Nat.lt_or_ge j s with hjs | hjs
            · exact absurd hAj ((h.1 hov) j hjs)
            · have : j = s := by omega
              subst this
              exact le_refl _
          · exact absurd hAj ((h.1 hov) j hj)
        | some o0 =>
          obtain ⟨ho0s, ho0c, ho0v, ho0min, ho0strict⟩ := h.2 o0 hov
          rw [bumpOver]
          by_cases hcmp : (g.node o0).priority > (g.node s).priority
          · rw [if_pos hcmp]
            refine ⟨(fun hcontra => by cases hcontra), fun o ho => ?_⟩
            injection ho with ho
            subst ho
            refine ⟨by omega, hA.1, hA.2, fun j hj hAj => ?_,
              fun j hj hAj => ?_⟩
            · rcases Nat.lt_or_ge j s with hjs | hjs
              · exact le_trans (le_of_lt hcmp) (ho0min j hjs hAj)
              · have : j = s := by omega
                subst this
                exact le_refl _
            · exact lt_of_lt_of_le hcmp (ho0min j hj hAj)
          · rw [if_neg hcmp]
            refine ⟨(fun hcontra => by cases hcontra), fun o ho => ?_⟩
            injection ho with ho
            subst ho
            refine ⟨by omega, ho0c, ho0v, fun j hj hAj => ?_, ho0strict⟩
            rcases Nat.lt_or_ge j s with hjs | hjs
            · exact ho0min j hjs hAj
            · have : j = s := by omega
              subst this
              omega
      · have hstep : overStep g over s = over := by
          unfold overStep
          rw [if_neg hA]
        rw [hstep]
        refine ⟨fun hov j hj => ?_, fun o ho => ?_⟩
        · rcases Nat.lt_or_ge j s with hjs | hjs
          · exact (h.1 hov) j hjs
          · have : j = s := by omega
            subst this
            exact hA
        · obtain ⟨hos, hoc, hov2, homin, hostrict⟩ := h.2 o ho
          refine ⟨by omega, hoc, hov2, fun j hj hAj => ?_, hostrict⟩
          rcases Nat.lt_or_ge j s with hjs | hjs
          · exact homin j hjs hAj
          · have : j = s := by omega
            subst this
            exact absurd hAj hA
    have := ih (s + 1) (overStep g over s) hnext
    constructor
    · intro hres j hj
      exact this.1 hres j (by omega)
    · intro o ho
      obtain ⟨h1, h2, h3, h4, h5⟩ := this.2 o ho
      exact ⟨by omega, h2, h3, fun j hj => h4 j (by omega), h5⟩

/-- C3 (amended) — the picking scan of `try_color`: it returns the first
uncolored node of nonzero popcount whose degree (`popcount(vtx) − 1`) is at
most `K` (GP) or `M` (FP) — boundary `≤`, one wider than the claimed strict
`<`; when no such node exists, it returns the first strict-minimum-priority
uncolored node of nonzero popcount (all of which are then over the limit);
and it returns `none` — the `(0, 0)` success of `try_color` — exactly when no
uncolored node of nonzero popcount remains. -/
theorem pick_amended (g : Graph) (K M : ℕ) :
    (pick g K M = none ↔
      ∀ i, i < g.n → ¬((g.node i).color = 0 ∧ (g.node i).vtx ≠ 0)) ∧
    (∀ it, pick g K M = some it →
      it < g.n ∧ (g.node it).color = 0 ∧ (g.node it).vtx ≠ 0 ∧
      ((bitCount (g.node it).vtx - 1 ≤ (if (g.node it).isFp then M else K) ∧
        ∀ j, j < it →
          ¬((g.node j).color = 0 ∧ (g.node j).vtx ≠ 0 ∧
            bitCount (g.node j).vtx - 1 ≤ (if (g.node j).isFp then M else K))) ∨
       ((if (g.node it).isFp then M else K) < bitCount (g.node it).vtx - 1 ∧
        (∀ j, j < g.n →
          ¬((g.node j).color = 0 ∧ (g.node j).vtx ≠ 0 ∧
            bitCount (g.node j).vtx - 1 ≤ (if (g.node j).isFp then M else K))) ∧
        (∀ j, j < g.n → (g.node j).color = 0 ∧ (g.node j).vtx ≠ 0 →
          (g.node it).priority ≤ (g.node j).priority) ∧
        (∀ j, j < it → (g.node j).color = 0 ∧ (g.node j).vtx ≠ 0 →
          (g.node it).priority < (g.node j).priority)))) := by
  constructor
  · constructor
    · intro h i hi
      rintro ⟨h1, h2⟩
      rcases pick_none h i hi with hc | hv
      · exact hc h1
      · exact h2 hv
    · intro hall
      rw [pick]
      apply pickGo_skip_all
      intro i hi
      by_cases hc : (g.node i).color = 0
      · right
        by_contra hv
        exact hall i (List.mem_range.mp hi) ⟨hc, hv⟩
      · left
        exact hc
  · intro it hpick
    obtain ⟨hin, hic, hiv⟩ := pick_sound hpick
    refine ⟨hin, hic, hiv, ?_⟩
    by_cases hex : ∃ j, j < g.n ∧ ((g.node j).color = 0 ∧ (g.node j).vtx ≠ 0 ∧
        bitCount (g.node j).vtx - 1 ≤ (if (g.node j).isFp then M else K))
    · left
      obtain ⟨hj0n, hj0c, hj0v, hj0d⟩ := Nat.find_spec hex
      have hj0lt : Nat.find hex ≤ g.n := le_of_lt hj0n
      have hsplit : List.range g.n =
          List.range' 0 (Nat.find hex) ++
            (Nat.find hex ::
              List.range' (Nat.find hex + 1) (g.n - Nat.find hex - 1)) := by
        rw [List.range_eq_range']
        have h1 : List.range' 0 (Nat.find hex) ++
            List.range' (0 + 1 * Nat.find hex) (g.n - Nat.find hex) 1 =
            List.range' 0 (g.n - Nat.find hex + Nat.find hex) :=
          List.range'_append 0 (Nat.find hex) (g.n - Nat.find hex) 1
        have h2 : g.n - Nat.find hex + Nat.find hex = g.n := by omega
        rw [h2] at h1
        rw [← h1]
        have h3 : g.n - Nat.find hex = (g.n - Nat.find hex - 1) + 1 := by omega
        rw [h3, List.range'_succ]
        simp
      have hpick2 : pick g K M = some (Nat.find hex) := by
        rw [pick, hsplit, pickGo_no_simp g K M _ _ none ?_,
          pickGo_simp_head g K M _ _ _ hj0c hj0v hj0d]
        intro i hi
        have hilt : i < Nat.find hex := by
          rcases List.mem_range'_1.mp hi with ⟨_, h2⟩
          omega
        intro hS
        exact Nat.find_min hex hilt ⟨by omega, hS⟩
      rw [hpick2] at hpick
      injection hpick with he
      subst he
      exact ⟨hj0d, fun j hj hS =>
        Nat.find_min hex hj ⟨lt_trans hj hj0n, hS⟩⟩
    · right
      have hnos : ∀ j, j < g.n →
          ¬((g.node j).color = 0 ∧ (g.node j).vtx ≠ 0 ∧
            bitCount (g.node j).vtx - 1 ≤ (if (g.node j).isFp then M else K)) :=
        fun j hj hS => hex ⟨j, hj, hS⟩
      have hfold : pick g K M =
          (List.range g.n).foldl (overStep g) none := by
        rw [pick]
        have happ := pickGo_no_simp g K M (List.range g.n) [] none
          (fun i hi => hnos i (List.mem_range.mp hi))
        rw [List.append_nil] at happ
        rw [happ]
        rfl
      have hinv := overFold_range' g g.n 0 none
        ⟨fun _ j hj => by omega, fun o ho => by cases ho⟩
      rw [hfold] at hpick
      rw [List.range_eq_range'] at hpick
      obtain ⟨_, h2, h3, h4, h5⟩ := hinv.2 it hpick
      refine ⟨?_, hnos, fun j hj hAj => h4 j (by omega) hAj, h5⟩
      have := hnos it hin
      by_contra hle
      exact this ⟨hic, hiv, by omega⟩

/-! ### Witnesses at the concrete inputs -/

set_option maxRecDepth 100000 in
/-- Witness for C1 at `demoC1`: the pipeline succeeds, nodes 136 and 138 are
adjacent in the final graph, and they carry distinct nonzero colors. -/
theorem valid_coloring_witness :
    allocateRegisters demoC1 = some demoC1Res ∧
    136 < demoC1Res.graph.n ∧ 138 < demoC1Res.graph.n ∧ 136 ≠ 138 ∧
    (demoC1Res.graph.node 136).vtx.testBit 138 = true ∧
    (((demoC1Res.graph.node 136).spillSlot ≠ 0 ∧
      (demoC1Res.graph.node 138).spillSlot ≠ 0 ∧
      (demoC1Res.graph.node 136).spillSlot ≠
        (demoC1Res.graph.node 138).spillSlot) ∨
     ((demoC1Res.graph.node 136).color ≠ 0 ∧
      (demoC1Res.graph.node 138).color ≠ 0 ∧
      (demoC1Res.graph.node 136).color ≠ (demoC1Res.graph.node 138).color)) :=
  have heq : allocateRegisters demoC1 = some demoC1Res :=
    (Option.some_get _).symm
  have h1 : 136 < demoC1Res.graph.n := by decide
  have h2 : 138 < demoC1Res.graph.n := by decide
  have h3 : (136 : ℕ) ≠ 138 := by decide
  have h4 : (demoC1Res.graph.node 136).vtx.testBit 138 = true := by decide
  ⟨heq, h1, h2, h3, h4,
    valid_coloring_after_success demoC1 demoC1Res heq 136 138 h1 h2 h3 h4⟩

/-- Witness for C5 at `demoC5`, block 0: both stored data-flow equations
hold after `computeLiveness`. -/
theorem liveness_fixpoint_equations_witness :
    0 < (computeLiveness demoC5).basicBlocks.length ∧
    (((computeLiveness demoC5).basicBlocks.getD 0 default).dfInLive =
      (succUnion ((computeLiveness demoC5).basicBlocks.map MBlock.dfInLive)
          ((computeLiveness demoC5).basicBlocks.getD 0 default).successors \
        ((computeLiveness demoC5).basicBlocks.getD 0 default).dfDef) ∪
        ((computeLiveness demoC5).basicBlocks.getD 0 default).dfRef ∧
     ((computeLiveness demoC5).basicBlocks.getD 0 default).dfOutLive =
      succUnion ((computeLiveness demoC5).basicBlocks.map MBlock.dfInLive)
        ((computeLiveness demoC5).basicBlocks.getD 0 default).successors) :=
  ⟨by decide, liveness_fixpoint_equations demoC5 0 (by decide)⟩

set_option maxRecDepth 100000 in
set_option maxHeartbeats 12000000 in
/-- Witness for C7 at `demoC7`: the run spills exactly one slot (highest
materialized 1-based index 1) and `used_stack_length` lands on
`((1 + 1) & ~1) * 8 = 16`. -/
theorem used_stack_length_witness :
    allocateRegisters demoC7 = some demoC7Res ∧
    demoC7Res.ghost.foldl max 0 = 1 ∧
    demoC7Res.proc.usedStackLength = 16 ∧
    demoC7Res.proc.usedStackLength =
      (demoC7Res.ghost.foldl max 0 + 1) / 2 * 2 * 8 :=
  have heq : allocateRegisters demoC7 = some demoC7Res :=
    (Option.some_get _).symm
  have hg : demoC7Res.ghost.foldl max 0 = 1 := by decide
  have hthm := used_stack_length_formula demoC7 demoC7Res heq
  ⟨heq, hg, hthm.2 hg, hthm.1⟩

set_option maxRecDepth 100000 in
/-- Witness for C8 at `demoC8`: the pipeline succeeds (coalescing makes the
`movi` a self-move, which the final pass deletes) and the final stream passes
the no-self-move check. -/
theorem no_self_moves_witness :
    allocateRegisters demoC8 = some demoC8Res ∧
    demoC8Res.proc.basicBlocks.all
      (fun bb => bb.instructions.all (fun i => !isSelfMove i)) = true :=
  have heq : allocateRegisters demoC8 = some demoC8Res :=
    (Option.some_get _).symm
  ⟨heq, no_self_moves_after demoC8 demoC8Res heq⟩

end LightningRA
